import Mathlib

/-!
# BRIDGE shell: command classification, redirection and pipelines

A shallow embedding of `src/shell.c` (tokenizer, classifier, redirection and
pipeline executors, builtins, line editor) and of the parts of `src/lib.c`
it relies on (`getpid`, `setpgid`, `exec_program`, `set_cwd`,
`normalize_path`).

* A C string is a `List Char`; reading at or past its end yields the
  terminating NUL.  Every loop that tests `s[i]` in the source also tests it
  here, so a list with an embedded NUL is cut where C would cut it.
* A `char buf[N]` that is filled front to back is the list of the characters
  written so far; the index of the next write is the length of that list.
* Calls into the kernel that have an effect are recorded, in order, in a list
  of `Call`s.  What the kernel answers comes from a `World`.  Calls that only
  read (`getpid`, `get_cwd`) are not recorded.
-/

namespace Bridge

/-! ## C strings -/

/-- The string terminator `'\0'`. -/
def NUL : Char := Char.ofNat 0

/-- The test `c == ' ' || c == '\t'` used by every tokenizer loop. -/
def is_blank (c : Char) : Bool := c == ' ' || c == '\t'

/-- The read `s[i]`: the terminator at and past the end of the string. -/
def cget (s : List Char) (i : Nat) : Char := s.getD i NUL

/-- The characters of the C string stored in `s`: those before the first
NUL. -/
def cstr (s : List Char) : List Char := s.takeWhile (fun c => c ≠ NUL)

/-- The loop `while (p[i] == ' ' || p[i] == '\t') i++;`, returning what is
left to read. -/
def skip_blanks : List Char → List Char
  | [] => []
  | c :: cs => if is_blank c then skip_blanks cs else c :: cs

/-- The loop
`while (p[i] && p[i] != ' ' && p[i] != '\t' && n < max) buf[n++] = p[i++];`
started with `buf` holding `n` characters; returns the buffer and what is
left to read. -/
def copy_word (max : Nat) : List Char → List Char → List Char × List Char
  | buf, [] => (buf, [])
  | buf, c :: cs =>
    if c ≠ NUL ∧ is_blank c = false ∧ buf.length < max then
      copy_word max (buf ++ [c]) cs
    else (buf, c :: cs)

/-- The loop `while (p[j] && n < max) buf[n++] = p[j++];` started with `buf`
holding `n` characters. -/
def copy_upto (max : Nat) : List Char → List Char → List Char
  | buf, [] => buf
  | buf, c :: cs =>
    if c ≠ NUL ∧ buf.length < max then copy_upto max (buf ++ [c]) cs else buf

/-- The function `str_eq` of shell.c on two non-null strings. -/
def str_eq : List Char → List Char → Bool
  | [], [] => true
  | [], b :: _ => NUL == b
  | a :: _, [] => a == NUL
  | a :: as, b :: bs =>
    if a = NUL ∨ b = NUL then a == b
    else if a ≠ b then false
    else str_eq as bs

/-- The tokenizer that shell.c writes out three times (in `parse_input`, in
`exec_redirect` and in `exec_pipeline`): skip blanks, copy the first word
into a buffer of `cmd_max + 1` bytes, skip blanks, copy the rest into a
buffer of `arg_max + 1` bytes.  Returns the verb and the argument string. -/
def tokenize (cmd_max arg_max : Nat) (s : List Char) : List Char × List Char :=
  let p := skip_blanks s
  let (cmd, p) := copy_word cmd_max [] p
  let p := skip_blanks p
  (cmd, copy_upto arg_max [] p)

/-- The function `parse_input`: the contents of `cmd_buf[64]` and
`args_buf[256]` after the call. -/
def parse_input (input : List Char) : List Char × List Char :=
  tokenize 63 255 input

/-- The function `has_pipe`. -/
def has_pipe : List Char → Bool
  | [] => false
  | c :: cs => if c = NUL then false else if c = '|' then true else has_pipe cs

/-- The loop of `find_redirect` from index `i` on, reading `p = input + i`:
the returned mode (0 none, 1 overwrite, 2 append) and the value left in
`*redir_pos`, which the caller initialises to 0. -/
def find_redirect_from : List Char → Nat → Nat × Nat
  | [], _ => (0, 0)
  | c :: cs, i =>
    if c = NUL then (0, 0)
    else if c = '>' then
      (if cget cs 0 = '>' then 2 else 1, i)
    else find_redirect_from cs (i + 1)

/-- The function `find_redirect`: its result and `*redir_pos` afterwards. -/
def find_redirect (input : List Char) : Nat × Nat :=
  find_redirect_from input 0

/-! ## Kernel interface -/

/-- Modelled from the spec: `struct vfs_node` is declared in `fs/vfs.h`,
which is not among the sources.  A node handle is kept as an identity plus
what the shell and lib.c read from it: the file's current size in bytes and
the outcome of the test `node->flags & VFS_DIRECTORY`. -/
structure vfs_node where
  id : Nat
  size : Nat
  is_dir : Bool
deriving DecidableEq, Repr

/-- The constant `SHELL_MAX_FDS`. -/
def SHELL_MAX_FDS : Nat := 64

/-- The constant `SHELL_FD_UNUSED`. -/
def SHELL_FD_UNUSED : Nat := 0

/-- The constant `SHELL_FD_FILE`. -/
def SHELL_FD_FILE : Nat := 1

/-- The constant `SHELL_FD_CONSOLE`. -/
def SHELL_FD_CONSOLE : Nat := 3

/-- The constant `SHELL_FD_PIPE`. -/
def SHELL_FD_PIPE : Nat := 4

/-- The record `struct shell_fd_entry`.  `node` is `none` for a null
pointer; `pipe` is the address of a `struct shell_pipe`, 0 for null;
`offset` is an `unsigned int`. -/
structure shell_fd_entry where
  type : Nat
  node : Option vfs_node
  offset : Nat
  flags : Nat
  pipe : Nat
deriving DecidableEq, Repr

/-- An effectful call made by the shell, with its arguments.  A spawn
carries the program path, `argv[0]`, `argv[1]` (`none` for null) and the
descriptor table passed as `fd_overrides` (`none` for null). -/
inductive Call where
  | mt_print (s : List Char)
  | fat32_touch_path (path : List Char)
  | vfs_resolve_path (path : List Char)
  | fat32_truncate (node : vfs_node) (size : Int)
  | fat32_flush_size (node : vfs_node)
  | pipe_alloc
  | sched_spawn (path : List Char) (argv0 : List Char)
      (argv1 : Option (List Char)) (fds : Option (List shell_fd_entry))
  | setpgid (pid pgid : Int)
  | tcsetpgrp (pgid : Int)
  | sched_waitpid (pid : Int)
  | list_dir (path : List Char)
  | clear_screen
  | set_cursor (row col : Int)
  | ensure_path_exists (path : List Char)
deriving DecidableEq, Repr

/-- What the kernel answers.  `spawn n path` is the result of the `n`-th
`sched_spawn` of one command (counted from 0), `pipe n` the pointer returned
by the `n`-th `pipe_alloc` (0 for null), `resolve path` the node found by
`vfs_resolve_path`, `pid` the result of `getpid`, `cwd` the string returned
by `get_cwd` (the static `cwd` of lib.c), `wait pid` the exit status returned
by `sched_waitpid`.  `vfs_max_path` and `vfs_max_name` are the constants
`VFS_MAX_PATH` and `VFS_MAX_NAME` of `fs/vfs.h`, which is not among the
sources.  `ensure_path path` tells whether `ensure_path_exists` returns a
node (`true`) or null. -/
structure World where
  cwd : List Char
  pid : Int
  resolve : List Char → Option vfs_node
  spawn : Nat → List Char → Int
  pipe : Nat → Nat
  wait : Int → Int
  list_dir : List Char → List Char
  vfs_max_path : Nat
  vfs_max_name : Nat
  ensure_path : List Char → Bool

/-! ## Paths and descriptor tables -/

/-- The function `shell_build_path`: the contents of `out`. -/
def shell_build_path (cwd name : List Char) : List Char :=
  if cget name 0 = '/' then copy_upto 255 [] name
  else
    let out := copy_upto 200 [] cwd
    let out := if out.length > 0 ∧ cget out (out.length - 1) ≠ '/' then out ++ ['/'] else out
    copy_upto 255 out name

/-- The block "Build program path" that precedes every spawn: the verb itself
when it starts with `/`, otherwise `/apps/` followed by the verb, cut at 255
characters. -/
def program_path (cmd : List Char) : List Char :=
  if cget cmd 0 ≠ '/' then copy_upto 255 "/apps/".toList cmd else cmd

/-- The value given to `argv[1]`: `(args[0] != '\0') ? args : 0`. -/
def argv1_of (args : List Char) : Option (List Char) :=
  if cget args 0 ≠ NUL then some args else none

/-- One slot as left by the initialising `for` loop over the table. -/
def fd_unused : shell_fd_entry :=
  { type := SHELL_FD_UNUSED, node := none, offset := 0, flags := 0, pipe := 0 }

/-- The table after the initialising loop: `SHELL_MAX_FDS` unused slots. -/
def fds_init : List shell_fd_entry := List.replicate SHELL_MAX_FDS fd_unused

/-- The assignment `fds[i] = f (fds[i])`. -/
def fds_update (fds : List shell_fd_entry) (i : Nat)
    (f : shell_fd_entry → shell_fd_entry) : List shell_fd_entry :=
  fds.modify f i

/-- The table `exec_redirect` builds: console, the file, console. -/
def redirect_fds (file_node : vfs_node) (mode : Nat) : List shell_fd_entry :=
  let fds := fds_init
  let fds := fds_update fds 0 (fun e => { e with type := SHELL_FD_CONSOLE })
  let fds := fds_update fds 1 (fun e =>
    { e with type := SHELL_FD_FILE, node := some file_node,
             offset := if mode = 2 then file_node.size % 2 ^ 32 else 0,
             flags := 0 })
  fds_update fds 2 (fun e => { e with type := SHELL_FD_CONSOLE })

/-- The table `exec_pipeline` builds for stage `i` of `seg_count`, given the
array `pipes`. -/
def pipeline_fds (seg_count : Nat) (pipes : List Nat) (i : Nat) : List shell_fd_entry :=
  let fds := fds_init
  let fds :=
    if i = 0 then fds_update fds 0 (fun e => { e with type := SHELL_FD_CONSOLE })
    else fds_update fds 0 (fun e =>
      { e with type := SHELL_FD_PIPE, pipe := pipes.getD (i - 1) 0, flags := 0 })
  let fds :=
    if i = seg_count - 1 then fds_update fds 1 (fun e => { e with type := SHELL_FD_CONSOLE })
    else fds_update fds 1 (fun e =>
      { e with type := SHELL_FD_PIPE, pipe := pipes.getD i 0, flags := 1 })
  fds_update fds 2 (fun e => { e with type := SHELL_FD_CONSOLE })

/-! ## Redirection executor -/

/-- The loop
`while (cmd_len > 0 && (input[cmd_len-1] == ' ' || input[cmd_len-1] == '\t')) cmd_len--;`
of `exec_redirect`, started at `cmd_len = n`. -/
def trim_end (input : List Char) : Nat → Nat
  | 0 => 0
  | n + 1 => if is_blank (cget input n) then trim_end input n else n + 1

/-- The value of `cmd_len` in `exec_redirect` once trailing blanks are
dropped. -/
def redirect_cmd_len (input : List Char) (redir_pos : Nat) : Nat :=
  trim_end input redir_pos

/-- The indices of `cmd_part[256]` that `exec_redirect` writes: the copy loop
`for (i = 0; i < cmd_len && i < 255; i++)` and then the terminator at
`cmd_len`. -/
def redirect_cmd_writes (input : List Char) (redir_pos : Nat) : List Nat :=
  List.range (min (redirect_cmd_len input redir_pos) 255) ++ [redirect_cmd_len input redir_pos]

/-- The characters copied into `cmd_part` by
`for (i = 0; i < cmd_len && i < 255; i++) cmd_part[i] = input[i];`.
When `cmd_len` exceeds 255 the terminator is written outside the buffer (see
`redirect_cmd_writes`); the model then keeps the 255 copied characters. -/
def redirect_cmd_part (input : List Char) (redir_pos : Nat) : List Char :=
  (List.range (min (redirect_cmd_len input redir_pos) 255)).map (cget input)

/-- The index `fi` where `exec_redirect` starts to look for the filename. -/
def redirect_fi (redir_pos mode : Nat) : Nat :=
  if mode = 2 then redir_pos + 1 + 1 else redir_pos + 1

/-- The contents of `filename[256]` in `exec_redirect`. -/
def redirect_filename (input : List Char) (redir_pos mode : Nat) : List Char :=
  (copy_word 255 [] (skip_blanks (input.drop (redirect_fi redir_pos mode)))).1

/-- The function `exec_redirect`: its return value and the calls it makes. -/
def exec_redirect (w : World) (input : List Char) (redir_pos mode : Nat) :
    Int × List Call :=
  let cmd_len := redirect_cmd_len input redir_pos
  let cmd_part := redirect_cmd_part input redir_pos
  let filename := redirect_filename input redir_pos mode
  if filename.length = 0 ∨ cmd_len = 0 then
    (-1, [Call.mt_print "syntax error near '>'\n".toList])
  else
    let full_file_path := shell_build_path w.cwd filename
    let t := [Call.fat32_touch_path full_file_path, Call.vfs_resolve_path full_file_path]
    match w.resolve full_file_path with
    | none =>
      (-1, t ++ [Call.mt_print "redirect: cannot open ".toList, Call.mt_print filename,
                 Call.mt_print "\n".toList])
    | some file_node =>
      let t := if mode = 1 then t ++ [Call.fat32_truncate file_node 0] else t
      let (r_cmd, r_args) := tokenize 63 255 cmd_part
      let path := program_path r_cmd
      let fds := redirect_fds file_node mode
      let shell_pgid := w.pid
      let pid := w.spawn 0 path
      let t := t ++ [Call.sched_spawn path r_cmd (argv1_of r_args) (some fds)]
      if pid < 0 then
        (-1, t ++ [Call.mt_print "redirect: command not found: ".toList, Call.mt_print r_cmd,
                   Call.mt_print "\n".toList])
      else
        (0, t ++ [Call.tcsetpgrp pid, Call.sched_waitpid pid, Call.tcsetpgrp shell_pgid,
                  Call.fat32_flush_size file_node])

/-! ## Pipeline executor -/

/-- The splitting loop of `exec_pipeline`.  `segs` are the finished rows
`segments[0 .. seg_count)`, `cur` is the row being filled
(`segments[seg_count][0 .. di)`), and the list is what is left to read.  The
inner `while` that skips blanks after a `|` is the state `skipping = true`:
it consumes blanks without looking at `seg_count` and then hands over to the
loop test `input[i] && seg_count < 4`. -/
def split_loop : List (List Char) → List Char → Bool → List Char →
    List (List Char) × List Char
  | segs, cur, _, [] => (segs, cur)
  | segs, cur, skipping, c :: cs =>
    if skipping = true ∧ is_blank c = true then split_loop segs cur true cs
    else if c = NUL ∨ ¬ segs.length < 4 then (segs, cur)
    else if c = '|' then split_loop (segs ++ [cur]) [] true cs
    else split_loop segs (if cur.length < 127 then cur ++ [c] else cur) false cs

/-- The rows of `segments` after the split, the closing
`segments[seg_count][di] = '\0'; seg_count++;` included.  Row `k` of the
result is what the source stores at `segments[k]`; the array has four rows
in the source. -/
def split_segments (input : List Char) : List (List Char) :=
  let (segs, cur) := split_loop [] [] false input
  segs ++ [cur]

/-- The value of `seg_count` after the split. -/
def pipeline_seg_count (input : List Char) : Nat :=
  (split_segments input).length

/-- The parse of one row of `segments` into `cmds[i]` (64 bytes) and
`argss[i]` (128 bytes). -/
def parse_segment (seg : List Char) : List Char × List Char :=
  tokenize 63 127 seg

/-- The pipe-allocation loop with `n` iterations left and `pipes` filled so
far: the array on success, `none` after a null result, and the calls made. -/
def alloc_pipes (w : World) : Nat → List Nat → Option (List Nat) × List Call
  | 0, pipes => (some pipes, [])
  | n + 1, pipes =>
    let p := w.pipe pipes.length
    if p = 0 then
      (none, [Call.pipe_alloc, Call.mt_print "pipe: allocation failed\n".toList])
    else
      let r := alloc_pipes w n (pipes ++ [p])
      (r.1, Call.pipe_alloc :: r.2)

/-- The variables the spawn loop of `exec_pipeline` carries: `pids[0 .. i)`,
`pipeline_pgid`, and the calls made so far. -/
structure SpawnState where
  pids : List Int
  pipeline_pgid : Int
  trace : List Call
deriving DecidableEq, Repr

/-- One iteration of the spawn loop, for stage `i` with verb `cmd` and
argument `args`. -/
def spawn_stage (w : World) (seg_count : Nat) (pipes : List Nat) (i : Nat)
    (cmd args : List Char) (st : SpawnState) : SpawnState :=
  let path := program_path cmd
  let fds := pipeline_fds seg_count pipes i
  let pid := w.spawn i path
  let t := st.trace ++ [Call.sched_spawn path cmd (argv1_of args) (some fds)]
  if pid < 0 then
    { pids := st.pids ++ [pid], pipeline_pgid := st.pipeline_pgid,
      trace := t ++ [Call.mt_print "pipe: failed to spawn: ".toList, Call.mt_print cmd,
                     Call.mt_print "\n".toList] }
  else
    let pgid := if i = 0 then pid else st.pipeline_pgid
    { pids := st.pids ++ [pid], pipeline_pgid := pgid,
      trace := t ++ [Call.setpgid pid pgid] }

/-- The spawn loop from stage `i` on, over the stages still to start. -/
def spawn_loop (w : World) (seg_count : Nat) (pipes : List Nat) :
    Nat → List (List Char × List Char) → SpawnState → SpawnState
  | _, [], st => st
  | i, stage :: rest, st =>
    spawn_loop w seg_count pipes (i + 1) rest
      (spawn_stage w seg_count pipes i stage.1 stage.2 st)

/-- The wait loop: `if (pids[i] > 0) sched_waitpid(pids[i]);` for each stage. -/
def wait_loop : List Int → List Call
  | [] => []
  | pid :: rest => if pid > 0 then Call.sched_waitpid pid :: wait_loop rest else wait_loop rest

/-- The function `exec_pipeline`: its return value and the calls it makes. -/
def exec_pipeline (w : World) (input : List Char) : Int × List Call :=
  let segments := split_segments input
  let seg_count := segments.length
  if seg_count < 2 then (-1, [])
  else
    let stages := segments.map parse_segment
    match alloc_pipes w (seg_count - 1) [] with
    | (none, t) => (-1, t)
    | (some pipes, t) =>
      let st := spawn_loop w seg_count pipes 0 stages
        { pids := [], pipeline_pgid := 0, trace := t }
      let shell_pgid := w.pid
      let t := if st.pipeline_pgid > 0 then st.trace ++ [Call.tcsetpgrp st.pipeline_pgid]
               else st.trace
      (0, t ++ wait_loop st.pids ++ [Call.tcsetpgrp shell_pgid])

/-! ## Working directory (lib.c) -/

/-- The function `strlen` of lib.c. -/
def strlen (s : List Char) : Nat := (cstr s).length

/-- The string left in `dst` by `strncpy(dst, src, n); dst[n] = '\0';`. -/
def strncpy (src : List Char) (n : Nat) : List Char := (cstr src).take n

/-- The string left in `dst` by `strncat(dst, src, n)`, where `n` is the
`int` third argument cut at 0 (a negative count copies nothing). -/
def strncat (dst src : List Char) (n : Nat) : List Char := dst ++ (cstr src).take n

/-- The loop `while (*p == '/') p++;` of `normalize_path`. -/
def skip_slashes : List Char → List Char
  | [] => []
  | c :: cs => if c = '/' then skip_slashes cs else c :: cs

/-- The loop
`while (*p && *p != '/') { if (i < VFS_MAX_NAME - 1) component[i++] = *p; p++; }`
started with `component` holding `i` characters: the component and what is
left to read. -/
def read_component (max_name : Nat) : List Char → List Char → List Char × List Char
  | comp, [] => (comp, [])
  | comp, c :: cs =>
    if c ≠ NUL ∧ c ≠ '/' then
      read_component max_name (if comp.length < max_name - 1 then comp ++ [c] else comp) cs
    else (comp, c :: cs)

/-- The `while (*p)` loop of `normalize_path`.  `out` holds `out[0 .. out_len)`
and `stack` holds `stack[0 .. depth)` with the top first; `none` is
`return -1`.  Every pass that does not leave the loop consumes at least one
character of `p`, so the first argument, which bounds the number of passes,
is never used up when it starts above the length of `p`.  The bound of
`stack[VFS_MAX_PATH / 2]` is not modelled. -/
def normalize_loop (max_name out_size : Nat) :
    Nat → List Char → List Char → List Nat → Option (List Char)
  | 0, _, _, _ => none
  | fuel + 1, p, out, stack =>
    if cget p 0 = NUL then some out
    else
      let p := skip_slashes p
      if cget p 0 = NUL then some out
      else
        let r := read_component max_name [] p
        let component := r.1
        let p := r.2
        if cget component 0 = NUL ∨ (cget component 0 = '.' ∧ cget component 1 = NUL) then
          normalize_loop max_name out_size fuel p out stack
        else if cget component 0 = '.' ∧ cget component 1 = '.'
            ∧ cget component 2 = NUL then
          match stack with
          | top :: rest => normalize_loop max_name out_size fuel p (out.take top) rest
          | [] => normalize_loop max_name out_size fuel p (out.take 1) []
        else
          let stack := out.length :: stack
          if out.length > 1 ∧ out.length ≥ out_size - 1 then none
          else
            let out := if out.length > 1 then out ++ ['/'] else out
            if out.length + component.length ≥ out_size then none
            else normalize_loop max_name out_size fuel p (out ++ component) stack

/-- The function `normalize_path` of lib.c: the string left in `out`, or
`none` for the result -1. -/
def normalize_path (max_name : Nat) (inp : List Char) (out_size : Nat) :
    Option (List Char) :=
  if out_size < 2 then none
  else
    match normalize_loop max_name out_size (inp.length + 1) inp ['/'] [] with
    | none => none
    | some out => some (if out.length = 0 then ['/'] else out)

/-- What `set_cwd` leaves behind: its result, the static `cwd` afterwards and
the kernel calls it made. -/
structure CwdResult where
  result : Int
  cwd : List Char
  calls : List Call
deriving DecidableEq, Repr

/-- The string `set_cwd` builds in `full_path` before normalising it. -/
def set_cwd_full_path (w : World) (path : List Char) : List Char :=
  if cget path 0 = '/' then strncpy path (w.vfs_max_path - 1)
  else
    let cwd_len := strlen w.cwd
    let full_path := cstr w.cwd
    let full_path :=
      if cwd_len > 0 ∧ cget w.cwd (cwd_len - 1) ≠ '/' then full_path ++ ['/']
      else full_path
    let remaining := w.vfs_max_path - strlen full_path - 1
    strncat full_path path remaining

/-- The function `set_cwd` of lib.c. -/
def set_cwd (w : World) (path : List Char) : CwdResult :=
  match normalize_path w.vfs_max_name (set_cwd_full_path w path) w.vfs_max_path with
  | none => { result := -1, cwd := w.cwd, calls := [] }
  | some normalized =>
    match w.resolve normalized with
    | none => { result := -1, cwd := w.cwd, calls := [Call.vfs_resolve_path normalized] }
    | some node =>
      if node.is_dir = false then
        { result := -2, cwd := w.cwd, calls := [Call.vfs_resolve_path normalized] }
      else
        { result := 0, cwd := strncpy normalized (w.vfs_max_path - 1),
          calls := [Call.vfs_resolve_path normalized] }

/-! ## Builtins and the single external command -/

/-- The function `cmd_help`. -/
def cmd_help : List Call :=
  [Call.mt_print "BRIDGE builtins:\n".toList,
   Call.mt_print "  help        - show this help\n".toList,
   Call.mt_print "  echo [text] - print text\n".toList,
   Call.mt_print "  ls [path]   - list directory\n".toList,
   Call.mt_print "  cd <path>   - change directory\n".toList,
   Call.mt_print "  mkdir <dir> - create directory\n".toList,
   Call.mt_print "  pwd         - print working directory\n".toList,
   Call.mt_print "  clear       - clear screen\n".toList,
   Call.mt_print "  exit        - exit shell\n".toList,
   Call.mt_print "External: cat, touch, rm, rmdir\n".toList]

/-- The function `cmd_pwd`. -/
def cmd_pwd (w : World) : List Call :=
  [Call.mt_print w.cwd, Call.mt_print "\n".toList]

/-- The function `cmd_echo`. -/
def cmd_echo (text : List Char) : List Call :=
  if cget text 0 ≠ NUL then [Call.mt_print text, Call.mt_print "\n".toList]
  else [Call.mt_print "\n".toList]

/-- The function `cmd_ls`. -/
def cmd_ls (w : World) (path : List Char) : List Call :=
  let target := if cget path 0 = NUL then w.cwd else path
  let entries := w.list_dir target
  if cget entries 0 ≠ NUL then [Call.list_dir target, Call.mt_print entries]
  else [Call.list_dir target]

/-- The argument `cmd_cd` passes to `set_cwd`: `/` for an empty path. -/
def cmd_cd_target (path : List Char) : List Char :=
  if cget path 0 = NUL then "/".toList else path

/-- The function `cmd_cd`: its result and the calls it makes. -/
def cmd_cd (w : World) (path : List Char) : Int × List Call :=
  let target := cmd_cd_target path
  let r := set_cwd w target
  if r.result ≠ 0 then
    (r.result, r.calls ++ [Call.mt_print "cd: no such directory: ".toList,
                           Call.mt_print target, Call.mt_print "\n".toList])
  else (r.result, r.calls)

/-- The function `cmd_mkdir`: its result and the calls it makes.  The path is
built by the same statements as in `shell_build_path`.  No statement of
shell.c calls this function. -/
def cmd_mkdir (w : World) (path : List Char) : Int × List Call :=
  if cget path 0 = NUL then
    (1, [Call.mt_print "mkdir: missing directory argument\n".toList])
  else
    let full_path := shell_build_path w.cwd path
    if w.ensure_path full_path = false then
      (1, [Call.ensure_path_exists full_path,
           Call.mt_print "mkdir: failed to create directory: ".toList,
           Call.mt_print path, Call.mt_print "\n".toList])
    else (0, [Call.ensure_path_exists full_path])

/-- The function `cmd_clear`. -/
def cmd_clear : List Call := [Call.clear_screen, Call.set_cursor 0 0]

/-- The function `exec_program` of lib.c: its result and the calls it
makes. -/
def exec_program (w : World) (path argv0 : List Char) (argv1 : Option (List Char)) :
    Int × List Call :=
  let shell_pgid := w.pid
  let pid := w.spawn 0 path
  if pid < 0 then (-127, [Call.sched_spawn path argv0 argv1 none])
  else
    (w.wait pid, [Call.sched_spawn path argv0 argv1 none, Call.tcsetpgrp pid,
                  Call.sched_waitpid pid, Call.tcsetpgrp shell_pgid])

/-- The final `else` branch of the main loop: run `cmd_buf` as an external
program. -/
def run_external (w : World) (cmd_buf args_buf : List Char) : List Call :=
  let r := exec_program w (program_path cmd_buf) cmd_buf (argv1_of args_buf)
  if r.1 = -127 then
    r.2 ++ [Call.mt_print "bridge: command not found: ".toList, Call.mt_print cmd_buf,
            Call.mt_print "\n".toList]
  else r.2

/-! ## Main loop -/

/-- Where one pass of the `while (1)` loop of `shell_main` sends a line. -/
inductive Route where
  | reprompt
  | redirect (redir_pos mode : Nat)
  | pipeline
  | quit
  | help
  | pwd
  | echo
  | ls
  | cd
  | clear
  | external
deriving DecidableEq, Repr

/-- The chain of tests in the body of the main loop, from the line returned
by `shell_read_line` on. -/
def shell_route (input : List Char) : Route :=
  if cget input 0 = NUL then Route.reprompt
  else
    let cmd_buf := (parse_input input).1
    if cget cmd_buf 0 = NUL then Route.reprompt
    else
      let r := find_redirect input
      if r.1 > 0 then Route.redirect r.2 r.1
      else if has_pipe input = true then Route.pipeline
      else if str_eq cmd_buf "exit".toList = true then Route.quit
      else if str_eq cmd_buf "help".toList = true then Route.help
      else if str_eq cmd_buf "pwd".toList = true then Route.pwd
      else if str_eq cmd_buf "echo".toList = true then Route.echo
      else if str_eq cmd_buf "ls".toList = true then Route.ls
      else if str_eq cmd_buf "cd".toList = true then Route.cd
      else if str_eq cmd_buf "clear".toList = true then Route.clear
      else Route.external

/-- The calls one pass of the main loop makes for a line, after the prompt
and the line editor. -/
def shell_line (w : World) (input : List Char) : List Call :=
  match shell_route input with
  | Route.reprompt => []
  | Route.redirect redir_pos mode => (exec_redirect w input redir_pos mode).2
  | Route.pipeline => (exec_pipeline w input).2
  | Route.quit => []
  | Route.help => cmd_help
  | Route.pwd => cmd_pwd w
  | Route.echo => cmd_echo (parse_input input).2
  | Route.ls => cmd_ls w (parse_input input).2
  | Route.cd => (cmd_cd w (parse_input input).2).2
  | Route.clear => cmd_clear
  | Route.external => run_external w (parse_input input).1 (parse_input input).2

/-! ## Process groups (lib.c) -/

/-- Modelled from the spec: `struct task` is declared in `sched.h`, which is
not among the sources.  Kept are the two fields lib.c touches, the process id
and the process-group id. -/
structure task where
  id : Int
  pgid : Int
deriving DecidableEq, Repr

/-- Modelled from the spec: the scheduler's process table with the id of the
running task (`none` when `sched_current` returns null). -/
structure Sched where
  tasks : List task
  current : Option Int
deriving DecidableEq, Repr

/-- The function `getpid` of lib.c. -/
def getpid (s : Sched) : Int :=
  match s.current with
  | some id => id
  | none => 0

/-- Modelled from the spec: `sched_get_task`, the first task with the given
id, if any. -/
def sched_get_task (s : Sched) (pid : Int) : Option task :=
  s.tasks.find? (fun t => t.id = pid)

/-- The write `t->pgid = pgid` through the pointer `sched_get_task` returned. -/
def set_task_pgid (pid pgid : Int) : List task → List task
  | [] => []
  | t :: ts =>
    if t.id = pid then { t with pgid := pgid } :: ts
    else t :: set_task_pgid pid pgid ts

/-- The function `setpgid` of lib.c: its result and the table afterwards. -/
def setpgid (s : Sched) (pid pgid : Int) : Int × Sched :=
  let pid := if pid = 0 then getpid s else pid
  let pgid := if pgid = 0 then pid else pgid
  match sched_get_task s pid with
  | none => (-1, s)
  | some _ => (0, { s with tasks := set_task_pgid pid pgid s.tasks })

/-- The effect on the process table of the `setpgid` calls of a trace, in
order. -/
def run_setpgids : List Call → Sched → Sched
  | [], s => s
  | Call.setpgid pid pgid :: rest, s => run_setpgids rest (setpgid s pid pgid).2
  | _ :: rest, s => run_setpgids rest s

/-! ## Line editor -/

/-- Modelled from the spec: `struct key_event` is declared in
`drivers/keyboard.h`, which is not among the sources.  Kept are the key
code, the `pressed` flag and the outcome of the test
`modifiers & MOD_CTRL`. -/
structure key_event where
  key : Char
  pressed : Bool
  ctrl : Bool
deriving DecidableEq, Repr

/-- Modelled from the spec: the key codes `KEY_LEFT` and `KEY_RIGHT` of
`drivers/keyboard.h`, whose values are not among the sources. -/
structure KeyCodes where
  KEY_LEFT : Char
  KEY_RIGHT : Char
deriving DecidableEq, Repr

/-- The variables of `shell_read_line`: the array `input_buffer[512]` and the
locals `len`, `pos` and `rendered_len`.  What is written to the console is
not recorded. -/
structure Editor where
  buf : List Char
  len : Nat
  pos : Nat
  rendered_len : Nat
deriving DecidableEq, Repr

/-- The loop
`for (int i = len; i > pos; i--) input_buffer[i] = input_buffer[i - 1];`
with `n = i - pos` passes left. -/
def shift_right (pos : Nat) : Nat → List Char → List Char
  | 0, buf => buf
  | n + 1, buf => shift_right pos n (buf.set (pos + n + 1) (cget buf (pos + n)))

/-- The loop
`for (int i = pos - 1; i < len - 1; i++) input_buffer[i] = input_buffer[i + 1];`
at index `i` with `n` passes left. -/
def shift_left : Nat → Nat → List Char → List Char
  | _, 0, buf => buf
  | i, n + 1, buf => shift_left (i + 1) n (buf.set i (cget buf (i + 1)))

/-- The indices of `input_buffer` that the loop of `shift_right` writes
(`i`) and reads (`i - 1`). -/
def shift_right_accesses (pos : Nat) : Nat → List Nat
  | 0 => []
  | n + 1 => (pos + n + 1) :: (pos + n) :: shift_right_accesses pos n

/-- The indices of `input_buffer` that the loop of `shift_left` writes (`i`)
and reads (`i + 1`). -/
def shift_left_accesses : Nat → Nat → List Nat
  | _, 0 => []
  | i, n + 1 => i :: (i + 1) :: shift_left_accesses (i + 1) n

/-- What one key event does to the editor: go on editing in a new state, or
return `input_buffer` as the finished line. -/
inductive KeyOutcome where
  | editing (st : Editor)
  | line (input : List Char)
deriving DecidableEq, Repr

/-- One pass of the `while (1)` loop of `shell_read_line` for a polled
event. -/
def editor_key (k : KeyCodes) (st : Editor) (ev : key_event) : KeyOutcome :=
  if ev.pressed = false then KeyOutcome.editing st
  else if ev.ctrl = true ∧ (ev.key = 'c' ∨ ev.key = 'C') then
    KeyOutcome.line (cstr (st.buf.set 0 NUL))
  else if ev.key = '\n' then
    KeyOutcome.line (cstr (st.buf.set st.len NUL))
  else if ev.key = Char.ofNat 8 then
    if st.pos > 0 then
      let buf := shift_left (st.pos - 1) ((st.len - 1) - (st.pos - 1)) st.buf
      KeyOutcome.editing
        { buf := buf, len := st.len - 1, pos := st.pos - 1, rendered_len := st.len - 1 }
    else KeyOutcome.editing st
  else if ev.key = k.KEY_LEFT then
    if st.pos > 0 then KeyOutcome.editing { st with pos := st.pos - 1 }
    else KeyOutcome.editing st
  else if ev.key = k.KEY_RIGHT then
    if st.pos < st.len then KeyOutcome.editing { st with pos := st.pos + 1 }
    else KeyOutcome.editing st
  else if 0x20 ≤ ev.key.toNat ∧ ev.key.toNat < 0x7F then
    if st.len < 510 then
      let buf := shift_right st.pos (st.len - st.pos) st.buf
      let buf := buf.set st.pos ev.key
      KeyOutcome.editing
        { buf := buf, len := st.len + 1, pos := st.pos + 1, rendered_len := st.len + 1 }
    else KeyOutcome.editing st
  else KeyOutcome.editing st

/-- The indices of `input_buffer` that one pass of the loop of
`shell_read_line` reads or writes for a polled event: the terminator store
of an interrupt or a newline, the shift loop and the store of an insertion
or a deletion, and the reads `input_buffer[0 .. len)` of `redraw_line`. -/
def editor_accesses (k : KeyCodes) (st : Editor) (ev : key_event) : List Nat :=
  if ev.pressed = false then []
  else if ev.ctrl = true ∧ (ev.key = 'c' ∨ ev.key = 'C') then [0]
  else if ev.key = '\n' then [st.len]
  else if ev.key = Char.ofNat 8 then
    if st.pos > 0 then
      shift_left_accesses (st.pos - 1) ((st.len - 1) - (st.pos - 1))
        ++ List.range (st.len - 1)
    else []
  else if ev.key = k.KEY_LEFT then []
  else if ev.key = k.KEY_RIGHT then []
  else if 0x20 ≤ ev.key.toNat ∧ ev.key.toNat < 0x7F then
    if st.len < 510 then
      shift_right_accesses st.pos (st.len - st.pos) ++ [st.pos] ++ List.range (st.len + 1)
    else []
  else []

/-- The state of `shell_read_line` before the first event, `input_buffer`
holding `buf`. -/
def editor_init (buf : List Char) : Editor :=
  { buf := buf, len := 0, pos := 0, rendered_len := 0 }

/-- The loop of `shell_read_line` over the events polled, in order: the line
returned, or `none` when the events end before a newline or an interrupt. -/
def read_line_loop (k : KeyCodes) : Editor → List key_event → Option (List Char)
  | _, [] => none
  | st, ev :: rest =>
    match editor_key k st ev with
    | KeyOutcome.line input => some input
    | KeyOutcome.editing st' => read_line_loop k st' rest

/-- The function `shell_read_line` on the events polled, `input_buffer`
holding `buf` at entry. -/
def shell_read_line (k : KeyCodes) (buf : List Char) (events : List key_event) :
    Option (List Char) :=
  read_line_loop k (editor_init buf) events

/-- The text being edited: `input_buffer[0 .. len)`. -/
def Editor.content (st : Editor) : List Char := st.buf.take st.len

/-! ## Vocabulary of the statements -/

/-- A kernel in which every call succeeds: the working directory is `/`, the
shell is process 1, every path resolves to an empty file, the `n`-th spawn
returns pid `n + 2` and the `n`-th `pipe_alloc` returns address `n + 1`. -/
def demo_world : World :=
  { cwd := "/".toList, pid := 1,
    resolve := fun _ => some { id := 7, size := 0, is_dir := false },
    spawn := fun n _ => n + 2, pipe := fun n => n + 1, wait := fun _ => 0,
    list_dir := fun _ => [], vfs_max_path := 256, vfs_max_name := 64,
    ensure_path := fun _ => true }

/-- Whether a call is a `sched_spawn`. -/
def Call.is_spawn : Call → Bool
  | Call.sched_spawn _ _ _ _ => true
  | _ => false

/-- Whether a call is a `sched_waitpid`. -/
def Call.is_wait : Call → Bool
  | Call.sched_waitpid _ => true
  | _ => false

/-- Whether a call is a `tcsetpgrp`. -/
def Call.is_foreground : Call → Bool
  | Call.tcsetpgrp _ => true
  | _ => false

/-- The verb and argument of every stage of a line, in textual order, as
`exec_pipeline` computes them. -/
def pipeline_stages (input : List Char) : List (List Char × List Char) :=
  (split_segments input).map parse_segment

/-- The results of the spawns of the stages `i, i + 1, ...`, in order. -/
def stage_pids (w : World) : Nat → List (List Char × List Char) → List Int
  | _, [] => []
  | i, s :: rest => w.spawn i (program_path s.1) :: stage_pids w (i + 1) rest

/-- The result of the spawn of every stage of a line, in textual order. -/
def pipeline_pids (w : World) (input : List Char) : List Int :=
  stage_pids w 0 (pipeline_stages input)

/-- The spawn of stage `i` as `exec_pipeline` issues it. -/
def stage_spawn (seg_count : Nat) (pipes : List Nat) (i : Nat)
    (stage : List Char × List Char) : Call :=
  Call.sched_spawn (program_path stage.1) stage.1 (argv1_of stage.2)
    (some (pipeline_fds seg_count pipes i))

/-- The calls of one stage when the group variable holds `g` after it: the
spawn, then the three prints of a failure or the group assignment. -/
def stage_calls (w : World) (seg_count : Nat) (pipes : List Nat) (g : Int) (i : Nat)
    (stage : List Char × List Char) : List Call :=
  stage_spawn seg_count pipes i stage ::
    (if w.spawn i (program_path stage.1) < 0 then
      [Call.mt_print "pipe: failed to spawn: ".toList, Call.mt_print stage.1,
       Call.mt_print "\n".toList]
     else [Call.setpgid (w.spawn i (program_path stage.1)) g])

/-- The calls of the stages `i, i + 1, ...`, in order. -/
def stages_calls (w : World) (seg_count : Nat) (pipes : List Nat) (g : Int) :
    Nat → List (List Char × List Char) → List Call
  | _, [] => []
  | i, s :: rest =>
    stage_calls w seg_count pipes g i s ++ stages_calls w seg_count pipes g (i + 1) rest

/-- The spawns of the stages `i, i + 1, ...`, in order. -/
def stages_spawns (seg_count : Nat) (pipes : List Nat) :
    Nat → List (List Char × List Char) → List Call
  | _, [] => []
  | i, s :: rest => stage_spawn seg_count pipes i s :: stages_spawns seg_count pipes (i + 1) rest

/-- The value `pipeline_pgid` has once the spawn loop is over: the result of
the spawn of stage 0 unless that spawn failed, and 0 otherwise. -/
def pipeline_group (w : World) (input : List Char) : Int :=
  match pipeline_pids w input with
  | [] => 0
  | pid :: _ => if pid < 0 then 0 else pid

/-- The addresses of the pipe buffers when every allocation succeeds. -/
def pipeline_pipes (w : World) (input : List Char) : List Nat :=
  (List.range' 0 (pipeline_seg_count input - 1)).map w.pipe

/-- A slot bound to the console. -/
def fd_console : shell_fd_entry :=
  { type := SHELL_FD_CONSOLE, node := none, offset := 0, flags := 0, pipe := 0 }

/-- A slot bound to the pipe buffer at address `p` with access flags `flags`
(0 to read, 1 to write). -/
def fd_pipe_end (p flags : Nat) : shell_fd_entry :=
  { type := SHELL_FD_PIPE, node := none, offset := 0, flags := flags, pipe := p }

/-- A slot bound to the file `node` at byte offset `offset`. -/
def fd_file (node : vfs_node) (offset : Nat) : shell_fd_entry :=
  { type := SHELL_FD_FILE, node := some node, offset := offset, flags := 0, pipe := 0 }

/-- A kernel like `demo_world` except that the spawn of stage 0 fails with
-1; the later stages get the pids 5, 6, ... -/
def world_first_fails : World :=
  { demo_world with spawn := fun n _ => if n = 0 then -1 else (n : Int) + 4 }

/-- Whether a call is a `setpgid`. -/
def Call.is_assign_group : Call → Bool
  | Call.setpgid _ _ => true
  | _ => false

/-- The verb `r_cmd` that `exec_redirect` parses out of the command part. -/
def redirect_verb (input : List Char) (redir_pos : Nat) : List Char :=
  (tokenize 63 255 (redirect_cmd_part input redir_pos)).1

/-- The argument string `r_args` that `exec_redirect` parses out of the
command part. -/
def redirect_args (input : List Char) (redir_pos : Nat) : List Char :=
  (tokenize 63 255 (redirect_cmd_part input redir_pos)).2

/-- The absolute path of the target file of a redirection. -/
def redirect_target (w : World) (input : List Char) (redir_pos mode : Nat) : List Char :=
  shell_build_path w.cwd (redirect_filename input redir_pos mode)

/-- The spawn that `exec_redirect` issues when the target is `node`. -/
def redirect_spawn (input : List Char) (redir_pos mode : Nat) (node : vfs_node) : Call :=
  Call.sched_spawn (program_path (redirect_verb input redir_pos))
    (redirect_verb input redir_pos) (argv1_of (redirect_args input redir_pos))
    (some (redirect_fds node mode))

/-- A redirection has a command: some character before the operator
position is neither a space nor a tab. -/
def has_command (input : List Char) (redir_pos : Nat) : Prop :=
  ∃ i, i < redir_pos ∧ is_blank (cget input i) = false

/-- A redirection has a filename: some character after the operator(s) and
before the end of the line is neither a space nor a tab. -/
def has_filename (input : List Char) (redir_pos mode : Nat) : Prop :=
  ∃ x ∈ cstr (input.drop (redirect_fi redir_pos mode)), is_blank x = false

/-- A character that can stand inside a word: neither the terminator nor a
space nor a tab. -/
def word_char (c : Char) : Bool := c != NUL && !is_blank c

/-- The first whitespace-delimited word of a string: skip spaces and tabs,
then take the longest run of characters other than space and tab (and the
terminator). -/
def first_token (s : List Char) : List Char :=
  (s.dropWhile is_blank).takeWhile word_char

/-- A line with `a>` followed by a run of 256 `x`. -/
def long_filename_line : List Char := 'a' :: '>' :: List.replicate 256 'x'

/-- Whether a route is a builtin dispatch: `exit` or one of the `cmd_*`
functions. -/
def Route.is_builtin : Route → Bool
  | Route.quit => true
  | Route.help => true
  | Route.pwd => true
  | Route.echo => true
  | Route.ls => true
  | Route.cd => true
  | Route.clear => true
  | _ => false

/-- What follows the first word of a string, up to the terminator, with the
spaces and tabs between the word and it skipped. -/
def rest_after_word (s : List Char) : List Char :=
  cstr (((s.dropWhile is_blank).dropWhile word_char).dropWhile is_blank)

/-- The process `setpgid` targets: the caller (`getpid`) for `pid = 0`. -/
def setpgid_target (s : Sched) (pid : Int) : Int :=
  if pid = 0 then getpid s else pid

/-- The group `setpgid` assigns: the target's own id for `pgid = 0`. -/
def setpgid_group (s : Sched) (pid pgid : Int) : Int :=
  if pgid = 0 then setpgid_target s pid else pgid

/-- A process table with the shell (process 1, running) and two children,
all in group 1. -/
def demo_sched : Sched :=
  { tasks := [⟨1, 1⟩, ⟨5, 1⟩, ⟨6, 1⟩], current := some 1 }

/-- The foreground group after a sequence of calls, when it was `fg` before:
the argument of the last `tcsetpgrp`, which lib.c hands to
`tty_set_foreground_pgid`. -/
def foreground_after : Int → List Call → Int
  | fg, [] => fg
  | _, Call.tcsetpgrp g :: rest => foreground_after g rest
  | fg, _ :: rest => foreground_after fg rest

/-- Whether a call is an `mt_print`. -/
def Call.is_print : Call → Bool
  | Call.mt_print _ => true
  | _ => false

/-- A kernel like `demo_world` in which every child exits with status -127. -/
def world_exit_127 : World :=
  { demo_world with wait := fun _ => -127 }

/-- A kernel like `demo_world` in which no path resolves. -/
def world_missing : World :=
  { demo_world with resolve := fun _ => none }

/-- A kernel like `demo_world` in which the second `pipe_alloc` returns
null. -/
def world_second_pipe_fails : World :=
  { demo_world with pipe := fun n => if n = 1 then 0 else n + 1 }

/-- The invariant of the editor: the cursor is within the text, the text has
at most 510 characters, and `input_buffer` has its 512 bytes. -/
def Editor.inv (st : Editor) : Prop :=
  st.pos ≤ st.len ∧ st.len ≤ 510 ∧ st.buf.length = 512

/-- A printable character: a code from 0x20 to 0x7E. -/
def printable (c : Char) : Prop := 0x20 ≤ c.toNat ∧ c.toNat < 0x7F

/-- The arrow codes are two different codes, neither of them the newline, the
backspace or a printable character. -/
def KeyCodes.apart (k : KeyCodes) : Prop :=
  k.KEY_LEFT ≠ k.KEY_RIGHT
  ∧ k.KEY_LEFT ≠ '\n' ∧ k.KEY_LEFT ≠ Char.ofNat 8 ∧ ¬ printable k.KEY_LEFT
  ∧ k.KEY_RIGHT ≠ '\n' ∧ k.KEY_RIGHT ≠ Char.ofNat 8 ∧ ¬ printable k.KEY_RIGHT

/-- The interrupt combination: a pressed `c` or `C` with Ctrl held. -/
def key_event.is_interrupt (ev : key_event) : Prop :=
  ev.pressed = true ∧ ev.ctrl = true ∧ (ev.key = 'c' ∨ ev.key = 'C')

/-- The accepting key: a pressed newline that is not an interrupt. -/
def key_event.is_newline (ev : key_event) : Prop :=
  ev.pressed = true ∧ ev.key = '\n'

/-- A pressed backspace, with or without Ctrl. -/
def backspace_key (ctrl : Bool) : key_event :=
  { key := Char.ofNat 8, pressed := true, ctrl := ctrl }

/-- Key codes with the arrows at 128 and 129. -/
def demo_keys : KeyCodes := { KEY_LEFT := Char.ofNat 128, KEY_RIGHT := Char.ofNat 129 }

/-- A pressed key without Ctrl. -/
def press (c : Char) : key_event := { key := c, pressed := true, ctrl := false }

/-- A released key. -/
def release (c : Char) : key_event := { key := c, pressed := false, ctrl := false }

/-- An editor state whose buffer starts with `text` and is padded with NULs
to 512 bytes, with the given length and cursor. -/
def editor_with (text : List Char) (len pos : Nat) : Editor :=
  { buf := text ++ List.replicate (512 - text.length) NUL, len := len, pos := pos,
    rendered_len := len }

/-- The editor states the loop of `shell_read_line` passes through on the
events polled: the state in which each event is handled, up to the event that
returns the line. -/
def editor_states (k : KeyCodes) : Editor → List key_event → List Editor
  | st, [] => [st]
  | st, ev :: rest =>
    match editor_key k st ev with
    | KeyOutcome.line _ => [st]
    | KeyOutcome.editing st' => st :: editor_states k st' rest

/-- The keys of the pressed events, in the order polled. -/
def typed_keys (events : List key_event) : List Char :=
  (events.filter (fun ev => ev.pressed)).map (fun ev => ev.key)

/-- Whether a call, when it is a spawn, names the program that the block
"Build program path" computes from its `argv[0]`. -/
def Call.path_from_verb : Call → Bool
  | Call.sched_spawn path argv0 _ _ => decide (path = program_path argv0)
  | _ => true

/-- Whether a call is an `ensure_path_exists`. -/
def Call.is_ensure_path : Call → Bool
  | Call.ensure_path_exists _ => true
  | _ => false

/-- Whether a call is a `fat32_flush_size`. -/
def Call.is_flush : Call → Bool
  | Call.fat32_flush_size _ => true
  | _ => false

/-- A line of 258 characters: 256 times `a`, then `>f`. -/
def overlong_command_line : List Char := List.replicate 256 'a' ++ ">f".toList

/-- A component that a canonical path keeps: not empty, not `.`, not `..`,
and free of `/` and of the terminator. -/
def proper_component (c : List Char) : Prop :=
  c ≠ [] ∧ c ≠ ['.'] ∧ c ≠ ['.', '.'] ∧ ∀ x ∈ c, x ≠ '/' ∧ x ≠ NUL

/-- The components given, written one after the other, each after a `/`. -/
def join_components : List (List Char) → List Char
  | [] => []
  | c :: cs => '/' :: c ++ join_components cs

/-- The absolute path with the components given, in order: `/` when there is
none, otherwise `/c1/c2/.../cn`. -/
def path_of (comps : List (List Char)) : List Char :=
  match comps with
  | [] => ['/']
  | _ => join_components comps

/-- A canonical absolute path: the path of a list of proper components. -/
def canonical_path (s : List Char) : Prop :=
  ∃ comps : List (List Char), (∀ c ∈ comps, proper_component c) ∧ s = path_of comps

/-- The contents of `out` in `normalize_path` when the components kept so
far are `rs`, the most recently kept first. -/
def kept_path : List (List Char) → List Char
  | [] => ['/']
  | c :: rs =>
    (match rs with
     | [] => ['/']
     | _ => kept_path rs ++ ['/']) ++ c

/-- The contents of `stack` in `normalize_path` (top first) when the
components kept so far are `rs`, the most recently kept first: under each
component the length of `out` before it was appended. -/
def kept_stack : List (List Char) → List Nat
  | [] => []
  | _ :: rs => (kept_path rs).length :: kept_stack rs

/-- A position where a component ends: the end of the string or a `/`. -/
def at_boundary (p : List Char) : Prop := cget p 0 = NUL ∨ cget p 0 = '/'

/-- The routes that are neither "do nothing" nor the redirection executor:
the pipeline executor, `exit`, the builtins and the external command. -/
def Route.other_routes : List Route :=
  [Route.pipeline, Route.quit, Route.help, Route.pwd, Route.echo, Route.ls, Route.cd,
   Route.clear, Route.external]

end Bridge

namespace Bridge

/-! ## Classifier -/

theorem cget_cons_succ (c : Char) (cs : List Char) (i : Nat) :
    cget (c :: cs) (i + 1) = cget cs i := by
  simp [cget]

theorem cget_cons_zero (c : Char) (cs : List Char) : cget (c :: cs) 0 = c := by
  simp [cget]

theorem cget_nil (i : Nat) : cget [] i = NUL := by
  simp [cget]

theorem parse_input_verb_nil_of_nul (input : List Char) (h : cget input 0 = NUL) :
    (parse_input input).1 = [] := by
  cases input with
  | nil => simp [parse_input, tokenize, skip_blanks, copy_word]
  | cons c cs =>
    rw [cget_cons_zero] at h
    subst h
    have hb : is_blank NUL = false := by decide
    simp [parse_input, tokenize, skip_blanks, copy_word, hb]

theorem find_redirect_from_spec (s : List Char) (i : Nat) (h : '>' ∈ cstr s) :
    find_redirect_from s i =
      (if cget s (s.indexOf '>' + 1) = '>' then 2 else 1, i + s.indexOf '>') := by
  induction s generalizing i with
  | nil => simp [cstr] at h
  | cons c cs ih =>
    by_cases hc : c = NUL
    · subst hc
      simp [cstr, List.takeWhile] at h
    · by_cases hg : c = '>'
      · subst hg
        simp [find_redirect_from, hc, cget_cons_succ]
      · have h2 : '>' ∈ cstr cs := by
          simp only [cstr, List.takeWhile_cons, ne_eq, hc, not_false_eq_true, decide_True,
            if_true, List.mem_cons] at h
          rcases h with h | h
          · exact absurd h.symm hg
          · exact h
        have hidx : (c :: cs).indexOf '>' = cs.indexOf '>' + 1 := by
          rw [List.indexOf_cons_ne]
          exact hg
        rw [find_redirect_from, if_neg hc, if_neg hg, ih (i + 1) h2, hidx, cget_cons_succ]
        congr 1
        omega

theorem exec_redirect_no_pipe_alloc (w : World) (input : List Char) (pos mode : Nat) :
    Call.pipe_alloc ∉ (exec_redirect w input pos mode).2 := by
  unfold exec_redirect
  simp only
  split
  · simp
  · split
    · simp
    · split <;> split <;> simp

theorem copy_word_mem (max : Nat) (p buf : List Char) :
    ∀ x ∈ (copy_word max buf p).1, x ∈ buf ∨ (x ≠ NUL ∧ is_blank x = false) := by
  induction p generalizing buf with
  | nil => intro x hx; exact Or.inl (by simpa [copy_word] using hx)
  | cons c cs ih =>
    intro x hx
    rw [copy_word] at hx
    split at hx
    next hc =>
      rcases ih _ x hx with h | h
      · rcases List.mem_append.mp h with h | h
        · exact Or.inl h
        · have hxc : x = c := by simpa using h
          subst hxc
          exact Or.inr ⟨hc.1, hc.2.1⟩
      · exact Or.inr h
    next => exact Or.inl hx

theorem tokenize_verb_no_nul (a b : Nat) (s : List Char) :
    ∀ x ∈ (tokenize a b s).1, x ≠ NUL ∧ is_blank x = false := by
  intro x hx
  have := copy_word_mem a (skip_blanks s) [] x (by simpa [tokenize] using hx)
  simpa using this

theorem verb_head_ne_nul (a b : Nat) (s : List Char) (h : (tokenize a b s).1 ≠ []) :
    ¬ cget (tokenize a b s).1 0 = NUL := by
  intro h0
  cases hp : (tokenize a b s).1 with
  | nil => exact h hp
  | cons c cs =>
    rw [hp, cget_cons_zero] at h0
    have := tokenize_verb_no_nul a b s c (by rw [hp]; simp)
    exact this.1 h0

/-- C1: a line with a non-empty first word and a `>` goes to `exec_redirect`
with the index of the first `>` and mode 2 exactly when the next character is
also `>` (mode 1 otherwise); it goes to no other executor or builtin, with or
without a `|`, and no `pipe_alloc` is made. -/
theorem C1_redirect_routing (w : World) (input : List Char)
    (hword : (parse_input input).1 ≠ []) (hgt : '>' ∈ cstr input) :
    shell_route input =
        Route.redirect (input.indexOf '>')
          (if cget input (input.indexOf '>' + 1) = '>' then 2 else 1)
    ∧ shell_line w input =
        (exec_redirect w input (input.indexOf '>')
          (if cget input (input.indexOf '>' + 1) = '>' then 2 else 1)).2
    ∧ (∀ r ∈ Route.other_routes, shell_route input ≠ r)
    ∧ Call.pipe_alloc ∉ shell_line w input := by
  have h0 : ¬ cget input 0 = NUL := fun h => hword (parse_input_verb_nil_of_nul input h)
  have h1 : ¬ cget (parse_input input).1 0 = NUL := verb_head_ne_nul 63 255 input hword
  have hf := find_redirect_from_spec input 0 hgt
  have hmode : 0 < (find_redirect input).1 := by
    rw [find_redirect, hf]
    simp only
    split <;> decide
  have hroute : shell_route input =
      Route.redirect (input.indexOf '>')
        (if cget input (input.indexOf '>' + 1) = '>' then 2 else 1) := by
    unfold shell_route
    simp only [h0, h1, if_false, hmode, if_true, gt_iff_lt]
    rw [find_redirect, hf]
    simp
  refine ⟨hroute, ?_, ?_, ?_⟩
  · unfold shell_line
    rw [hroute]
  · intro r hr
    rw [hroute]
    simp [Route.other_routes] at hr
    rcases hr with h | h | h | h | h | h | h | h | h <;> subst h <;> simp
  · unfold shell_line
    rw [hroute]
    exact exec_redirect_no_pipe_alloc w input _ _

/-- C1 at the line `a | b >> c`. -/
theorem C1_redirect_routing_witness :
    shell_route "a | b >> c".toList = Route.redirect 6 2
    ∧ Call.pipe_alloc ∉ shell_line demo_world "a | b >> c".toList := by
  have h := C1_redirect_routing demo_world "a | b >> c".toList (by decide) (by decide)
  exact ⟨h.1, h.2.2.2⟩

/-! ## Redirection: syntax errors -/

theorem trim_end_eq_zero (input : List Char) (pos : Nat)
    (h : ∀ i, i < pos → is_blank (cget input i) = true) : trim_end input pos = 0 := by
  induction pos with
  | zero => rfl
  | succ n ih =>
    rw [trim_end, if_pos (h n (Nat.lt_succ_self n))]
    exact ih (fun i hi => h i (Nat.lt_succ_of_lt hi))

theorem copy_word_skip_blanks_nil (max : Nat) (p : List Char)
    (h : ∀ x ∈ cstr p, is_blank x = true) : (copy_word max [] (skip_blanks p)).1 = [] := by
  induction p with
  | nil => simp [skip_blanks, copy_word]
  | cons c cs ih =>
    by_cases hc : c = NUL
    · subst hc
      have hb : is_blank NUL = false := by decide
      simp [skip_blanks, hb, copy_word]
    · have hmem : c ∈ cstr (c :: cs) := by simp [cstr, hc]
      have hsub : ∀ x ∈ cstr cs, is_blank x = true := by
        intro x hx
        apply h
        simp only [cstr, List.takeWhile_cons, ne_eq, hc, not_false_eq_true, decide_True, if_true]
        exact List.mem_cons_of_mem _ hx
      rw [skip_blanks, if_pos (h c hmem)]
      exact ih hsub

/-- C2: when every character before the operator position is a space or a
tab, or every character after the operator(s) up to the end of the line is,
`exec_redirect` prints the syntax error, returns -1 and makes no other call:
no spawn, no file creation or truncation, no foreground change, no flush. -/
theorem C2_redirect_syntax_error (w : World) (input : List Char) (redir_pos mode : Nat)
    (h : (∀ i, i < redir_pos → is_blank (cget input i) = true)
       ∨ (∀ x ∈ cstr (input.drop (redirect_fi redir_pos mode)), is_blank x = true)) :
    exec_redirect w input redir_pos mode =
      (-1, [Call.mt_print "syntax error near '>'\n".toList]) := by
  have hcond : (redirect_filename input redir_pos mode).length = 0
      ∨ redirect_cmd_len input redir_pos = 0 := by
    rcases h with h | h
    · exact Or.inr (trim_end_eq_zero input redir_pos h)
    · left
      rw [redirect_filename, copy_word_skip_blanks_nil 255 _ h]
      rfl
  unfold exec_redirect
  simp only [hcond, if_true]

/-- C2 at the lines `cmd > ` (no filename) and `> file.txt` (no command). -/
theorem C2_redirect_syntax_error_witness :
    exec_redirect demo_world "cmd > ".toList 4 1 =
      (-1, [Call.mt_print "syntax error near '>'\n".toList])
    ∧ exec_redirect demo_world "> file.txt".toList 0 1 =
      (-1, [Call.mt_print "syntax error near '>'\n".toList]) :=
  ⟨C2_redirect_syntax_error _ "cmd > ".toList 4 1 (Or.inr (by decide)),
   C2_redirect_syntax_error _ "> file.txt".toList 0 1 (Or.inl (by decide))⟩

/-! ## Pipeline: splitting into stages -/

theorem cstr_cons_ne (c : Char) (cs : List Char) (hc : c ≠ NUL) :
    cstr (c :: cs) = c :: cstr cs := by
  simp [cstr, hc]

theorem cstr_cons_nul (cs : List Char) : cstr (NUL :: cs) = [] := by
  simp [cstr]

theorem is_blank_ne_nul (c : Char) (h : is_blank c = true) : c ≠ NUL := by
  intro hc
  subst hc
  exact absurd h (by decide)

theorem is_blank_ne_bar (c : Char) (h : is_blank c = true) : c ≠ '|' := by
  intro hc
  subst hc
  exact absurd h (by decide)

theorem splitOn_bar_cons (c : Char) (cs : List Char) :
    (c :: cs).splitOn '|' =
      if c = '|' then [] :: cs.splitOn '|' else (cs.splitOn '|').modifyHead (List.cons c) := by
  simp only [List.splitOn, List.splitOnP_cons, beq_iff_eq]

theorem split_loop_spec (s : List Char) :
    ∀ (segs : List (List Char)) (cur : List Char) (sk : Bool) (q0 : List Char)
      (qs : List (List Char)),
      (cstr s).splitOn '|' = q0 :: qs →
      segs.length + qs.length ≤ 3 →
      cur.length + q0.length ≤ 127 →
      (∀ q ∈ qs, q.length ≤ 127) →
      (split_loop segs cur sk s).1 ++ [(split_loop segs cur sk s).2] =
        segs ++ (cur ++ (if sk = true then skip_blanks q0 else q0)) :: qs.map skip_blanks := by
  induction s with
  | nil =>
    intro segs cur sk q0 qs hsplit _ _ _
    simp [cstr] at hsplit
    obtain ⟨h0, hq⟩ := hsplit
    subst h0
    subst hq
    cases sk <;> simp [split_loop, skip_blanks]
  | cons c cs ih =>
    intro segs cur sk q0 qs hsplit hcount hlen hqs
    by_cases hc : c = NUL
    · subst hc
      rw [cstr_cons_nul] at hsplit
      simp at hsplit
      obtain ⟨h0, hq⟩ := hsplit
      subst h0
      subst hq
      have hb : is_blank NUL = false := by decide
      cases sk <;> simp [split_loop, skip_blanks, hb]
    · rw [cstr_cons_ne c cs hc, splitOn_bar_cons] at hsplit
      obtain ⟨r0, rs, hr⟩ : ∃ r0 rs, (cstr cs).splitOn '|' = r0 :: rs := by
        cases h : (cstr cs).splitOn '|' with
        | nil => exact absurd h (List.splitOnP_ne_nil _ _)
        | cons a b => exact ⟨a, b, rfl⟩
      rw [hr] at hsplit
      by_cases hbar : c = '|'
      · subst hbar
        simp only [if_true, List.cons.injEq] at hsplit
        obtain ⟨h0, hq⟩ := hsplit
        subst h0
        subst hq
        have hb : is_blank '|' = false := by decide
        have hlt : segs.length < 4 := by
          simp only [List.length_cons] at hcount
          omega
        have := ih (segs ++ [cur]) [] true r0 rs hr
          (by simp only [List.length_append, List.length_cons, List.length_nil] at hcount ⊢; omega)
          (by simpa using hqs r0 (List.mem_cons_self _ _))
          (fun q hq => hqs q (List.mem_cons_of_mem _ hq))
        rw [split_loop]
        simp only [hb, and_false, if_false, hc, hlt, not_true_eq_false, or_self, if_true,
          Bool.false_eq_true]
        rw [this]
        cases sk <;> simp [skip_blanks]
      · simp only [hbar, if_false, List.modifyHead, List.cons.injEq] at hsplit
        obtain ⟨h0, hq⟩ := hsplit
        subst h0
        subst hq
        simp only [List.length_cons] at hlen
        by_cases hskip : sk = true ∧ is_blank c = true
        · have := ih segs cur true r0 rs hr hcount (by omega) hqs
          rw [split_loop, if_pos hskip, this]
          simp [hskip.1, skip_blanks, hskip.2]
        · have hlt : segs.length < 4 := by omega
          have hcur : cur.length < 127 := by omega
          have := ih segs (cur ++ [c]) false r0 rs hr hcount
            (by simp only [List.length_append, List.length_cons, List.length_nil]; omega) hqs
          rw [split_loop, if_neg hskip]
          simp only [hc, hlt, not_true_eq_false, or_self, if_false, hbar, hcur, if_true]
          rw [this]
          have hsk : (if sk = true then skip_blanks (c :: r0) else c :: r0) = c :: r0 := by
            cases sk with
            | false => simp
            | true =>
              have : is_blank c = false := by simpa using hskip
              simp [skip_blanks, this]
          rw [hsk]
          simp

theorem split_segments_spec (input : List Char) (q0 : List Char) (qs : List (List Char))
    (hsplit : (cstr input).splitOn '|' = q0 :: qs) (hcount : qs.length ≤ 3)
    (hlen : ∀ q ∈ q0 :: qs, q.length ≤ 127) :
    split_segments input = q0 :: qs.map skip_blanks := by
  have := split_loop_spec input [] [] false q0 qs hsplit (by simpa using hcount)
    (by simpa using hlen q0 (List.mem_cons_self _ _))
    (fun q hq => hlen q (List.mem_cons_of_mem _ hq))
  simpa [split_segments] using this

theorem splitOn_bar_length (s : List Char) :
    (s.splitOn '|').length = s.count '|' + 1 := by
  induction s with
  | nil => simp
  | cons c cs ih =>
    rw [splitOn_bar_cons]
    by_cases hbar : c = '|'
    · subst hbar
      simp [ih]
    · have hne : (c == '|') = false := by simpa using hbar
      rw [if_neg hbar, List.count_cons, hne]
      cases h : cs.splitOn '|' with
      | nil => exact absurd h (List.splitOnP_ne_nil _ _)
      | cons a b =>
        rw [h] at ih
        simpa [List.modifyHead] using ih

theorem skip_blanks_length_le (p : List Char) : (skip_blanks p).length ≤ p.length := by
  induction p with
  | nil => simp [skip_blanks]
  | cons c cs ih =>
    rw [skip_blanks]
    split
    · exact Nat.le_succ_of_le ih
    · exact Nat.le_refl _

theorem skip_blanks_idem (p : List Char) : skip_blanks (skip_blanks p) = skip_blanks p := by
  induction p with
  | nil => simp [skip_blanks]
  | cons c cs ih =>
    by_cases hb : is_blank c = true
    · simp [skip_blanks, hb, ih]
    · simp [skip_blanks, hb]

theorem copy_word_rest_length_le (max : Nat) (p buf : List Char) :
    (copy_word max buf p).2.length ≤ p.length := by
  induction p generalizing buf with
  | nil => simp [copy_word]
  | cons c cs ih =>
    rw [copy_word]
    split
    · exact Nat.le_succ_of_le (ih _)
    · exact Nat.le_refl _

theorem copy_upto_eq_of_fits (m : Nat) (p buf : List Char) (h : buf.length + p.length ≤ m) :
    copy_upto m buf p = buf ++ cstr p := by
  induction p generalizing buf with
  | nil => simp [copy_upto, cstr]
  | cons c cs ih =>
    simp only [List.length_cons] at h
    by_cases hc : c = NUL
    · subst hc
      simp [copy_upto, cstr]
    · have hlt : buf.length < m := by omega
      rw [copy_upto, if_pos ⟨hc, hlt⟩, ih _ (by simp; omega), cstr_cons_ne c cs hc]
      simp

theorem tokenize_skip_blanks (a b : Nat) (s : List Char) :
    tokenize a b (skip_blanks s) = tokenize a b s := by
  simp [tokenize, skip_blanks_idem]

theorem parse_segment_eq_parse_input (s : List Char) (h : s.length ≤ 127) :
    parse_segment s = parse_input s := by
  have hrest : (skip_blanks (copy_word 63 [] (skip_blanks s)).2).length ≤ 127 :=
    Nat.le_trans (skip_blanks_length_le _)
      (Nat.le_trans (copy_word_rest_length_le _ _ _)
        (Nat.le_trans (skip_blanks_length_le _) h))
  simp only [parse_segment, parse_input, tokenize]
  rw [copy_upto_eq_of_fits 127 _ [] (by simpa using hrest),
    copy_upto_eq_of_fits 255 _ [] (by simp; omega)]

/-! ## Pipeline: the calls of each loop -/

theorem alloc_pipes_ok (w : World) (n : Nat) (pipes : List Nat)
    (h : ∀ m, pipes.length ≤ m → m < pipes.length + n → w.pipe m ≠ 0) :
    alloc_pipes w n pipes =
      (some (pipes ++ (List.range' pipes.length n).map w.pipe),
       List.replicate n Call.pipe_alloc) := by
  induction n generalizing pipes with
  | zero => simp [alloc_pipes]
  | succ n ih =>
    have h0 : w.pipe pipes.length ≠ 0 := h _ (Nat.le_refl _) (by omega)
    have := ih (pipes ++ [w.pipe pipes.length]) (by
      intro m hm1 hm2
      simp only [List.length_append, List.length_cons, List.length_nil] at hm1 hm2
      exact h m (by omega) (by omega))
    rw [alloc_pipes]
    simp only [h0, if_false, this]
    simp [List.range'_succ, List.replicate_succ]

theorem alloc_pipes_count_le (w : World) (n : Nat) (pipes : List Nat) :
    (alloc_pipes w n pipes).2.count Call.pipe_alloc ≤ n := by
  induction n generalizing pipes with
  | zero => simp [alloc_pipes]
  | succ n ih =>
    rw [alloc_pipes]
    simp only
    split
    · simp [List.count_cons]
    · simp only [List.count_cons_self]
      exact Nat.succ_le_succ (ih _)

theorem spawn_stage_count_pipe_alloc (w : World) (sc : Nat) (pipes : List Nat) (i : Nat)
    (cmd args : List Char) (st : SpawnState) :
    (spawn_stage w sc pipes i cmd args st).trace.count Call.pipe_alloc =
      st.trace.count Call.pipe_alloc := by
  unfold spawn_stage
  simp only
  split <;> simp [List.count_cons]

theorem spawn_loop_count_pipe_alloc (w : World) (sc : Nat) (pipes : List Nat)
    (stages : List (List Char × List Char)) (i : Nat) (st : SpawnState) :
    (spawn_loop w sc pipes i stages st).trace.count Call.pipe_alloc =
      st.trace.count Call.pipe_alloc := by
  induction stages generalizing i st with
  | nil => rfl
  | cons s rest ih => rw [spawn_loop, ih, spawn_stage_count_pipe_alloc]

theorem wait_loop_count_pipe_alloc (pids : List Int) :
    (wait_loop pids).count Call.pipe_alloc = 0 := by
  induction pids with
  | nil => rfl
  | cons p rest ih =>
    rw [wait_loop]
    split
    · simpa [List.count_cons] using ih
    · exact ih

theorem exec_pipeline_count_pipe_alloc (w : World) (input : List Char) :
    (exec_pipeline w input).2.count Call.pipe_alloc =
      if pipeline_seg_count input < 2 then 0
      else (alloc_pipes w (pipeline_seg_count input - 1) []).2.count Call.pipe_alloc := by
  unfold exec_pipeline pipeline_seg_count
  simp only
  split
  · simp
  · split
    next t heq => simp [heq]
    next pipes t heq =>
      simp only [heq]
      split <;>
        simp [List.count_append, spawn_loop_count_pipe_alloc, wait_loop_count_pipe_alloc,
          List.count_cons]

/-- C3: a line with `k` bars, `1 ≤ k ≤ 3`, whose pieces have at most 127
characters, is split into `k + 1` stages; stage `i` is parsed into the verb
and argument that `parse_input` gives for the `i`-th piece with its leading
blanks removed; at most `k` pipe buffers are requested, and exactly `k` when
no allocation fails. -/
theorem C3_pipeline_stages (w : World) (input : List Char) (k : Nat)
    (hk : (cstr input).count '|' = k) (h1 : 1 ≤ k) (h3 : k ≤ 3)
    (hlen : ∀ p ∈ (cstr input).splitOn '|', p.length ≤ 127) :
    pipeline_seg_count input = k + 1
    ∧ (split_segments input).map parse_segment =
        ((cstr input).splitOn '|').map (fun p => parse_input (skip_blanks p))
    ∧ (exec_pipeline w input).2.count Call.pipe_alloc ≤ k
    ∧ ((∀ m, m < k → w.pipe m ≠ 0) →
        (exec_pipeline w input).2.count Call.pipe_alloc = k) := by
  obtain ⟨q0, qs, hq⟩ : ∃ q0 qs, (cstr input).splitOn '|' = q0 :: qs := by
    cases h : (cstr input).splitOn '|' with
    | nil => exact absurd h (List.splitOnP_ne_nil _ _)
    | cons a b => exact ⟨a, b, rfl⟩
  have hqs : qs.length = k := by
    have := splitOn_bar_length (cstr input)
    rw [hq, hk] at this
    simpa using this
  rw [hq] at hlen
  have hseg := split_segments_spec input q0 qs hq (by omega) hlen
  have hcount : pipeline_seg_count input = k + 1 := by
    simp [pipeline_seg_count, hseg, hqs]
  refine ⟨hcount, ?_, ?_, ?_⟩
  · rw [hseg, hq]
    simp only [List.map_cons, List.map_map, List.cons.injEq, List.map_inj_left,
      Function.comp_apply]
    refine ⟨?_, ?_⟩
    · rw [parse_segment_eq_parse_input q0 (hlen q0 (List.mem_cons_self _ _))]
      exact (tokenize_skip_blanks 63 255 q0).symm
    · intro q hq
      exact parse_segment_eq_parse_input _
        (Nat.le_trans (skip_blanks_length_le q) (hlen q (List.mem_cons_of_mem _ hq)))
  · rw [exec_pipeline_count_pipe_alloc, hcount]
    simp only [show ¬ k + 1 < 2 by omega, if_false, Nat.add_sub_cancel]
    exact alloc_pipes_count_le w k []
  · intro hp
    rw [exec_pipeline_count_pipe_alloc, hcount]
    simp only [show ¬ k + 1 < 2 by omega, if_false, Nat.add_sub_cancel]
    rw [alloc_pipes_ok w k [] (by intro m _ hm; exact hp m (by simpa using hm))]
    simp

/-- C3 at the line `a | b | c`: three stages with verbs a, b, c and two pipe
buffers. -/
theorem C3_pipeline_stages_witness :
    pipeline_seg_count "a | b | c".toList = 3
    ∧ (split_segments "a | b | c".toList).map parse_segment =
        [("a".toList, []), ("b".toList, []), ("c".toList, [])]
    ∧ (exec_pipeline demo_world "a | b | c".toList).2.count Call.pipe_alloc = 2 := by
  have h := C3_pipeline_stages demo_world "a | b | c".toList 2 (by decide) (by decide)
    (by decide) (by decide)
  exact ⟨h.1, h.2.1, h.2.2.2 (by decide)⟩

theorem spawn_loop_succ (w : World) (sc : Nat) (pipes : List Nat)
    (stages : List (List Char × List Char)) (i : Nat) (st : SpawnState) :
    spawn_loop w sc pipes (i + 1) stages st =
      { pids := st.pids ++ stage_pids w (i + 1) stages,
        pipeline_pgid := st.pipeline_pgid,
        trace := st.trace ++ stages_calls w sc pipes st.pipeline_pgid (i + 1) stages } := by
  induction stages generalizing i st with
  | nil => simp [spawn_loop, stage_pids, stages_calls]
  | cons s rest ih =>
    rw [spawn_loop, ih]
    unfold spawn_stage
    simp only
    split <;>
      simp [stage_pids, stages_calls, stage_calls, stage_spawn, *]

theorem spawn_loop_zero (w : World) (sc : Nat) (pipes : List Nat)
    (s : List Char × List Char) (rest : List (List Char × List Char)) (t : List Call) :
    spawn_loop w sc pipes 0 (s :: rest) { pids := [], pipeline_pgid := 0, trace := t } =
      { pids := stage_pids w 0 (s :: rest),
        pipeline_pgid :=
          if w.spawn 0 (program_path s.1) < 0 then 0 else w.spawn 0 (program_path s.1),
        trace := t ++ stages_calls w sc pipes
          (if w.spawn 0 (program_path s.1) < 0 then 0 else w.spawn 0 (program_path s.1))
          0 (s :: rest) } := by
  rw [spawn_loop, spawn_loop_succ]
  unfold spawn_stage
  simp only
  split <;>
    simp [stage_pids, stages_calls, stage_calls, stage_spawn, *]

theorem wait_loop_eq (pids : List Int) :
    wait_loop pids = (pids.filter (fun p => p > 0)).map Call.sched_waitpid := by
  induction pids with
  | nil => rfl
  | cons p rest ih =>
    rw [wait_loop]
    split
    next h => simp [List.filter_cons, h, ih]
    next h => simp [List.filter_cons, h, ih]

theorem exec_pipeline_trace (w : World) (input : List Char)
    (hseg : 2 ≤ pipeline_seg_count input)
    (halloc : ∀ m, m + 1 < pipeline_seg_count input → w.pipe m ≠ 0) :
    exec_pipeline w input =
      (0, List.replicate (pipeline_seg_count input - 1) Call.pipe_alloc
          ++ stages_calls w (pipeline_seg_count input) (pipeline_pipes w input)
               (pipeline_group w input) 0 (pipeline_stages input)
          ++ (if pipeline_group w input > 0 then [Call.tcsetpgrp (pipeline_group w input)]
              else [])
          ++ wait_loop (pipeline_pids w input) ++ [Call.tcsetpgrp w.pid]) := by
  have hal := alloc_pipes_ok w (pipeline_seg_count input - 1) []
    (by intro m _ hm; exact halloc m (by simp at hm; omega))
  obtain ⟨s, rest, hst⟩ : ∃ s rest, pipeline_stages input = s :: rest := by
    cases h : pipeline_stages input with
    | nil =>
      have : pipeline_seg_count input = 0 := by
        simpa [pipeline_stages, pipeline_seg_count] using h
      omega
    | cons a b => exact ⟨a, b, rfl⟩
  have hst2 : List.map parse_segment (split_segments input) = s :: rest := hst
  have hlt : ¬ (split_segments input).length < 2 := by
    have := hseg
    unfold pipeline_seg_count at this
    omega
  unfold exec_pipeline
  simp only [hlt, if_false]
  unfold pipeline_seg_count at hal
  rw [hal]
  simp only [hst2, spawn_loop_zero]
  simp only [pipeline_group, pipeline_pids, pipeline_pipes, pipeline_seg_count, hst,
    stage_pids, List.nil_append]
  split
  · simp
  · split <;> simp

theorem split_loop_length_ge (s : List Char) (segs : List (List Char)) (cur : List Char)
    (sk : Bool) : segs.length ≤ (split_loop segs cur sk s).1.length := by
  induction s generalizing segs cur sk with
  | nil => simp [split_loop]
  | cons c cs ih =>
    rw [split_loop]
    split
    · exact ih _ _ _
    · split
      · exact Nat.le_refl _
      · split
        · exact Nat.le_trans (by simp) (ih _ _ _)
        · exact ih _ _ _

theorem split_loop_has_pipe (s : List Char) (segs : List (List Char)) (cur : List Char)
    (sk : Bool) (hp : has_pipe s = true) (hlt : segs.length < 4) :
    segs.length + 1 ≤ (split_loop segs cur sk s).1.length := by
  induction s generalizing segs cur sk with
  | nil => simp [has_pipe] at hp
  | cons c cs ih =>
    rw [has_pipe] at hp
    by_cases hc : c = NUL
    · simp [hc] at hp
    · rw [if_neg hc] at hp
      rw [split_loop]
      split
      next hsk =>
        have hbar : c ≠ '|' := is_blank_ne_bar c hsk.2
        rw [if_neg hbar] at hp
        exact ih _ _ _ hp hlt
      next =>
        rw [if_neg (by simp [hc, hlt])]
        split
        · exact Nat.le_trans (by simp) (split_loop_length_ge cs _ _ _)
        next hbar =>
          rw [if_neg hbar] at hp
          exact ih _ _ _ hp hlt

theorem seg_count_ge_two (input : List Char) (hp : has_pipe input = true) :
    2 ≤ pipeline_seg_count input := by
  have := split_loop_has_pipe input [] [] false hp (by decide)
  simp only [pipeline_seg_count, split_segments, List.length_append, List.length_cons,
    List.length_nil]
  simp only [List.length_nil] at this
  omega

theorem stages_calls_spawns (w : World) (sc : Nat) (pipes : List Nat) (g : Int)
    (stages : List (List Char × List Char)) (i : Nat) :
    (stages_calls w sc pipes g i stages).filter Call.is_spawn =
      stages_spawns sc pipes i stages := by
  induction stages generalizing i with
  | nil => rfl
  | cons s rest ih =>
    rw [stages_calls, stages_spawns, List.filter_append, ih]
    unfold stage_calls
    split <;> simp [List.filter_cons, stage_spawn, Call.is_spawn]

theorem stages_calls_waits (w : World) (sc : Nat) (pipes : List Nat) (g : Int)
    (stages : List (List Char × List Char)) (i : Nat) :
    (stages_calls w sc pipes g i stages).filter Call.is_wait = [] := by
  induction stages generalizing i with
  | nil => rfl
  | cons s rest ih =>
    rw [stages_calls, List.filter_append, ih]
    unfold stage_calls
    split <;> simp [List.filter_cons, stage_spawn, Call.is_wait]

theorem stages_calls_foreground (w : World) (sc : Nat) (pipes : List Nat) (g : Int)
    (stages : List (List Char × List Char)) (i : Nat) :
    (stages_calls w sc pipes g i stages).filter Call.is_foreground = [] := by
  induction stages generalizing i with
  | nil => rfl
  | cons s rest ih =>
    rw [stages_calls, List.filter_append, ih]
    unfold stage_calls
    split <;> simp [List.filter_cons, stage_spawn, Call.is_foreground]

theorem stages_spawns_getElem? (sc : Nat) (pipes : List Nat)
    (stages : List (List Char × List Char)) (k i : Nat) :
    (stages_spawns sc pipes k stages)[i]? = (stages[i]?).map (stage_spawn sc pipes (k + i)) := by
  induction stages generalizing k i with
  | nil => simp [stages_spawns]
  | cons s rest ih =>
    cases i with
    | zero => simp [stages_spawns]
    | succ j =>
      simp only [stages_spawns, List.getElem?_cons_succ, ih]
      have : k + 1 + j = k + (j + 1) := by omega
      rw [this]

theorem stages_spawns_length (sc : Nat) (pipes : List Nat)
    (stages : List (List Char × List Char)) (k : Nat) :
    (stages_spawns sc pipes k stages).length = stages.length := by
  induction stages generalizing k with
  | nil => rfl
  | cons s rest ih => simp [stages_spawns, ih]

theorem wait_loop_spawns (pids : List Int) : (wait_loop pids).filter Call.is_spawn = [] := by
  rw [wait_loop_eq]
  induction pids.filter (fun p => p > 0) with
  | nil => rfl
  | cons p rest ih => simp [List.filter_cons, Call.is_spawn]

theorem exec_pipeline_spawns (w : World) (input : List Char)
    (hseg : 2 ≤ pipeline_seg_count input)
    (halloc : ∀ m, m + 1 < pipeline_seg_count input → w.pipe m ≠ 0) :
    (exec_pipeline w input).2.filter Call.is_spawn =
      stages_spawns (pipeline_seg_count input) (pipeline_pipes w input) 0
        (pipeline_stages input) := by
  rw [exec_pipeline_trace w input hseg halloc]
  simp only [List.filter_append, stages_calls_spawns, wait_loop_spawns]
  have h1 : (List.replicate (pipeline_seg_count input - 1) Call.pipe_alloc).filter
      Call.is_spawn = [] := by
    simp [List.filter_eq_nil_iff, Call.is_spawn]
  rw [h1]
  split <;> simp [List.filter_cons, Call.is_spawn]

/-! ## Pipeline: the stage bound -/

/-- C4 (the code departs from the claim): on `a|b|c|d|e` the split leaves
`seg_count = 5`, having written row 4 of the four-row array `segments`; the
later loops then run over stages 0 to 4 and request 4 pipe buffers for the
three-entry array `pipes`. -/
theorem C4_stage_count_overrun :
    pipeline_seg_count "a|b|c|d|e".toList = 5
    ∧ split_segments "a|b|c|d|e".toList =
        ["a".toList, "b".toList, "c".toList, "d".toList, []]
    ∧ (pipeline_pids demo_world "a|b|c|d|e".toList).length = 5
    ∧ (exec_pipeline demo_world "a|b|c|d|e".toList).2.count Call.pipe_alloc = 4 := by
  decide

/-! ## Pipeline: descriptor tables -/

theorem fds_update_get_ne (fds : List shell_fd_entry) (i j : Nat)
    (f : shell_fd_entry → shell_fd_entry) (h : i ≠ j) :
    (fds_update fds i f)[j]? = fds[j]? := by
  simp [fds_update, List.getElem?_modify_ne _ _ h]

theorem fds_update_get_eq (fds : List shell_fd_entry) (i : Nat)
    (f : shell_fd_entry → shell_fd_entry) :
    (fds_update fds i f)[i]? = (fds[i]?).map f := by
  simp [fds_update]

theorem fds_update_length (fds : List shell_fd_entry) (i : Nat)
    (f : shell_fd_entry → shell_fd_entry) : (fds_update fds i f).length = fds.length := by
  simp [fds_update]

theorem fds_init_get (j : Nat) (h : j < 64) : fds_init[j]? = some fd_unused := by
  rw [fds_init, List.getElem?_replicate, if_pos (show j < SHELL_MAX_FDS from h)]

theorem fds_init_length : fds_init.length = 64 := by
  rw [fds_init, List.length_replicate]
  rfl

theorem pipeline_fds_length (n : Nat) (pipes : List Nat) (i : Nat) :
    (pipeline_fds n pipes i).length = 64 := by
  unfold pipeline_fds
  simp only []
  split_ifs <;> simp only [fds_update_length, fds_init_length]

theorem pipeline_fds_slot0 (n : Nat) (pipes : List Nat) (i : Nat) :
    (pipeline_fds n pipes i)[0]? =
      some (if i = 0 then fd_console else fd_pipe_end (pipes.getD (i - 1) 0) 0) := by
  unfold pipeline_fds
  simp only []
  split_ifs <;>
    rw [fds_update_get_ne _ 2 0 _ (by decide), fds_update_get_ne _ 1 0 _ (by decide),
      fds_update_get_eq, fds_init_get 0 (by decide)] <;>
    rfl

theorem pipeline_fds_slot1 (n : Nat) (pipes : List Nat) (i : Nat) :
    (pipeline_fds n pipes i)[1]? =
      some (if i = n - 1 then fd_console else fd_pipe_end (pipes.getD i 0) 1) := by
  unfold pipeline_fds
  simp only []
  split_ifs <;>
    rw [fds_update_get_ne _ 2 1 _ (by decide), fds_update_get_eq,
      fds_update_get_ne _ 0 1 _ (by decide), fds_init_get 1 (by decide)] <;>
    rfl

theorem pipeline_fds_slot2 (n : Nat) (pipes : List Nat) (i : Nat) :
    (pipeline_fds n pipes i)[2]? = some fd_console := by
  unfold pipeline_fds
  simp only []
  split_ifs <;>
    rw [fds_update_get_eq, fds_update_get_ne _ 1 2 _ (by decide),
      fds_update_get_ne _ 0 2 _ (by decide), fds_init_get 2 (by decide)] <;>
    rfl

theorem pipeline_fds_rest (n : Nat) (pipes : List Nat) (i j : Nat) (h3 : 3 ≤ j)
    (h64 : j < 64) : (pipeline_fds n pipes i)[j]? = some fd_unused := by
  unfold pipeline_fds
  simp only []
  split_ifs <;>
    rw [fds_update_get_ne _ 2 j _ (by omega), fds_update_get_ne _ 1 j _ (by omega),
      fds_update_get_ne _ 0 j _ (by omega), fds_init_get j h64]

/-- C5: in a pipeline of `n` stages with pipe buffers `pipes[0 .. n-2]`, the
table of stage `i` has 64 slots; slot 0 is the console for stage 0 and
otherwise the read end (flags 0) of `pipes[i-1]`; slot 1 is the console for
the last stage and otherwise the write end (flags 1) of `pipes[i]`; slot 2 is
the console; slots 3 to 63 are unused.  So the buffer on the stdout of stage
`i` is the one on the stdin of stage `i + 1`.  This table is the one
`exec_pipeline` passes to the spawn of stage `i`. -/
theorem C5_pipeline_fds (n : Nat) (pipes : List Nat) (i : Nat) (h2 : 2 ≤ n)
    (hp : pipes.length = n - 1) (hi : i < n) :
    (pipeline_fds n pipes i).length = 64
    ∧ (pipeline_fds n pipes i)[0]? =
        some (if i = 0 then fd_console else fd_pipe_end (pipes.getD (i - 1) 0) 0)
    ∧ (pipeline_fds n pipes i)[1]? =
        some (if i = n - 1 then fd_console else fd_pipe_end (pipes.getD i 0) 1)
    ∧ (pipeline_fds n pipes i)[2]? = some fd_console
    ∧ (∀ j, 3 ≤ j → j < 64 → (pipeline_fds n pipes i)[j]? = some fd_unused)
    ∧ (i + 1 < n → ∃ p, pipes[i]? = some p
        ∧ (pipeline_fds n pipes i)[1]? = some (fd_pipe_end p 1)
        ∧ (pipeline_fds n pipes (i + 1))[0]? = some (fd_pipe_end p 0))
    ∧ (∀ (w : World) (input : List Char), pipeline_seg_count input = n →
        pipeline_pipes w input = pipes → (∀ m, m + 1 < n → w.pipe m ≠ 0) →
        ∃ stage : List Char × List Char,
          ((exec_pipeline w input).2.filter Call.is_spawn)[i]? =
            some (Call.sched_spawn (program_path stage.1) stage.1 (argv1_of stage.2)
              (some (pipeline_fds n pipes i)))) := by
  refine ⟨pipeline_fds_length n pipes i, pipeline_fds_slot0 n pipes i,
    pipeline_fds_slot1 n pipes i, pipeline_fds_slot2 n pipes i,
    fun j h3 h64 => pipeline_fds_rest n pipes i j h3 h64, ?_, ?_⟩
  · intro hlast
    have hlt : i < pipes.length := by omega
    refine ⟨pipes[i], by simp [hlt], ?_, ?_⟩
    · rw [pipeline_fds_slot1, if_neg (by omega)]
      simp [List.getD, hlt]
    · rw [pipeline_fds_slot0, if_neg (by omega)]
      simp [List.getD, hlt]
  · intro w input hn hpipes halloc
    have hspawns := exec_pipeline_spawns w input (by omega) (by rw [hn]; exact halloc)
    have hlen : i < (pipeline_stages input).length := by
      have : (pipeline_stages input).length = n := by
        rw [← hn]
        simp [pipeline_stages, pipeline_seg_count]
      omega
    refine ⟨(pipeline_stages input)[i], ?_⟩
    rw [hspawns, stages_spawns_getElem?, hn, hpipes]
    simp [hlen, stage_spawn]

/-- C5 at the middle stage of three, with pipe buffers at 11 and 12. -/
theorem C5_pipeline_fds_witness :
    (pipeline_fds 3 [11, 12] 1)[0]? = some (fd_pipe_end 11 0)
    ∧ (pipeline_fds 3 [11, 12] 1)[1]? = some (fd_pipe_end 12 1)
    ∧ (pipeline_fds 3 [11, 12] 1)[2]? = some fd_console
    ∧ (pipeline_fds 3 [11, 12] 2)[0]? = some (fd_pipe_end 12 0) := by
  have h := C5_pipeline_fds 3 [11, 12] 1 (by decide) (by decide) (by decide)
  obtain ⟨p, hp, _, h0⟩ := h.2.2.2.2.2.1 (by decide)
  have hp12 : p = 12 := by simpa using hp.symm
  subst hp12
  exact ⟨h.2.1, h.2.2.1, h.2.2.2.1, h0⟩

/-! ## Pipeline: process group and foreground -/

/-- C6 (the code departs from the claim): on `a | b | c` with the spawn of
stage 0 failing and stages 1 and 2 started as processes 5 and 6, the group
variable stays 0 and both `setpgid` calls pass group 0, which lib.c resolves
to the process itself: the two processes end up in the groups 5 and 6, not
in one group. -/
theorem C6_group_when_first_stage_fails :
    pipeline_pids world_first_fails "a | b | c".toList = [-1, 5, 6]
    ∧ pipeline_group world_first_fails "a | b | c".toList = 0
    ∧ (exec_pipeline world_first_fails "a | b | c".toList).2.filter Call.is_assign_group =
        [Call.setpgid 5 0, Call.setpgid 6 0]
    ∧ (run_setpgids (exec_pipeline world_first_fails "a | b | c".toList).2
        { tasks := [⟨1, 1⟩, ⟨5, 1⟩, ⟨6, 1⟩], current := some 1 }).tasks =
        [⟨1, 1⟩, ⟨5, 5⟩, ⟨6, 6⟩] := by
  decide

/-- C7 (the code departs from the claim): on `a | b` with the spawn of stage
0 failing and stage 1 started as process 5, the only `tcsetpgrp` is the one
that restores the shell (process 1): the started process is waited for but
never made foreground. -/
theorem C7_no_foreground_when_first_stage_fails :
    pipeline_pids world_first_fails "a | b".toList = [-1, 5]
    ∧ (exec_pipeline world_first_fails "a | b".toList).2.filter Call.is_foreground =
        [Call.tcsetpgrp 1]
    ∧ (exec_pipeline world_first_fails "a | b".toList).2.filter Call.is_wait =
        [Call.sched_waitpid 5] := by
  decide

/-! ## Pipeline: spawn every stage, then wait -/

theorem stage_pids_mem (w : World) (stages : List (List Char × List Char)) :
    ∀ (i : Nat) (pid : Int), pid ∈ stage_pids w i stages → ∃ j p, pid = w.spawn j p := by
  induction stages with
  | nil =>
    intro i pid h
    cases h
  | cons s rest ih =>
    intro i pid h
    rw [stage_pids] at h
    rcases List.mem_cons.mp h with h1 | h1
    · exact ⟨i, program_path s.1, h1⟩
    · exact ih (i + 1) pid h1

/-- C8: in a kernel that never hands out process id 0, for a line with a `|`
whose pipeline is started (every pipe buffer allocated), the calls of
`exec_pipeline` are a first part `pre`, then one wait for each stage whose
spawn did not return a failure result (a negative value), in stage order,
then the `tcsetpgrp` that restores the shell.  `pre` holds no wait, and its
spawns are one per stage, in textual order, whatever the earlier spawns
returned. -/
theorem C8_spawn_all_then_wait (w : World) (input : List Char)
    (hpipe : has_pipe input = true)
    (halloc : ∀ m, m + 1 < pipeline_seg_count input → w.pipe m ≠ 0)
    (hpid : ∀ i path, w.spawn i path ≠ 0) :
    ∃ pre : List Call,
      (exec_pipeline w input).2 =
        pre ++ ((pipeline_pids w input).filter (fun pid => ¬ pid < 0)).map Call.sched_waitpid
          ++ [Call.tcsetpgrp w.pid]
      ∧ pre.filter Call.is_wait = []
      ∧ pre.filter Call.is_spawn =
          stages_spawns (pipeline_seg_count input) (pipeline_pipes w input) 0
            (pipeline_stages input)
      ∧ (pre.filter Call.is_spawn).length = pipeline_seg_count input := by
  have hseg := seg_count_ge_two input hpipe
  have hfilter : (pipeline_pids w input).filter (fun pid => ¬ pid < 0)
      = (pipeline_pids w input).filter (fun pid => pid > 0) := by
    apply List.filter_congr
    intro pid hmem
    obtain ⟨j, p, hj⟩ := stage_pids_mem w (pipeline_stages input) 0 pid hmem
    have hne : pid ≠ 0 := by
      rw [hj]
      exact hpid j p
    by_cases hlt : pid < 0
    · have hng : ¬ pid > 0 := by omega
      simp [hlt, hng]
    · have hg : pid > 0 := by omega
      simp [hlt, hg]
  refine ⟨List.replicate (pipeline_seg_count input - 1) Call.pipe_alloc
      ++ stages_calls w (pipeline_seg_count input) (pipeline_pipes w input)
           (pipeline_group w input) 0 (pipeline_stages input)
      ++ (if pipeline_group w input > 0 then [Call.tcsetpgrp (pipeline_group w input)]
          else []), ?_, ?_, ?_, ?_⟩
  · rw [exec_pipeline_trace w input hseg halloc, wait_loop_eq, hfilter]
  · simp only [List.filter_append, stages_calls_waits]
    have h1 : (List.replicate (pipeline_seg_count input - 1) Call.pipe_alloc).filter
        Call.is_wait = [] := by
      simp [List.filter_eq_nil_iff, Call.is_wait]
    rw [h1]
    split <;> simp [List.filter_cons, Call.is_wait]
  · simp only [List.filter_append, stages_calls_spawns]
    have h1 : (List.replicate (pipeline_seg_count input - 1) Call.pipe_alloc).filter
        Call.is_spawn = [] := by
      simp [List.filter_eq_nil_iff, Call.is_spawn]
    rw [h1]
    split <;> simp [List.filter_cons, Call.is_spawn]
  · simp only [List.filter_append, stages_calls_spawns]
    have h1 : (List.replicate (pipeline_seg_count input - 1) Call.pipe_alloc).filter
        Call.is_spawn = [] := by
      simp [List.filter_eq_nil_iff, Call.is_spawn]
    rw [h1]
    have hlen : (stages_spawns (pipeline_seg_count input) (pipeline_pipes w input) 0
        (pipeline_stages input)).length = pipeline_seg_count input := by
      rw [stages_spawns_length]
      simp [pipeline_stages, pipeline_seg_count]
    split <;> simp [List.filter_cons, Call.is_spawn, hlen]

/-- C8 at `a | b` with the spawn of stage 0 failing: stage 1 is still
spawned, and it alone is waited for. -/
theorem C8_spawn_all_then_wait_witness :
    ∃ pre : List Call,
      (exec_pipeline world_first_fails "a | b".toList).2 =
        pre ++ [Call.sched_waitpid 5] ++ [Call.tcsetpgrp 1]
      ∧ pre.filter Call.is_wait = []
      ∧ (pre.filter Call.is_spawn).length = 2 := by
  obtain ⟨pre, h1, h2, _, h4⟩ :=
    C8_spawn_all_then_wait world_first_fails "a | b".toList (by decide)
      (fun m _ => Nat.succ_ne_zero m)
      (fun i _ => by
        show (if i = 0 then (-1 : Int) else (i : Int) + 4) ≠ 0
        split <;> omega)
  exact ⟨pre, h1, h2, h4⟩

/-! ## Redirection: descriptor table and call sequence -/

theorem redirect_fds_length (node : vfs_node) (mode : Nat) :
    (redirect_fds node mode).length = 64 := by
  unfold redirect_fds
  simp only [fds_update_length, fds_init_length]

theorem redirect_fds_slot0 (node : vfs_node) (mode : Nat) :
    (redirect_fds node mode)[0]? = some fd_console := by
  unfold redirect_fds
  simp only []
  rw [fds_update_get_ne _ 2 0 _ (by decide), fds_update_get_ne _ 1 0 _ (by decide),
    fds_update_get_eq, fds_init_get 0 (by decide)]
  rfl

theorem redirect_fds_slot1 (node : vfs_node) (mode : Nat) :
    (redirect_fds node mode)[1]? =
      some (fd_file node (if mode = 2 then node.size % 2 ^ 32 else 0)) := by
  unfold redirect_fds
  simp only []
  rw [fds_update_get_ne _ 2 1 _ (by decide), fds_update_get_eq,
    fds_update_get_ne _ 0 1 _ (by decide), fds_init_get 1 (by decide)]
  rfl

theorem redirect_fds_slot2 (node : vfs_node) (mode : Nat) :
    (redirect_fds node mode)[2]? = some fd_console := by
  unfold redirect_fds
  simp only []
  rw [fds_update_get_eq, fds_update_get_ne _ 1 2 _ (by decide),
    fds_update_get_ne _ 0 2 _ (by decide), fds_init_get 2 (by decide)]
  rfl

theorem redirect_fds_rest (node : vfs_node) (mode j : Nat) (h3 : 3 ≤ j) (h64 : j < 64) :
    (redirect_fds node mode)[j]? = some fd_unused := by
  unfold redirect_fds
  simp only []
  rw [fds_update_get_ne _ 2 j _ (by omega), fds_update_get_ne _ 1 j _ (by omega),
    fds_update_get_ne _ 0 j _ (by omega), fds_init_get j h64]

theorem exec_redirect_spawn_mem (w : World) (input : List Char) (redir_pos mode : Nat)
    (c : Call) (hc : c.is_spawn = true) (hmem : c ∈ (exec_redirect w input redir_pos mode).2) :
    ∃ node, w.resolve (redirect_target w input redir_pos mode) = some node
      ∧ c = redirect_spawn input redir_pos mode node := by
  unfold exec_redirect at hmem
  simp only [] at hmem
  split at hmem
  · simp only [List.mem_singleton] at hmem
    subst hmem
    simp [Call.is_spawn] at hc
  · split at hmem
    next hres =>
      simp only [List.cons_append, List.nil_append, List.mem_cons, List.mem_singleton,
        List.not_mem_nil, or_false] at hmem
      rcases hmem with h | h | h | h | h <;> subst h <;> simp [Call.is_spawn] at hc
    next node hres =>
      refine ⟨node, hres, ?_⟩
      have hrest : c ∈ [Call.fat32_touch_path (shell_build_path w.cwd
              (redirect_filename input redir_pos mode)),
            Call.vfs_resolve_path (shell_build_path w.cwd
              (redirect_filename input redir_pos mode)),
            Call.fat32_truncate node 0,
            Call.mt_print "redirect: command not found: ".toList,
            Call.mt_print (redirect_verb input redir_pos), Call.mt_print "\n".toList,
            Call.tcsetpgrp (w.spawn 0 (program_path (redirect_verb input redir_pos))),
            Call.sched_waitpid (w.spawn 0 (program_path (redirect_verb input redir_pos))),
            Call.tcsetpgrp w.pid, Call.fat32_flush_size node]
          ∨ c = redirect_spawn input redir_pos mode node := by
        split at hmem <;> split at hmem <;>
          simp only [List.cons_append, List.nil_append, List.mem_cons, List.mem_singleton,
            List.not_mem_nil, or_false, List.mem_append] at hmem ⊢ <;>
          simp only [redirect_spawn, redirect_verb, redirect_args] <;>
          tauto
      rcases hrest with h | h
      · simp only [List.mem_cons, List.mem_singleton, List.not_mem_nil, or_false] at h
        rcases h with h | h | h | h | h | h | h | h | h | h <;> subst h <;>
          simp [Call.is_spawn] at hc
      · exact h

/-- C9: whenever `exec_redirect` issues a spawn (file sizes being 32-bit
quantities), the table it passes has 64 slots: slot 0 is the console, slot 1
is the resolved target node at offset 0, or at the node's size when the mode
is 2 (append), slot 2 is the console, slots 3 to 63 are unused. -/
theorem C9_redirect_fds (w : World) (input : List Char) (redir_pos mode : Nat)
    (path a0 : List Char) (a1 : Option (List Char)) (fds : Option (List shell_fd_entry))
    (hspawn : Call.sched_spawn path a0 a1 fds ∈ (exec_redirect w input redir_pos mode).2)
    (hsize : ∀ p node, w.resolve p = some node → node.size < 2 ^ 32) :
    ∃ node tbl, w.resolve (redirect_target w input redir_pos mode) = some node
      ∧ fds = some tbl
      ∧ tbl.length = 64
      ∧ tbl[0]? = some fd_console
      ∧ tbl[1]? = some (fd_file node (if mode = 2 then node.size else 0))
      ∧ tbl[2]? = some fd_console
      ∧ ∀ j, 3 ≤ j → j < 64 → tbl[j]? = some fd_unused := by
  obtain ⟨node, hres, heq⟩ := exec_redirect_spawn_mem w input redir_pos mode
    (Call.sched_spawn path a0 a1 fds) rfl hspawn
  simp only [redirect_spawn, Call.sched_spawn.injEq] at heq
  refine ⟨node, redirect_fds node mode, hres, heq.2.2.2, redirect_fds_length node mode,
    redirect_fds_slot0 node mode, ?_, redirect_fds_slot2 node mode,
    fun j h3 h64 => redirect_fds_rest node mode j h3 h64⟩
  rw [redirect_fds_slot1, Nat.mod_eq_of_lt (hsize _ node hres)]

/-- C9 at `cmd >> file.txt` with a target of 10 bytes: the spawn carries the
table console, file at offset 10, console. -/
theorem C9_redirect_fds_witness :
    ∃ tbl : List shell_fd_entry,
      tbl[0]? = some fd_console
      ∧ tbl[1]? = some (fd_file ⟨7, 10, false⟩ 10)
      ∧ tbl[2]? = some fd_console := by
  obtain ⟨node, tbl, hres, _, _, h0, h1, h2, _⟩ :=
    C9_redirect_fds { demo_world with resolve := fun _ => some ⟨7, 10, false⟩ }
      "cmd >> file.txt".toList 4 2
      "/apps/cmd".toList "cmd".toList none (some (redirect_fds ⟨7, 10, false⟩ 2))
      (by decide)
      (by intro p node h
          have : node = ⟨7, 10, false⟩ := by simpa using h.symm
          subst this
          decide)
  have hn : node = ⟨7, 10, false⟩ := by simpa using hres.symm
  subst hn
  exact ⟨tbl, h0, h1, h2⟩

theorem trim_end_eq_zero_iff (input : List Char) (pos : Nat) :
    trim_end input pos = 0 ↔ ∀ i, i < pos → is_blank (cget input i) = true := by
  refine ⟨?_, trim_end_eq_zero input pos⟩
  induction pos with
  | zero => intro _ i hi; omega
  | succ n ih =>
    intro h i hi
    rw [trim_end] at h
    split at h
    next hb =>
      rcases Nat.lt_succ_iff_lt_or_eq.mp hi with hlt | heq
      · exact ih h i hlt
      · rw [heq]; exact hb
    next => omega

theorem copy_word_length_ge (max : Nat) (p buf : List Char) :
    buf.length ≤ (copy_word max buf p).1.length := by
  induction p generalizing buf with
  | nil => simp [copy_word]
  | cons c cs ih =>
    rw [copy_word]
    split
    · exact Nat.le_trans (by simp) (ih _)
    · exact Nat.le_refl _

theorem copy_word_skip_blanks_nil_iff (max : Nat) (hmax : 0 < max) (p : List Char) :
    (copy_word max [] (skip_blanks p)).1 = [] ↔ ∀ x ∈ cstr p, is_blank x = true := by
  refine ⟨?_, copy_word_skip_blanks_nil max p⟩
  induction p with
  | nil => intro _ x hx; simp [cstr] at hx
  | cons c cs ih =>
    intro h x hx
    by_cases hc : c = NUL
    · subst hc
      simp [cstr] at hx
    · rw [cstr_cons_ne c cs hc] at hx
      by_cases hb : is_blank c = true
      · rw [skip_blanks, if_pos hb] at h
        rcases List.mem_cons.mp hx with hx | hx
        · rw [hx]; exact hb
        · exact ih h x hx
      · exfalso
        rw [skip_blanks, if_neg hb, copy_word,
          if_pos ⟨hc, by simpa using hb, by simpa using hmax⟩] at h
        have := copy_word_length_ge max cs ([] ++ [c])
        rw [h] at this
        simp at this

theorem redirect_well_formed (input : List Char) (redir_pos mode : Nat)
    (hcmd : has_command input redir_pos) (hfile : has_filename input redir_pos mode) :
    ¬ ((redirect_filename input redir_pos mode).length = 0
        ∨ redirect_cmd_len input redir_pos = 0) := by
  rintro (h | h)
  · obtain ⟨x, hx, hb⟩ := hfile
    have hnil : (copy_word 255 [] (skip_blanks
        (input.drop (redirect_fi redir_pos mode)))).1 = [] := by
      simpa [redirect_filename] using h
    have := (copy_word_skip_blanks_nil_iff 255 (by decide) _).mp hnil x hx
    rw [hb] at this
    exact absurd this (by decide)
  · obtain ⟨i, hi, hb⟩ := hcmd
    have := (trim_end_eq_zero_iff input redir_pos).mp h i hi
    rw [hb] at this
    exact absurd this (by decide)

/-- C10: for a redirection with a command and a filename, whose target
resolves to `node` and whose spawn does not fail, `exec_redirect` returns 0
and makes exactly these calls, in this order: create the target if absent,
resolve it, truncate it to 0 (only when the mode is 1, overwrite), spawn,
make the child foreground, wait for the child, make the shell foreground
again, flush the size of the file. -/
theorem C10_redirect_call_sequence (w : World) (input : List Char) (redir_pos mode : Nat)
    (node : vfs_node) (hcmd : has_command input redir_pos)
    (hfile : has_filename input redir_pos mode)
    (hres : w.resolve (redirect_target w input redir_pos mode) = some node)
    (hspawn : ¬ w.spawn 0 (program_path (redirect_verb input redir_pos)) < 0) :
    exec_redirect w input redir_pos mode =
      (0, [Call.fat32_touch_path (redirect_target w input redir_pos mode),
           Call.vfs_resolve_path (redirect_target w input redir_pos mode)]
          ++ (if mode = 1 then [Call.fat32_truncate node 0] else [])
          ++ [redirect_spawn input redir_pos mode node,
              Call.tcsetpgrp (w.spawn 0 (program_path (redirect_verb input redir_pos))),
              Call.sched_waitpid (w.spawn 0 (program_path (redirect_verb input redir_pos))),
              Call.tcsetpgrp w.pid,
              Call.fat32_flush_size node]) := by
  have hwf := redirect_well_formed input redir_pos mode hcmd hfile
  unfold redirect_target at hres
  unfold redirect_verb at hspawn
  unfold exec_redirect
  simp only [hwf, if_false, hres, hspawn, redirect_target, redirect_spawn, redirect_verb,
    redirect_args]
  split <;> simp

/-- C10 at `cmd > file.txt` (overwrite, with the truncation) and at
`cmd >> file.txt` (append, without it). -/
theorem C10_redirect_call_sequence_witness :
    exec_redirect demo_world "cmd > file.txt".toList 4 1 =
      (0, [Call.fat32_touch_path "/file.txt".toList,
           Call.vfs_resolve_path "/file.txt".toList,
           Call.fat32_truncate ⟨7, 0, false⟩ 0,
           Call.sched_spawn "/apps/cmd".toList "cmd".toList none
             (some (redirect_fds ⟨7, 0, false⟩ 1)),
           Call.tcsetpgrp 2, Call.sched_waitpid 2, Call.tcsetpgrp 1,
           Call.fat32_flush_size ⟨7, 0, false⟩])
    ∧ exec_redirect demo_world "cmd >> file.txt".toList 4 2 =
      (0, [Call.fat32_touch_path "/file.txt".toList,
           Call.vfs_resolve_path "/file.txt".toList,
           Call.sched_spawn "/apps/cmd".toList "cmd".toList none
             (some (redirect_fds ⟨7, 0, false⟩ 2)),
           Call.tcsetpgrp 2, Call.sched_waitpid 2, Call.tcsetpgrp 1,
           Call.fat32_flush_size ⟨7, 0, false⟩]) :=
  ⟨C10_redirect_call_sequence demo_world "cmd > file.txt".toList 4 1 ⟨7, 0, false⟩
      ⟨0, by decide, by decide⟩ ⟨'f', by decide, by decide⟩ (by decide) (by decide),
   C10_redirect_call_sequence demo_world "cmd >> file.txt".toList 4 2 ⟨7, 0, false⟩
      ⟨0, by decide, by decide⟩ ⟨'f', by decide, by decide⟩ (by decide) (by decide)⟩

/-! ## Redirection: command segment and filename -/

theorem skip_blanks_eq_dropWhile (p : List Char) : skip_blanks p = p.dropWhile is_blank := by
  induction p with
  | nil => rfl
  | cons c cs ih =>
    by_cases hb : is_blank c = true
    · simp [skip_blanks, hb, ih]
    · simp [skip_blanks, hb]

theorem copy_word_fst (max : Nat) (p buf : List Char) :
    (copy_word max buf p).1 = buf ++ (p.takeWhile word_char).take (max - buf.length) := by
  induction p generalizing buf with
  | nil => simp [copy_word]
  | cons c cs ih =>
    rw [copy_word]
    split
    next h =>
      have hw : word_char c = true := by simp [word_char, h.1, h.2.1]
      have hlen : max - buf.length = (max - (buf ++ [c]).length) + 1 := by
        simp only [List.length_append, List.length_cons, List.length_nil]
        omega
      rw [ih, List.takeWhile_cons_of_pos hw, hlen, List.take_succ_cons]
      simp
    next h =>
      by_cases hw : word_char c = true
      · have hc : c ≠ NUL ∧ is_blank c = false := by
          simpa [word_char] using hw
        have hmax : max - buf.length = 0 := by
          have : ¬ buf.length < max := fun hlt => h ⟨hc.1, hc.2, hlt⟩
          omega
        simp [hmax]
      · simp [List.takeWhile_cons_of_neg hw]

theorem redirect_filename_eq (input : List Char) (redir_pos mode : Nat) :
    redirect_filename input redir_pos mode =
      (first_token (input.drop (redir_pos + (if mode = 2 then 2 else 1)))).take 255 := by
  have hfi : redirect_fi redir_pos mode = redir_pos + (if mode = 2 then 2 else 1) := by
    unfold redirect_fi
    split <;> rfl
  rw [redirect_filename, copy_word_fst, skip_blanks_eq_dropWhile, hfi]
  rfl

theorem trim_end_le (input : List Char) (pos : Nat) : trim_end input pos ≤ pos := by
  induction pos with
  | zero => simp [trim_end]
  | succ n ih =>
    rw [trim_end]
    split
    · exact Nat.le_succ_of_le ih
    · exact Nat.le_refl _

theorem take_trim_end (input : List Char) (pos : Nat) (hpos : pos ≤ input.length) :
    input.take (trim_end input pos) = (input.take pos).rdropWhile is_blank := by
  induction pos with
  | zero => simp [trim_end]
  | succ n ih =>
    have hn : n < input.length := hpos
    have hget : cget input n = input[n] := by simp [cget, List.getD, hn]
    have htake : input.take (n + 1) = input.take n ++ [input[n]] := by
      rw [List.take_succ]
      simp [hn]
    rw [trim_end, hget, htake]
    split
    next hb => rw [List.rdropWhile_concat_pos _ _ _ hb, ih (Nat.le_of_lt hn)]
    next hb => rw [List.rdropWhile_concat_neg _ _ _ hb, htake]

theorem map_cget_range (input : List Char) (m : Nat) (hm : m ≤ input.length) :
    (List.range m).map (cget input) = input.take m := by
  induction m with
  | zero => simp
  | succ n ih =>
    have hn : n < input.length := hm
    rw [List.range_succ, List.map_append, ih (Nat.le_of_lt hn), List.take_succ]
    simp [cget, List.getD, hn]

theorem redirect_cmd_part_eq (input : List Char) (redir_pos : Nat)
    (hpos : redir_pos ≤ input.length) (h255 : redir_pos ≤ 255) :
    redirect_cmd_part input redir_pos = (input.take redir_pos).rdropWhile is_blank := by
  have hle := trim_end_le input redir_pos
  rw [redirect_cmd_part, redirect_cmd_len, Nat.min_eq_left (by omega),
    map_cget_range input _ (by omega), take_trim_end input redir_pos hpos]

theorem redirect_filename_length_le (input : List Char) (redir_pos mode : Nat) :
    (redirect_filename input redir_pos mode).length ≤ 255 := by
  rw [redirect_filename_eq, List.length_take]
  exact Nat.min_le_left _ _

/-- C11 as stated fails: in the line `a>` followed by 256 `x`, whose first
`>` is at index 1, the token after the operator has 256 characters, and the
filename `exec_redirect` extracts is not that token: it has at most 255. -/
theorem C11_counterexample :
    long_filename_line.indexOf '>' = 1
    ∧ (first_token (long_filename_line.drop 2)).length = 256
    ∧ redirect_filename long_filename_line 1 1 ≠ first_token (long_filename_line.drop 2) := by
  have hrun : ∀ n, first_token (List.replicate n 'x') = List.replicate n 'x' := by
    intro n
    induction n with
    | zero => rfl
    | succ k ih =>
      have hb : is_blank 'x' = false := by decide
      have hw : word_char 'x' = true := by decide
      have hk : (List.replicate k 'x').takeWhile word_char = List.replicate k 'x' := by
        cases k with
        | zero => rfl
        | succ j =>
          simpa [first_token, List.replicate_succ, hb] using ih
      simp [first_token, List.replicate_succ, hb, hw, hk]
  have hlen : (first_token (long_filename_line.drop 2)).length = 256 := by
    have : long_filename_line.drop 2 = List.replicate 256 'x' := rfl
    rw [this, hrun, List.length_replicate]
  refine ⟨rfl, hlen, ?_⟩
  intro h
  have hle := redirect_filename_length_le long_filename_line 1 1
  rw [h, hlen] at hle
  omega

/-- C11, amended: for an operator position with at most 255 characters before
it, the command part of `exec_redirect` is the text before that position
with its trailing spaces and tabs removed, and the filename is the first 255
characters of the first run of characters other than space and tab that
follows the operator (one `>`, or two in mode 2) after the spaces and tabs;
what comes after that run is ignored. -/
theorem C11_redirect_split (input : List Char) (redir_pos mode : Nat)
    (hpos : redir_pos ≤ input.length) (h255 : redir_pos ≤ 255) :
    redirect_cmd_part input redir_pos = (input.take redir_pos).rdropWhile is_blank
    ∧ redirect_filename input redir_pos mode =
        (first_token (input.drop (redir_pos + (if mode = 2 then 2 else 1)))).take 255 :=
  ⟨redirect_cmd_part_eq input redir_pos hpos h255, redirect_filename_eq input redir_pos mode⟩

/-- C11, amended, at `cmd arg >> out.txt extra`: the parts are `cmd arg` and
`out.txt`. -/
theorem C11_redirect_split_witness :
    redirect_cmd_part "cmd arg >> out.txt extra".toList 8 = "cmd arg".toList
    ∧ redirect_filename "cmd arg >> out.txt extra".toList 8 2 = "out.txt".toList := by
  have h := C11_redirect_split "cmd arg >> out.txt extra".toList 8 2 (by decide) (by decide)
  exact ⟨h.1.trans (by decide), h.2.trans (by decide)⟩

/-! ## Classifier: lines without operator -/

theorem find_redirect_from_none (s : List Char) (i : Nat) (h : '>' ∉ cstr s) :
    find_redirect_from s i = (0, 0) := by
  induction s generalizing i with
  | nil => rfl
  | cons c cs ih =>
    rw [find_redirect_from]
    by_cases hc : c = NUL
    · rw [if_pos hc]
    · rw [cstr_cons_ne c cs hc] at h
      have hne : ¬ c = '>' := fun hg => h (by rw [hg]; exact List.mem_cons_self _ _)
      rw [if_neg hc, if_neg hne]
      exact ih (i + 1) (fun hm => h (List.mem_cons_of_mem _ hm))

theorem has_pipe_false (s : List Char) (h : '|' ∉ cstr s) : has_pipe s = false := by
  induction s with
  | nil => rfl
  | cons c cs ih =>
    rw [has_pipe]
    by_cases hc : c = NUL
    · rw [if_pos hc]
    · rw [cstr_cons_ne c cs hc] at h
      have hne : ¬ c = '|' := fun hg => h (by rw [hg]; exact List.mem_cons_self _ _)
      rw [if_neg hc, if_neg hne]
      exact ih (fun hm => h (List.mem_cons_of_mem _ hm))

theorem set_cwd_calls (w : World) (path : List Char) :
    (set_cwd w path).calls = [] ∨ ∃ n, (set_cwd w path).calls = [Call.vfs_resolve_path n] := by
  unfold set_cwd
  split
  · exact Or.inl rfl
  next n _ =>
    right
    refine ⟨n, ?_⟩
    split
    · rfl
    · split <;> rfl

theorem cmd_cd_spawns (w : World) (path : List Char) :
    (cmd_cd w path).2.filter Call.is_spawn = [] := by
  have hc : (set_cwd w (cmd_cd_target path)).calls.filter Call.is_spawn = [] := by
    rcases set_cwd_calls w (cmd_cd_target path) with h | ⟨n, h⟩ <;>
      simp [h, List.filter_cons, Call.is_spawn]
  unfold cmd_cd
  simp only []
  split <;> simp [List.filter_append, hc, List.filter_cons, Call.is_spawn]

theorem run_external_spawns (w : World) (cmd_buf args_buf : List Char) :
    (run_external w cmd_buf args_buf).filter Call.is_spawn =
      [Call.sched_spawn (program_path cmd_buf) cmd_buf (argv1_of args_buf) none] := by
  unfold run_external exec_program
  simp only []
  split <;> split <;> simp_all [List.filter_cons, Call.is_spawn]

theorem shell_route_no_operator (input : List Char) (hverb : (parse_input input).1 ≠ [])
    (hpipe : '|' ∉ cstr input) (hredir : '>' ∉ cstr input) :
    shell_route input =
      if str_eq (parse_input input).1 "exit".toList = true then Route.quit
      else if str_eq (parse_input input).1 "help".toList = true then Route.help
      else if str_eq (parse_input input).1 "pwd".toList = true then Route.pwd
      else if str_eq (parse_input input).1 "echo".toList = true then Route.echo
      else if str_eq (parse_input input).1 "ls".toList = true then Route.ls
      else if str_eq (parse_input input).1 "cd".toList = true then Route.cd
      else if str_eq (parse_input input).1 "clear".toList = true then Route.clear
      else Route.external := by
  have h0 : ¬ cget input 0 = NUL := fun h => hverb (parse_input_verb_nil_of_nul input h)
  have h1 : ¬ cget (parse_input input).1 0 = NUL := verb_head_ne_nul 63 255 input hverb
  have hr : find_redirect input = (0, 0) := find_redirect_from_none input 0 hredir
  have hp : has_pipe input = false := has_pipe_false input hpipe
  unfold shell_route
  simp only [h0, h1, if_false, hr, hp, gt_iff_lt, Nat.lt_irrefl, Bool.false_eq_true]

/-- C12 as stated fails: the line of two spaces has no pipe and no
redirection operator, and the main loop neither dispatches a builtin nor
spawns: it makes no call at all. -/
theorem C12_counterexample :
    '|' ∉ cstr "  ".toList ∧ '>' ∉ cstr "  ".toList
    ∧ (shell_route "  ".toList).is_builtin = false
    ∧ shell_route "  ".toList ≠ Route.external
    ∧ shell_line demo_world "  ".toList = [] := by
  decide

/-- C12, amended: for a line with a non-empty verb, no pipe and no
redirection operator, either the main loop dispatches a builtin and makes no
spawn, or it takes the external branch and makes exactly one spawn; never
both, never neither. -/
theorem C12_builtin_or_external (w : World) (input : List Char)
    (hverb : (parse_input input).1 ≠ []) (hpipe : '|' ∉ cstr input)
    (hredir : '>' ∉ cstr input) :
    ((shell_route input).is_builtin = true ∧ shell_route input ≠ Route.external
        ∧ (shell_line w input).filter Call.is_spawn = [])
    ∨ ((shell_route input).is_builtin = false ∧ shell_route input = Route.external
        ∧ (shell_line w input).filter Call.is_spawn =
            [Call.sched_spawn (program_path (parse_input input).1) (parse_input input).1
              (argv1_of (parse_input input).2) none]) := by
  have hroute := shell_route_no_operator input hverb hpipe hredir
  unfold shell_line
  split_ifs at hroute <;> rw [hroute]
  · exact Or.inl ⟨rfl, by simp, by simp⟩
  · exact Or.inl ⟨rfl, by simp, by simp [cmd_help, List.filter_cons, Call.is_spawn]⟩
  · exact Or.inl ⟨rfl, by simp, by simp [cmd_pwd, List.filter_cons, Call.is_spawn]⟩
  · refine Or.inl ⟨rfl, by simp, ?_⟩
    simp only [cmd_echo]
    split <;> simp [List.filter_cons, Call.is_spawn]
  · refine Or.inl ⟨rfl, by simp, ?_⟩
    simp only [cmd_ls]
    split_ifs <;> simp [List.filter_cons, Call.is_spawn]
  · exact Or.inl ⟨rfl, by simp, cmd_cd_spawns w _⟩
  · exact Or.inl ⟨rfl, by simp, by simp [cmd_clear, List.filter_cons, Call.is_spawn]⟩
  · exact Or.inr ⟨rfl, rfl, run_external_spawns w _ _⟩

/-- C12, amended, at `pwd` (a builtin, no spawn) and at `cat f` (external,
one spawn of `/apps/cat`). -/
theorem C12_builtin_or_external_witness :
    (shell_route "pwd".toList = Route.pwd
      ∧ (shell_line demo_world "pwd".toList).filter Call.is_spawn = [])
    ∧ (shell_route "cat f".toList = Route.external
      ∧ (shell_line demo_world "cat f".toList).filter Call.is_spawn =
          [Call.sched_spawn "/apps/cat".toList "cat".toList (some "f".toList) none]) := by
  refine ⟨?_, ?_⟩
  · rcases C12_builtin_or_external demo_world "pwd".toList (by decide) (by decide)
      (by decide) with h | h
    · exact ⟨by decide, h.2.2⟩
    · exact absurd h.1 (by decide)
  · rcases C12_builtin_or_external demo_world "cat f".toList (by decide) (by decide)
      (by decide) with h | h
    · exact absurd h.1 (by decide)
    · exact ⟨h.2.1, h.2.2⟩

/-! ## Classifier: blank lines -/

/-- C13: the verb `parse_input` produces is empty exactly when every
character of the line is a space or a tab (the empty line included), and on
such a line the main loop only reprompts: it makes no call, so no
redirection, pipeline, builtin or spawn. -/
theorem C13_blank_line_noop (w : World) (input : List Char) :
    ((parse_input input).1 = [] ↔ ∀ x ∈ cstr input, is_blank x = true)
    ∧ ((parse_input input).1 = [] →
        shell_route input = Route.reprompt ∧ shell_line w input = []) := by
  refine ⟨?_, ?_⟩
  · have := copy_word_skip_blanks_nil_iff 63 (by decide) input
    simpa [parse_input, tokenize] using this
  · intro h
    have hroute : shell_route input = Route.reprompt := by
      unfold shell_route
      simp only [h, cget_nil]
      split <;> rfl
    refine ⟨hroute, ?_⟩
    unfold shell_line
    rw [hroute]

/-- C13 at the line of three spaces. -/
theorem C13_blank_line_noop_witness :
    (parse_input "   ".toList).1 = []
    ∧ shell_route "   ".toList = Route.reprompt
    ∧ shell_line demo_world "   ".toList = [] := by
  have h := C13_blank_line_noop demo_world "   ".toList
  have hv : (parse_input "   ".toList).1 = [] := h.1.mpr (by decide)
  exact ⟨hv, (h.2 hv).1, (h.2 hv).2⟩

/-! ## Tokenizer -/

theorem copy_word_snd (max : Nat) (p buf : List Char)
    (h : buf.length + (p.takeWhile word_char).length ≤ max) :
    (copy_word max buf p).2 = p.dropWhile word_char := by
  induction p generalizing buf with
  | nil => simp [copy_word]
  | cons c cs ih =>
    rw [copy_word]
    by_cases hw : word_char c = true
    · have hc : c ≠ NUL ∧ is_blank c = false := by simpa [word_char] using hw
      rw [List.takeWhile_cons_of_pos hw] at h
      simp only [List.length_cons] at h
      rw [if_pos ⟨hc.1, hc.2, by omega⟩, List.dropWhile_cons_of_pos hw]
      exact ih _ (by simp only [List.length_append, List.length_cons, List.length_nil]; omega)
    · have hn : ¬ (c ≠ NUL ∧ is_blank c = false ∧ buf.length < max) := by
        intro hc
        exact hw (by simp [word_char, hc.1, hc.2.1])
      rw [if_neg hn, List.dropWhile_cons_of_neg hw]

theorem copy_upto_eq_of_cstr_fits (m : Nat) (p buf : List Char)
    (h : buf.length + (cstr p).length ≤ m) : copy_upto m buf p = buf ++ cstr p := by
  induction p generalizing buf with
  | nil => simp [copy_upto, cstr]
  | cons c cs ih =>
    by_cases hc : c = NUL
    · subst hc
      simp [copy_upto, cstr]
    · rw [cstr_cons_ne c cs hc] at h ⊢
      simp only [List.length_cons] at h
      rw [copy_upto, if_pos ⟨hc, by omega⟩,
        ih _ (by simp only [List.length_append, List.length_cons, List.length_nil]; omega)]
      simp

theorem parse_input_eq (input : List Char) (hword : (first_token input).length ≤ 63)
    (hrest : (rest_after_word input).length ≤ 255) :
    parse_input input = (first_token input, rest_after_word input) := by
  have h1 := copy_word_fst 63 (input.dropWhile is_blank) []
  have h2 := copy_word_snd 63 (input.dropWhile is_blank) [] (by simpa [first_token] using hword)
  have hverb : (input.dropWhile is_blank).takeWhile word_char =
      ((input.dropWhile is_blank).takeWhile word_char).take 63 := by
    rw [List.take_of_length_le]
    exact hword
  simp only [parse_input, tokenize, skip_blanks_eq_dropWhile]
  rw [Prod.mk.injEq]
  refine ⟨?_, ?_⟩
  · rw [h1, first_token]
    simpa using hverb.symm
  · rw [h2, copy_upto_eq_of_cstr_fits 255 _ [] (by simpa [rest_after_word] using hrest)]
    simp [rest_after_word]

theorem head_dropWhile_is_blank (l : List Char) (c : Char)
    (h : (cstr (l.dropWhile is_blank)).head? = some c) : is_blank c = false := by
  induction l with
  | nil => simp [cstr] at h
  | cons a as ih =>
    by_cases hb : is_blank a = true
    · rw [List.dropWhile_cons_of_pos hb] at h
      exact ih h
    · rw [List.dropWhile_cons_of_neg hb] at h
      by_cases ha : a = NUL
      · subst ha
        simp [cstr] at h
      · rw [cstr_cons_ne a as ha] at h
        have : a = c := by simpa using h
        subst this
        simpa using hb

/-- C14 as stated fails: on `echo hi ` (first word of 4 characters, remainder
of 3) the argument string is `hi ` with its trailing space, not `hi`. -/
theorem C14_counterexample :
    (first_token "echo hi ".toList).length ≤ 63
    ∧ (rest_after_word "echo hi ".toList).length ≤ 255
    ∧ (parse_input "echo hi ".toList).2 = "hi ".toList
    ∧ (parse_input "echo hi ".toList).2 ≠
        (rest_after_word "echo hi ".toList).rdropWhile is_blank := by
  decide

/-- C14, amended: for a line whose first word has at most 63 characters and
whose remainder has at most 255, `parse_input` yields as verb the first
whitespace-delimited word and as argument string the rest of the line with
its leading spaces and tabs skipped (trailing ones are kept); the verb holds
no space or tab and the argument string does not begin with one. -/
theorem C14_parse_input (input : List Char) (hword : (first_token input).length ≤ 63)
    (hrest : (rest_after_word input).length ≤ 255) :
    parse_input input = (first_token input, rest_after_word input)
    ∧ (∀ c ∈ (parse_input input).1, is_blank c = false)
    ∧ (∀ c, (parse_input input).2.head? = some c → is_blank c = false) := by
  have heq := parse_input_eq input hword hrest
  refine ⟨heq, fun c hc => (tokenize_verb_no_nul 63 255 input c hc).2, ?_⟩
  intro c hc
  rw [heq] at hc
  exact head_dropWhile_is_blank _ c hc

/-- C14, amended, at the line `  echo  hi there `. -/
theorem C14_parse_input_witness :
    parse_input "  echo  hi there ".toList = ("echo".toList, "hi there ".toList) := by
  have h := C14_parse_input "  echo  hi there ".toList (by decide) (by decide)
  exact h.1.trans (by decide)

/-! ## Process groups -/

theorem set_task_pgid_spec (target g : Int) (tasks : List task) (t : task)
    (h : tasks.find? (fun u => u.id = target) = some t) :
    ∃ before after, tasks = before ++ t :: after ∧ (∀ u ∈ before, u.id ≠ target)
      ∧ t.id = target
      ∧ set_task_pgid target g tasks = before ++ { t with pgid := g } :: after := by
  induction tasks with
  | nil => simp at h
  | cons a rest ih =>
    by_cases ha : a.id = target
    · have hat : a = t := by simpa [List.find?_cons, ha] using h
      subst hat
      exact ⟨[], rest, rfl, by simp, ha, by simp [set_task_pgid, ha]⟩
    · have hrest : rest.find? (fun u => u.id = target) = some t := by
        simpa [List.find?_cons, ha] using h
      obtain ⟨before, after, h1, h2, h3, h4⟩ := ih hrest
      refine ⟨a :: before, after, by simp [h1], ?_, h3, by simp [set_task_pgid, ha, h4]⟩
      intro u hu
      rcases List.mem_cons.mp hu with hu | hu
      · rw [hu]; exact ha
      · exact h2 u hu

/-- C15: `setpgid(pid, pgid)` targets the caller when `pid = 0` and assigns
the target's own id when `pgid = 0`.  When no task has the target id it
returns -1 and the table is unchanged.  When one has, it returns 0 and the
table differs only in the group of the first task with that id, which
becomes the resolved group: the tasks before and after it, its own id and
the running task are as before. -/
theorem C15_setpgid_frame (s : Sched) (pid pgid : Int) :
    (sched_get_task s (setpgid_target s pid) = none → setpgid s pid pgid = (-1, s))
    ∧ (∀ t, sched_get_task s (setpgid_target s pid) = some t →
        (setpgid s pid pgid).1 = 0
        ∧ (setpgid s pid pgid).2.current = s.current
        ∧ ∃ before after, s.tasks = before ++ t :: after
            ∧ (∀ u ∈ before, u.id ≠ setpgid_target s pid)
            ∧ t.id = setpgid_target s pid
            ∧ (setpgid s pid pgid).2.tasks =
                before ++ { id := t.id, pgid := setpgid_group s pid pgid } :: after) := by
  refine ⟨?_, ?_⟩
  · intro h
    unfold setpgid
    simp only []
    unfold setpgid_target at h
    rw [h]
  · intro t h
    obtain ⟨before, after, h1, h2, h3, h4⟩ :=
      set_task_pgid_spec (setpgid_target s pid) (setpgid_group s pid pgid) s.tasks t h
    have hres : setpgid s pid pgid =
        (0, Sched.mk
          (set_task_pgid (setpgid_target s pid) (setpgid_group s pid pgid) s.tasks)
          s.current) := by
      unfold setpgid
      simp only []
      unfold setpgid_target at h
      rw [h]
      rfl
    rw [hres]
    exact ⟨rfl, rfl, before, after, h1, h2, h3, h4⟩

/-- C15 on a table with the shell (1) and two children: `setpgid(5, 0)` puts
process 5 in group 5, `setpgid(0, 9)` puts the caller in group 9, and
`setpgid(8, 0)` finds no task 8 and changes nothing. -/
theorem C15_setpgid_frame_witness :
    setpgid demo_sched 5 0 = (0, { tasks := [⟨1, 1⟩, ⟨5, 5⟩, ⟨6, 1⟩], current := some 1 })
    ∧ setpgid demo_sched 0 9 = (0, { tasks := [⟨1, 9⟩, ⟨5, 1⟩, ⟨6, 1⟩], current := some 1 })
    ∧ setpgid demo_sched 8 0 = (-1, demo_sched) := by
  refine ⟨by decide, by decide, ?_⟩
  exact (C15_setpgid_frame demo_sched 8 0).1 (by decide)

/-! ## Foreground restoration -/

theorem foreground_after_append (fg : Int) (a b : List Call) :
    foreground_after fg (a ++ b) = foreground_after (foreground_after fg a) b := by
  induction a generalizing fg with
  | nil => rfl
  | cons c rest ih =>
    cases c <;> simp [foreground_after, ih]

theorem foreground_after_of_none (fg : Int) (t : List Call)
    (h : t.filter Call.is_foreground = []) : foreground_after fg t = fg := by
  induction t with
  | nil => rfl
  | cons c rest ih =>
    cases c <;> simp_all [foreground_after, List.filter_cons, Call.is_foreground]

theorem alloc_pipes_foreground (w : World) (n : Nat) (pipes : List Nat) :
    (alloc_pipes w n pipes).2.filter Call.is_foreground = [] := by
  induction n generalizing pipes with
  | zero => simp [alloc_pipes]
  | succ n ih =>
    rw [alloc_pipes]
    simp only []
    split
    · simp [List.filter_cons, Call.is_foreground]
    · simpa [List.filter_cons, Call.is_foreground] using ih _

theorem exec_program_foreground (w : World) (path a0 : List Char) (a1 : Option (List Char)) :
    foreground_after w.pid (exec_program w path a0 a1).2 = w.pid := by
  unfold exec_program
  simp only []
  split <;> simp [foreground_after]

theorem exec_redirect_foreground (w : World) (input : List Char) (redir_pos mode : Nat) :
    foreground_after w.pid (exec_redirect w input redir_pos mode).2 = w.pid := by
  unfold exec_redirect
  simp only []
  split
  · simp [foreground_after]
  · split
    · simp [foreground_after]
    · split <;> split <;> simp [foreground_after]

theorem exec_pipeline_foreground (w : World) (input : List Char) :
    foreground_after w.pid (exec_pipeline w input).2 = w.pid := by
  unfold exec_pipeline
  simp only []
  split
  · rfl
  · split
    next t heq =>
      have := alloc_pipes_foreground w ((split_segments input).length - 1) []
      rw [heq] at this
      exact foreground_after_of_none _ _ this
    next pipes t heq =>
      simp only []
      rw [foreground_after_append]
      simp [foreground_after]

/-- C16: if the foreground group is the shell's own process id before, it is
again after `exec_program`, after `exec_redirect` and after `exec_pipeline`
return, whatever path they took: either no `tcsetpgrp` was made or the last
one restores the shell. -/
theorem C16_foreground_restored (w : World) (fg : Int) (hfg : fg = w.pid)
    (input path a0 : List Char) (a1 : Option (List Char)) (redir_pos mode : Nat) :
    foreground_after fg (exec_program w path a0 a1).2 = w.pid
    ∧ foreground_after fg (exec_redirect w input redir_pos mode).2 = w.pid
    ∧ foreground_after fg (exec_pipeline w input).2 = w.pid := by
  subst hfg
  exact ⟨exec_program_foreground w path a0 a1, exec_redirect_foreground w input redir_pos mode,
    exec_pipeline_foreground w input⟩

/-- C16 with the shell as process 1: after a redirection, after a pipeline
whose first stage fails and after a pipeline whose second pipe buffer cannot
be allocated. -/
theorem C16_foreground_restored_witness :
    foreground_after 1 (exec_redirect demo_world "cmd > f".toList 4 1).2 = 1
    ∧ foreground_after 1 (exec_pipeline world_first_fails "a | b".toList).2 = 1
    ∧ foreground_after 1 (exec_pipeline world_second_pipe_fails "a | b | c".toList).2 = 1 :=
  ⟨(C16_foreground_restored demo_world 1 rfl "cmd > f".toList [] [] none 4 1).2.1,
   (C16_foreground_restored world_first_fails 1 rfl "a | b".toList [] [] none 0 0).2.2,
   (C16_foreground_restored world_second_pipe_fails 1 rfl "a | b | c".toList [] [] none
      0 0).2.2⟩

/-! ## Single external command: command not found -/

/-- C17 as stated fails: on `foo`, run as an external command, with the spawn
succeeding (pid 2) and the child exiting with status -127, the shell prints
`bridge: command not found: `. -/
theorem C17_counterexample :
    shell_route "foo".toList = Route.external
    ∧ ¬ world_exit_127.spawn 0 (program_path (parse_input "foo".toList).1) < 0
    ∧ Call.mt_print "bridge: command not found: ".toList ∈
        shell_line world_exit_127 "foo".toList := by
  decide

/-- C17, amended: for a line run as a single external command, the shell
prints `bridge: command not found: ` exactly when the spawn failed or the
child's exit status is -127, the value `exec_program` returns for a failed
spawn; no other exit status is reported. -/
theorem C17_not_found_iff (w : World) (input : List Char)
    (hroute : shell_route input = Route.external) :
    Call.mt_print "bridge: command not found: ".toList ∈ shell_line w input ↔
      (w.spawn 0 (program_path (parse_input input).1) < 0
        ∨ w.wait (w.spawn 0 (program_path (parse_input input).1)) = -127) := by
  unfold shell_line
  rw [hroute]
  simp only [run_external, exec_program]
  by_cases hs : w.spawn 0 (program_path (parse_input input).1) < 0
  · simp [hs]
  · by_cases hw : w.wait (w.spawn 0 (program_path (parse_input input).1)) = -127
    · simp [hs, hw]
    · simp [hs, hw]

/-- C17, amended, at `foo`: a failed spawn is reported, a child that exits
with status 3 is not. -/
theorem C17_not_found_iff_witness :
    Call.mt_print "bridge: command not found: ".toList ∈
        shell_line { demo_world with spawn := fun _ _ => -1 } "foo".toList
    ∧ Call.mt_print "bridge: command not found: ".toList ∉
        shell_line { demo_world with wait := fun _ => 3 } "foo".toList :=
  ⟨(C17_not_found_iff { demo_world with spawn := fun _ _ => -1 } "foo".toList
      (by decide)).mpr (Or.inl (by decide)),
   fun h => absurd ((C17_not_found_iff { demo_world with wait := fun _ => 3 } "foo".toList
      (by decide)).mp h) (by decide)⟩

/-! ## Pipeline: allocation failure -/

theorem alloc_pipes_fail (w : World) (n : Nat) (pipes : List Nat) (j : Nat) (hj : j < n)
    (hfail : w.pipe (pipes.length + j) = 0)
    (hok : ∀ m, m < j → w.pipe (pipes.length + m) ≠ 0) :
    alloc_pipes w n pipes =
      (none, List.replicate (j + 1) Call.pipe_alloc
        ++ [Call.mt_print "pipe: allocation failed\n".toList]) := by
  induction n generalizing pipes j with
  | zero => omega
  | succ n ih =>
    rw [alloc_pipes]
    simp only []
    cases j with
    | zero =>
      have h0 : w.pipe pipes.length = 0 := by simpa using hfail
      rw [if_pos h0]
      rfl
    | succ k =>
      have h0 : ¬ w.pipe pipes.length = 0 := by simpa using hok 0 (Nat.succ_pos k)
      rw [if_neg h0]
      have := ih (pipes ++ [w.pipe pipes.length]) k (by omega)
        (by
          simp only [List.length_append, List.length_cons, List.length_nil]
          rw [← hfail]
          congr 1
          omega)
        (by
          intro m hm
          simp only [List.length_append, List.length_cons, List.length_nil]
          have := hok (m + 1) (by omega)
          rw [show pipes.length + 1 + m = pipes.length + (m + 1) by omega]
          exact this)
      rw [this]
      simp [List.replicate_succ]

/-- C18: for a line with a `|`, if some pipe allocation fails, then, `j`
being the first one that does, `exec_pipeline` returns -1 and its calls are
exactly `j + 1` calls of `pipe_alloc` followed by the print of
`pipe: allocation failed`: no spawn, group assignment, foreground change or
wait is made. -/
theorem C18_pipe_alloc_failure (w : World) (input : List Char)
    (hpipe : has_pipe input = true)
    (hfail : ∃ m, m + 1 < pipeline_seg_count input ∧ w.pipe m = 0) :
    ∃ j, j + 1 < pipeline_seg_count input ∧ w.pipe j = 0 ∧ (∀ m, m < j → w.pipe m ≠ 0)
      ∧ exec_pipeline w input =
          (-1, List.replicate (j + 1) Call.pipe_alloc
            ++ [Call.mt_print "pipe: allocation failed\n".toList]) := by
  have hseg := seg_count_ge_two input hpipe
  obtain ⟨m, hm1, hm2⟩ := hfail
  have hex : ∃ m, w.pipe m = 0 := ⟨m, hm2⟩
  have hj0 : w.pipe (Nat.find hex) = 0 := Nat.find_spec hex
  have hjle : Nat.find hex ≤ m := Nat.find_min' hex hm2
  have hmin : ∀ k, k < Nat.find hex → w.pipe k ≠ 0 := fun k hk => Nat.find_min hex hk
  refine ⟨Nat.find hex, by omega, hj0, hmin, ?_⟩
  have hal := alloc_pipes_fail w (pipeline_seg_count input - 1) [] (Nat.find hex) (by omega)
    (by simpa using hj0) (by intro k hk; simpa using hmin k hk)
  have hlt : ¬ (split_segments input).length < 2 := by
    unfold pipeline_seg_count at hseg
    omega
  unfold pipeline_seg_count at hal
  unfold exec_pipeline
  simp only [hlt, if_false, hal]

/-- C18 at `a | b | c` when the second allocation fails: two `pipe_alloc`
calls, the report, and the result -1. -/
theorem C18_pipe_alloc_failure_witness :
    exec_pipeline world_second_pipe_fails "a | b | c".toList =
      (-1, [Call.pipe_alloc, Call.pipe_alloc,
            Call.mt_print "pipe: allocation failed\n".toList]) := by
  obtain ⟨j, _, hj0, hmin, h⟩ :=
    C18_pipe_alloc_failure world_second_pipe_fails "a | b | c".toList (by decide)
      ⟨1, by decide, by decide⟩
  have hj1 : j = 1 := by
    rcases Nat.lt_trichotomy j 1 with hlt | heq | hgt
    · have : j = 0 := by omega
      subst this
      exact absurd hj0 (by decide)
    · exact heq
    · exact absurd (by decide) (hmin 1 hgt)
  subst hj1
  exact h

/-! ## Working directory: failures of `set_cwd` -/

theorem set_cwd_failure_keeps_cwd (w : World) (path : List Char)
    (h : (set_cwd w path).result ≠ 0) : (set_cwd w path).cwd = w.cwd := by
  unfold set_cwd at h ⊢
  split
  · rfl
  · split
    · rfl
    · split
      · rfl
      next _ out hn _ node hres hdir =>
        exfalso
        rw [hn] at h
        simp only [hres, hdir, if_false, ne_eq, not_true_eq_false] at h
        simp at h

/-- C19 as stated fails: `cd /x` prints the same three messages when `/x`
does not resolve (`set_cwd` returns -1) and when `/x` resolves to a file
(`set_cwd` returns -2). -/
theorem C19_counterexample :
    (cmd_cd world_missing "/x".toList).1 = -1
    ∧ (cmd_cd demo_world "/x".toList).1 = -2
    ∧ (cmd_cd world_missing "/x".toList).2.filter Call.is_print =
        (cmd_cd demo_world "/x".toList).2.filter Call.is_print
    ∧ (cmd_cd demo_world "/x".toList).2.filter Call.is_print =
        [Call.mt_print "cd: no such directory: ".toList, Call.mt_print "/x".toList,
         Call.mt_print "\n".toList] := by
  decide

/-- C19, amended: when `set_cwd` fails the working directory is left
unchanged; a normalised path that does not resolve gives the result -1 and
one that resolves to a non-directory gives -2; and whenever `set_cwd` fails,
`cd` prints the same message, `cd: no such directory: ` followed by the path,
whichever failure it was. -/
theorem C19_set_cwd_failure (w : World) (path : List Char) :
    ((set_cwd w path).result ≠ 0 → (set_cwd w path).cwd = w.cwd)
    ∧ (∀ n, normalize_path w.vfs_max_name (set_cwd_full_path w path) w.vfs_max_path = some n →
        w.resolve n = none → (set_cwd w path).result = -1)
    ∧ (∀ n node,
        normalize_path w.vfs_max_name (set_cwd_full_path w path) w.vfs_max_path = some n →
        w.resolve n = some node → node.is_dir = false → (set_cwd w path).result = -2)
    ∧ ((cmd_cd w path).1 ≠ 0 →
        (cmd_cd w path).2.filter Call.is_print =
          [Call.mt_print "cd: no such directory: ".toList,
           Call.mt_print (cmd_cd_target path), Call.mt_print "\n".toList]) := by
  refine ⟨set_cwd_failure_keeps_cwd w path, ?_, ?_, ?_⟩
  · intro n hn hres
    unfold set_cwd
    simp only [hn, hres]
  · intro n node hn hres hdir
    unfold set_cwd
    simp only [hn, hres, hdir, if_true]
  · intro h
    have hc : (set_cwd w (cmd_cd_target path)).calls.filter Call.is_print = [] := by
      rcases set_cwd_calls w (cmd_cd_target path) with hcalls | ⟨n, hcalls⟩ <;>
        simp [hcalls, List.filter_cons, Call.is_print]
    unfold cmd_cd at h ⊢
    simp only [] at h ⊢
    split
    · simp [List.filter_append, hc, List.filter_cons, Call.is_print]
    next hz =>
      exfalso
      rw [if_neg hz] at h
      exact hz h

/-- C19, amended, at `cd /x` from `/`: a missing path gives -1, a file gives
-2, and the working directory stays `/` in both cases. -/
theorem C19_set_cwd_failure_witness :
    (set_cwd world_missing "/x".toList).result = -1
    ∧ (set_cwd world_missing "/x".toList).cwd = "/".toList
    ∧ (set_cwd demo_world "/x".toList).result = -2
    ∧ (set_cwd demo_world "/x".toList).cwd = "/".toList :=
  ⟨(C19_set_cwd_failure world_missing "/x".toList).2.1 "/x".toList (by decide) (by decide),
   (C19_set_cwd_failure world_missing "/x".toList).1 (by decide),
   (C19_set_cwd_failure demo_world "/x".toList).2.2.1 "/x".toList ⟨7, 0, false⟩ (by decide)
     (by decide) (by decide),
   (C19_set_cwd_failure demo_world "/x".toList).1 (by decide)⟩

/-! ## Line editor: inserting a character -/

theorem cget_eq_getElem? (buf : List Char) (i : Nat) (h : i < buf.length) :
    buf[i]? = some (cget buf i) := by
  simp [cget, List.getD, h]

theorem shift_right_length (pos n : Nat) (buf : List Char) :
    (shift_right pos n buf).length = buf.length := by
  induction n generalizing buf with
  | zero => rfl
  | succ n ih => rw [shift_right, ih, List.length_set]

theorem shift_right_getElem? (pos n : Nat) (buf : List Char) (j : Nat)
    (h : pos + n < buf.length) :
    (shift_right pos n buf)[j]? = if pos < j ∧ j ≤ pos + n then buf[j - 1]? else buf[j]? := by
  induction n generalizing buf with
  | zero =>
    have : ¬ (pos < j ∧ j ≤ pos + 0) := by omega
    rw [shift_right, if_neg this]
  | succ n ih =>
    rw [shift_right, ih _ (by rw [List.length_set]; omega)]
    by_cases h1 : pos < j ∧ j ≤ pos + n
    · rw [if_pos h1, if_pos (by omega), List.getElem?_set_ne (by omega)]
    · rw [if_neg h1]
      by_cases h2 : j = pos + n + 1
      · subst h2
        rw [if_pos (by omega), List.getElem?_set_self (by omega)]
        have : pos + n + 1 - 1 = pos + n := by omega
        rw [this, cget_eq_getElem? buf (pos + n) (by omega)]
      · rw [if_neg (by omega), List.getElem?_set_ne (by omega)]

theorem insert_content (buf : List Char) (len pos : Nat) (c : Char) (hpos : pos ≤ len)
    (hbuf : len < buf.length) :
    (((shift_right pos (len - pos) buf).set pos c).take (len + 1)) =
      (buf.take len).take pos ++ [c] ++ (buf.take len).drop pos := by
  apply List.ext_getElem?
  intro j
  have hsr := shift_right_getElem? pos (len - pos) buf j (by omega)
  have hlenr : pos < (shift_right pos (len - pos) buf).length := by
    rw [shift_right_length]; omega
  rw [List.getElem?_take, List.getElem?_set, hsr]
  rcases Nat.lt_trichotomy j pos with hj | hj | hj
  · have h1 : ¬ pos = j := by omega
    have h2 : ¬ (pos < j ∧ j ≤ pos + (len - pos)) := by omega
    rw [if_pos (by omega), if_neg h1, if_neg h2, List.append_assoc,
      List.getElem?_append_left (by simp [List.length_take]; omega),
      List.getElem?_take, if_pos hj, List.getElem?_take, if_pos (by omega)]
  · subst hj
    rw [if_pos (by omega), if_pos rfl, if_pos hlenr, List.append_assoc,
      List.getElem?_append_right (by simp [List.length_take])]
    have : j - ((buf.take len).take j).length = 0 := by
      simp [List.length_take]; omega
    rw [this]
    simp
  · have h1 : ¬ pos = j := by omega
    rw [if_neg h1, List.append_assoc,
      List.getElem?_append_right (by simp [List.length_take]; omega)]
    have hl : ((buf.take len).take pos).length = pos := by
      simp [List.length_take]; omega
    rw [hl]
    obtain ⟨d, hd⟩ : ∃ d, j = pos + 1 + d := ⟨j - pos - 1, by omega⟩
    subst hd
    have h3 : pos + 1 + d - pos = d + 1 := by omega
    rw [h3, List.singleton_append, List.getElem?_cons_succ, List.getElem?_drop,
      List.getElem?_take]
    have h4 : pos + 1 + d - 1 = pos + d := by omega
    by_cases hin : pos + 1 + d < len + 1
    · rw [if_pos hin, if_pos (by omega), if_pos (by omega), h4]
    · rw [if_neg hin, if_neg (by omega)]

/-- C20: in an editor state with fewer than 510 characters and the cursor
within the text, a pressed printable key (0x20 to 0x7E) that is neither an
arrow code nor the interrupt combination leaves the text with the character
inserted at the cursor, the length one more and the cursor one further. -/
theorem C20_insert_printable (k : KeyCodes) (st : Editor) (c : Char) (ctrl : Bool)
    (hlen : st.len < 510) (hpos : st.pos ≤ st.len) (hbuf : st.buf.length = 512)
    (hc : 0x20 ≤ c.toNat ∧ c.toNat < 0x7F)
    (hleft : c ≠ k.KEY_LEFT) (hright : c ≠ k.KEY_RIGHT)
    (hint : ¬ (ctrl = true ∧ (c = 'c' ∨ c = 'C'))) :
    ∃ st', editor_key k st { key := c, pressed := true, ctrl := ctrl } = KeyOutcome.editing st'
      ∧ st'.content = st.content.take st.pos ++ [c] ++ st.content.drop st.pos
      ∧ st'.len = st.len + 1
      ∧ st'.pos = st.pos + 1 := by
  have hnl : ¬ c = '\n' := by
    intro h
    subst h
    exact absurd hc.1 (by decide)
  have hbs : ¬ c = Char.ofNat 8 := by
    intro h
    subst h
    exact absurd hc.1 (by decide)
  refine ⟨{ buf := (shift_right st.pos (st.len - st.pos) st.buf).set st.pos c,
            len := st.len + 1, pos := st.pos + 1, rendered_len := st.len + 1 }, ?_, ?_, rfl, rfl⟩
  · unfold editor_key
    simp only [hint, hnl, hbs, hleft, hright, hc, hlen, if_true, if_false, and_self,
      Bool.true_eq_false]
  · exact insert_content st.buf st.len st.pos c hpos (by omega)

/-- C20 from `abc` with the cursor at 1: the key `X` gives `aXbc` with the
cursor at 2. -/
theorem C20_insert_printable_witness :
    ∃ st', editor_key ⟨Char.ofNat 128, Char.ofNat 129⟩
        { buf := "abc".toList ++ List.replicate 509 NUL, len := 3, pos := 1, rendered_len := 3 }
        { key := 'X', pressed := true, ctrl := false } = KeyOutcome.editing st'
      ∧ st'.content = "aXbc".toList ∧ st'.len = 4 ∧ st'.pos = 2 := by
  obtain ⟨st', h1, h2, h3, h4⟩ := C20_insert_printable ⟨Char.ofNat 128, Char.ofNat 129⟩
    { buf := "abc".toList ++ List.replicate 509 NUL, len := 3, pos := 1, rendered_len := 3 }
    'X' false (by decide) (by decide)
    (by rw [List.length_append, List.length_replicate]; rfl)
    (by decide) (by decide) (by decide) (by decide)
  exact ⟨st', h1, h2.trans (by decide), h3, h4⟩

/-! ## Path normalisation: the pass bound is never reached -/

theorem skip_slashes_length_le (p : List Char) : (skip_slashes p).length ≤ p.length := by
  induction p with
  | nil => simp [skip_slashes]
  | cons c cs ih =>
    rw [skip_slashes]
    split
    · exact Nat.le_succ_of_le ih
    · exact Nat.le_refl _

theorem skip_slashes_head (p : List Char) : cget (skip_slashes p) 0 ≠ '/' := by
  induction p with
  | nil => simp [skip_slashes, cget, NUL]
  | cons c cs ih =>
    rw [skip_slashes]
    split
    · exact ih
    next h => simpa [cget] using h

theorem read_component_rest_le (m : Nat) (q comp : List Char) :
    (read_component m comp q).2.length ≤ q.length := by
  induction q generalizing comp with
  | nil => simp [read_component]
  | cons c cs ih =>
    rw [read_component]
    split
    · exact Nat.le_succ_of_le (ih _)
    · exact Nat.le_refl _

theorem read_component_rest_lt (m : Nat) (q : List Char) (h0 : ¬ cget q 0 = NUL)
    (hs : cget q 0 ≠ '/') : (read_component m [] q).2.length < q.length := by
  cases q with
  | nil => simp [cget] at h0
  | cons c cs =>
    rw [cget_cons_zero] at h0 hs
    rw [read_component, if_pos ⟨h0, hs⟩]
    exact Nat.lt_succ_of_le (read_component_rest_le m cs _)

theorem normalize_loop_fuel (max_name out_size : Nat) (fuel : Nat) :
    ∀ (fuel' : Nat) (p out : List Char) (stack : List Nat),
      p.length < fuel → p.length < fuel' →
      normalize_loop max_name out_size fuel p out stack =
        normalize_loop max_name out_size fuel' p out stack := by
  induction fuel with
  | zero => intro fuel' p out stack h; omega
  | succ n ih =>
    intro fuel' p out stack h h'
    cases fuel' with
    | zero => omega
    | succ n' =>
      have hrec : ¬ cget (skip_slashes p) 0 = NUL →
          (read_component max_name [] (skip_slashes p)).2.length < n
          ∧ (read_component max_name [] (skip_slashes p)).2.length < n' := by
        intro h0
        have h1 := read_component_rest_lt max_name (skip_slashes p) h0 (skip_slashes_head p)
        have h2 := skip_slashes_length_le p
        omega
      rw [normalize_loop, normalize_loop]
      split
      · rfl
      · simp only []
        split
        · rfl
        next h0 =>
          obtain ⟨hn, hn'⟩ := hrec h0
          split
          · exact ih _ _ _ _ hn hn'
          · split
            · split
              · exact ih _ _ _ _ hn hn'
              · exact ih _ _ _ _ hn hn'
            · split
              · rfl
              · split <;> rw [ih n' _ _ _ hn hn']
/-! ## Line editor: deleting a character -/

theorem shift_left_length (i n : Nat) (buf : List Char) :
    (shift_left i n buf).length = buf.length := by
  induction n generalizing i buf with
  | zero => rfl
  | succ n ih => rw [shift_left, ih, List.length_set]

theorem shift_left_getElem? (i n : Nat) (buf : List Char) (j : Nat)
    (h : i + n < buf.length) :
    (shift_left i n buf)[j]? = if i ≤ j ∧ j < i + n then buf[j + 1]? else buf[j]? := by
  induction n generalizing i buf with
  | zero =>
    have : ¬ (i ≤ j ∧ j < i + 0) := by omega
    rw [shift_left, if_neg this]
  | succ n ih =>
    rw [shift_left, ih _ _ (by rw [List.length_set]; omega)]
    by_cases h1 : i + 1 ≤ j ∧ j < i + 1 + n
    · rw [if_pos h1, if_pos (by omega), List.getElem?_set_ne (by omega)]
    · rw [if_neg h1]
      by_cases h2 : j = i
      · subst h2
        rw [if_pos (by omega), List.getElem?_set_self (by omega),
          cget_eq_getElem? buf (j + 1) (by omega)]
      · rw [if_neg (by omega), List.getElem?_set_ne (by omega)]

theorem delete_content (buf : List Char) (len pos : Nat) (h0 : 0 < pos) (hpos : pos ≤ len)
    (hbuf : len ≤ buf.length) :
    (shift_left (pos - 1) ((len - 1) - (pos - 1)) buf).take (len - 1) =
      (buf.take len).take (pos - 1) ++ (buf.take len).drop pos := by
  apply List.ext_getElem?
  intro j
  have hsl := shift_left_getElem? (pos - 1) ((len - 1) - (pos - 1)) buf j (by omega)
  rw [List.getElem?_take, hsl]
  have hl : ((buf.take len).take (pos - 1)).length = pos - 1 := by
    simp [List.length_take]; omega
  by_cases hj : j < pos - 1
  · rw [if_pos (by omega), if_neg (by omega),
      List.getElem?_append_left (by rw [hl]; exact hj),
      List.getElem?_take, if_pos hj, List.getElem?_take, if_pos (by omega)]
  · rw [List.getElem?_append_right (by rw [hl]; omega), hl, List.getElem?_drop,
      List.getElem?_take]
    have hidx : pos + (j - (pos - 1)) = j + 1 := by omega
    rw [hidx]
    by_cases hin : j < len - 1
    · rw [if_pos hin, if_pos (by omega), if_pos (by omega)]
    · rw [if_neg hin, if_neg (by omega)]

theorem editor_key_backspace (k : KeyCodes) (st : Editor) (ctrl : Bool) :
    editor_key k st (backspace_key ctrl) =
      if st.pos > 0 then
        KeyOutcome.editing
          { buf := shift_left (st.pos - 1) ((st.len - 1) - (st.pos - 1)) st.buf,
            len := st.len - 1, pos := st.pos - 1, rendered_len := st.len - 1 }
      else KeyOutcome.editing st := by
  have h1 : ¬ (Char.ofNat 8 = 'c' ∨ Char.ofNat 8 = 'C') := by decide
  have h2 : ¬ Char.ofNat 8 = '\n' := by decide
  unfold editor_key backspace_key
  simp only [h1, h2, and_false, if_false, if_true, Bool.true_eq_false]

theorem editor_key_printable (k : KeyCodes) (st : Editor) (c : Char) (ctrl : Bool)
    (hc : printable c) (hleft : c ≠ k.KEY_LEFT) (hright : c ≠ k.KEY_RIGHT)
    (hint : ¬ (ctrl = true ∧ (c = 'c' ∨ c = 'C'))) :
    editor_key k st { key := c, pressed := true, ctrl := ctrl } =
      if st.len < 510 then
        KeyOutcome.editing
          { buf := (shift_right st.pos (st.len - st.pos) st.buf).set st.pos c,
            len := st.len + 1, pos := st.pos + 1, rendered_len := st.len + 1 }
      else KeyOutcome.editing st := by
  have hnl : ¬ c = '\n' := by
    intro h
    subst h
    exact absurd hc.1 (by decide)
  have hbs : ¬ c = Char.ofNat 8 := by
    intro h
    subst h
    exact absurd hc.1 (by decide)
  have hc' : 0x20 ≤ c.toNat ∧ c.toNat < 0x7F := hc
  unfold editor_key
  simp only [hint, hnl, hbs, hleft, hright, hc', if_true, if_false, and_self,
    Bool.true_eq_false]

theorem editor_with_inv (text : List Char) (len pos : Nat) (h1 : pos ≤ len)
    (h2 : len ≤ 510) (h3 : text.length ≤ 512) : (editor_with text len pos).inv := by
  refine ⟨h1, h2, ?_⟩
  show (text ++ List.replicate (512 - text.length) NUL).length = 512
  rw [List.length_append, List.length_replicate]
  omega

/-- C21: in an editor state with the cursor within the text, a pressed
backspace with the cursor after position 0 removes the character before the
cursor (length and cursor one less) and with the cursor at 0 changes
nothing; so, when the text has fewer than 510 characters, inserting a
printable character and then pressing backspace gives back the content, the
length and the cursor. -/
theorem C21_backspace (k : KeyCodes) (st : Editor) (ctrl : Bool) (hinv : st.inv) :
    (0 < st.pos →
      ∃ st', editor_key k st (backspace_key ctrl) = KeyOutcome.editing st'
        ∧ st'.content = st.content.take (st.pos - 1) ++ st.content.drop st.pos
        ∧ st'.len = st.len - 1 ∧ st'.pos = st.pos - 1)
    ∧ (st.pos = 0 → editor_key k st (backspace_key ctrl) = KeyOutcome.editing st)
    ∧ (∀ (c : Char) (ctrl' : Bool), st.len < 510 → printable c → c ≠ k.KEY_LEFT →
        c ≠ k.KEY_RIGHT → ¬ (ctrl' = true ∧ (c = 'c' ∨ c = 'C')) →
        ∃ st1 st2,
          editor_key k st { key := c, pressed := true, ctrl := ctrl' } = KeyOutcome.editing st1
          ∧ editor_key k st1 (backspace_key ctrl) = KeyOutcome.editing st2
          ∧ st2.content = st.content ∧ st2.len = st.len ∧ st2.pos = st.pos) := by
  obtain ⟨hpos, hlen, hbuf⟩ := hinv
  refine ⟨?_, ?_, ?_⟩
  · intro h0
    refine ⟨_, by rw [editor_key_backspace, if_pos h0], ?_, rfl, rfl⟩
    exact delete_content st.buf st.len st.pos h0 hpos (by omega)
  · intro h0
    rw [editor_key_backspace, if_neg (by omega)]
  · intro c ctrl' hl hc hleft hright hint
    have hins := insert_content st.buf st.len st.pos c hpos (by omega)
    have hdel := delete_content ((shift_right st.pos (st.len - st.pos) st.buf).set st.pos c)
      (st.len + 1) (st.pos + 1) (Nat.succ_pos _) (by omega)
      (by rw [List.length_set, shift_right_length]; omega)
    have hl1 : ((st.buf.take st.len).take st.pos).length = st.pos := by
      rw [List.length_take, List.length_take]; omega
    refine ⟨{ buf := (shift_right st.pos (st.len - st.pos) st.buf).set st.pos c,
              len := st.len + 1, pos := st.pos + 1, rendered_len := st.len + 1 },
      { buf := shift_left st.pos (st.len - st.pos)
                 ((shift_right st.pos (st.len - st.pos) st.buf).set st.pos c),
        len := st.len, pos := st.pos, rendered_len := st.len }, ?_, ?_, ?_, rfl, rfl⟩
    · rw [editor_key_printable k st c ctrl' hc hleft hright hint, if_pos hl]
    · rw [editor_key_backspace, if_pos (Nat.succ_pos _)]
      rfl
    · simp only [Nat.add_sub_cancel] at hdel
      show (shift_left st.pos (st.len - st.pos)
        ((shift_right st.pos (st.len - st.pos) st.buf).set st.pos c)).take st.len
          = st.buf.take st.len
      rw [hdel, hins, List.append_assoc, List.take_append_of_le_length (by rw [hl1]),
        List.take_of_length_le (by rw [hl1])]
      have hd : (List.take st.pos (List.take st.len st.buf) ++
          ([c] ++ List.drop st.pos (List.take st.len st.buf))).drop (st.pos + 1)
          = List.drop st.pos (List.take st.len st.buf) := by
        rw [List.drop_append_eq_append_drop, hl1,
          List.drop_of_length_le (by rw [hl1]; omega)]
        have : st.pos + 1 - st.pos = 1 := by omega
        rw [this]
        rfl
      rw [hd, List.take_append_drop]

/-- C21 at the text "aXbc" with the cursor after the X. -/
theorem C21_backspace_witness :
    (editor_with "aXbc".toList 4 2).inv ∧
    ((0 < (editor_with "aXbc".toList 4 2).pos →
      ∃ st', editor_key demo_keys (editor_with "aXbc".toList 4 2) (backspace_key false)
          = KeyOutcome.editing st'
        ∧ st'.content = (editor_with "aXbc".toList 4 2).content.take
              ((editor_with "aXbc".toList 4 2).pos - 1)
            ++ (editor_with "aXbc".toList 4 2).content.drop (editor_with "aXbc".toList 4 2).pos
        ∧ st'.len = (editor_with "aXbc".toList 4 2).len - 1
        ∧ st'.pos = (editor_with "aXbc".toList 4 2).pos - 1)) :=
  ⟨editor_with_inv _ 4 2 (by decide) (by decide) (by decide),
   (C21_backspace demo_keys (editor_with "aXbc".toList 4 2) false
      (editor_with_inv _ 4 2 (by decide) (by decide) (by decide))).1⟩

/-! ## Line editor: the bounds of the state -/

theorem editor_key_inv (k : KeyCodes) (st st' : Editor) (ev : key_event) (hinv : st.inv)
    (h : editor_key k st ev = KeyOutcome.editing st') : st'.inv := by
  obtain ⟨hpos, hlen, hbuf⟩ := hinv
  unfold editor_key at h
  split_ifs at h <;> first
    | (cases h; exact ⟨hpos, hlen, hbuf⟩)
    | (cases h
       refine ⟨?_, ?_, ?_⟩
       · show st.pos - 1 ≤ st.len - 1
         omega
       · show st.len - 1 ≤ 510
         omega
       · show (shift_left _ _ st.buf).length = 512
         rw [shift_left_length, hbuf])
    | (cases h
       refine ⟨?_, hlen, hbuf⟩
       show st.pos - 1 ≤ st.len
       omega)
    | (cases h
       refine ⟨?_, hlen, hbuf⟩
       show st.pos + 1 ≤ st.len
       omega)
    | (cases h
       refine ⟨?_, ?_, ?_⟩
       · show st.pos + 1 ≤ st.len + 1
         omega
       · show st.len + 1 ≤ 510
         omega
       · show ((shift_right _ _ st.buf).set _ _).length = 512
         rw [List.length_set, shift_right_length, hbuf])

theorem editor_states_inv (k : KeyCodes) (events : List key_event) :
    ∀ st : Editor, st.inv → ∀ s ∈ editor_states k st events, s.inv := by
  induction events with
  | nil =>
    intro st hinv s hs
    rw [editor_states, List.mem_singleton] at hs
    rw [hs]
    exact hinv
  | cons ev rest ih =>
    intro st hinv s hs
    rw [editor_states] at hs
    split at hs
    · rw [List.mem_singleton] at hs
      rw [hs]
      exact hinv
    · next st' heq =>
      rcases List.mem_cons.mp hs with h | h
      · rw [h]
        exact hinv
      · exact ih st' (editor_key_inv k st st' ev hinv heq) s h

theorem shift_right_accesses_lt (pos n bound : Nat) (h : pos + n < bound) :
    ∀ i ∈ shift_right_accesses pos n, i < bound := by
  induction n with
  | zero =>
    intro i hi
    cases hi
  | succ n ih =>
    intro i hi
    rw [shift_right_accesses] at hi
    rcases List.mem_cons.mp hi with h1 | h1
    · omega
    · rcases List.mem_cons.mp h1 with h2 | h2
      · omega
      · exact ih (by omega) i h2

theorem shift_left_accesses_lt (n bound : Nat) :
    ∀ i0 : Nat, i0 + n < bound → ∀ i ∈ shift_left_accesses i0 n, i < bound := by
  induction n with
  | zero =>
    intro i0 _ i hi
    cases hi
  | succ n ih =>
    intro i0 h i hi
    rw [shift_left_accesses] at hi
    rcases List.mem_cons.mp hi with h1 | h1
    · omega
    · rcases List.mem_cons.mp h1 with h2 | h2
      · omega
      · exact ih (i0 + 1) (by omega) i h2

theorem editor_accesses_lt (k : KeyCodes) (st : Editor) (ev : key_event) (hinv : st.inv) :
    ∀ i ∈ editor_accesses k st ev, i < 512 := by
  obtain ⟨hpos, hlen, _⟩ := hinv
  intro i hi
  unfold editor_accesses at hi
  split_ifs at hi
  · cases hi
  · rw [List.mem_singleton] at hi
    omega
  · rw [List.mem_singleton] at hi
    omega
  · rcases List.mem_append.mp hi with h | h
    · exact shift_left_accesses_lt _ 512 _ (by omega) i h
    · have := List.mem_range.mp h
      omega
  · cases hi
  · cases hi
  · cases hi
  · rcases List.mem_append.mp hi with h | h
    · rcases List.mem_append.mp h with h1 | h1
      · exact shift_right_accesses_lt _ _ 512 (by omega) i h1
      · rw [List.mem_singleton] at h1
        omega
    · have := List.mem_range.mp h
      omega
  · cases hi
  · cases hi

theorem editor_key_left (k : KeyCodes) (st : Editor) (ctrl : Bool) (hk : k.apart) :
    editor_key k st { key := k.KEY_LEFT, pressed := true, ctrl := ctrl } =
      if st.pos > 0 then KeyOutcome.editing { st with pos := st.pos - 1 }
      else KeyOutcome.editing st := by
  obtain ⟨_, hnl, hbs, hpr, _, _, _⟩ := hk
  have hc : ¬ (k.KEY_LEFT = 'c' ∨ k.KEY_LEFT = 'C') := by
    rintro (h | h) <;> exact hpr (by rw [h]; exact ⟨by decide, by decide⟩)
  unfold editor_key
  simp only [hc, hnl, hbs, and_false, if_false, if_true, Bool.true_eq_false]

theorem editor_key_right (k : KeyCodes) (st : Editor) (ctrl : Bool) (hk : k.apart) :
    editor_key k st { key := k.KEY_RIGHT, pressed := true, ctrl := ctrl } =
      if st.pos < st.len then KeyOutcome.editing { st with pos := st.pos + 1 }
      else KeyOutcome.editing st := by
  obtain ⟨hlr, _, _, _, hnl, hbs, hpr⟩ := hk
  have hc : ¬ (k.KEY_RIGHT = 'c' ∨ k.KEY_RIGHT = 'C') := by
    rintro (h | h) <;> exact hpr (by rw [h]; exact ⟨by decide, by decide⟩)
  have hrl : ¬ k.KEY_RIGHT = k.KEY_LEFT := fun h => hlr h.symm
  unfold editor_key
  simp only [hc, hnl, hbs, hrl, and_false, if_false, if_true, Bool.true_eq_false]

theorem demo_keys_apart : demo_keys.apart := by
  unfold KeyCodes.apart printable demo_keys
  decide

/-- C22: the bounds cursor ≤ length ≤ 510 on a 512-byte buffer hold in the
initial state of the editor, are kept by every key event that does not
return the line, and so hold in every state the loop passes through; the left
arrow with the cursor at 0, the right arrow with the cursor at the length and
a printable key at length 510 leave the state as it is; every index of the
buffer that a key event reads or writes is below 512. The two arrow codes are
taken to differ from each other, from newline, from backspace and from the
printable characters. -/
theorem C22_editor_invariant (k : KeyCodes) (st : Editor) (ev : key_event)
    (hk : k.apart) (hinv : st.inv) :
    (∀ buf : List Char, buf.length = 512 →
        (editor_init buf).inv
        ∧ ∀ events, ∀ s ∈ editor_states k (editor_init buf) events, s.inv)
    ∧ (∀ st', editor_key k st ev = KeyOutcome.editing st' → st'.inv)
    ∧ (∀ ctrl, st.pos = 0 →
        editor_key k st { key := k.KEY_LEFT, pressed := true, ctrl := ctrl }
          = KeyOutcome.editing st)
    ∧ (∀ ctrl, st.pos = st.len →
        editor_key k st { key := k.KEY_RIGHT, pressed := true, ctrl := ctrl }
          = KeyOutcome.editing st)
    ∧ (∀ c ctrl, printable c → ¬ (ctrl = true ∧ (c = 'c' ∨ c = 'C')) → st.len = 510 →
        editor_key k st { key := c, pressed := true, ctrl := ctrl } = KeyOutcome.editing st)
    ∧ (∀ i ∈ editor_accesses k st ev, i < 512) := by
  refine ⟨?_, ?_, ?_, ?_, ?_, editor_accesses_lt k st ev hinv⟩
  · intro buf hbuf
    have h0 : (editor_init buf).inv := ⟨Nat.le_refl 0, Nat.zero_le 510, hbuf⟩
    exact ⟨h0, fun events => editor_states_inv k events _ h0⟩
  · intro st' h
    exact editor_key_inv k st st' ev hinv h
  · intro ctrl h0
    rw [editor_key_left k st ctrl hk, if_neg (by omega)]
  · intro ctrl h0
    rw [editor_key_right k st ctrl hk, if_neg (by omega)]
  · intro c ctrl hc hint h510
    have hl : c ≠ k.KEY_LEFT := fun h => hk.2.2.2.1 (h ▸ hc)
    have hr : c ≠ k.KEY_RIGHT := fun h => hk.2.2.2.2.2.2 (h ▸ hc)
    rw [editor_key_printable k st c ctrl hc hl hr hint, if_neg (by omega)]

/-- C22 at a full line of 510 characters with the cursor at its end, for a
pressed printable key. -/
theorem C22_editor_invariant_witness :
    demo_keys.apart ∧ (editor_with (List.replicate 510 'a') 510 510).inv
    ∧ (∀ st', editor_key demo_keys (editor_with (List.replicate 510 'a') 510 510) (press 'x')
          = KeyOutcome.editing st' → st'.inv)
    ∧ (∀ i ∈ editor_accesses demo_keys (editor_with (List.replicate 510 'a') 510 510)
          (press 'x'), i < 512) :=
  have hinv : (editor_with (List.replicate 510 'a') 510 510).inv :=
    editor_with_inv _ 510 510 (Nat.le_refl _) (Nat.le_refl _)
      (by rw [List.length_replicate]; decide)
  have h := C22_editor_invariant demo_keys (editor_with (List.replicate 510 'a') 510 510)
    (press 'x') demo_keys_apart hinv
  ⟨demo_keys_apart, hinv, h.2.1, h.2.2.2.2.2⟩

/-! ## Line editor: the interrupt -/

theorem editor_key_editing (k : KeyCodes) (st : Editor) (ev : key_event)
    (hi : ¬ ev.is_interrupt) (hn : ¬ ev.is_newline) :
    ∃ st', editor_key k st ev = KeyOutcome.editing st' := by
  unfold key_event.is_interrupt at hi
  unfold key_event.is_newline at hn
  unfold editor_key
  split_ifs with h1 h2 h3
  all_goals first
    | exact ⟨_, rfl⟩
    | (exfalso
       have hp : ev.pressed = true := by simpa using h1
       first
         | exact hi ⟨hp, h2.1, h2.2⟩
         | exact hn ⟨hp, h3⟩)

theorem cstr_set_zero (buf : List Char) : cstr (buf.set 0 NUL) = [] := by
  cases buf with
  | nil => rfl
  | cons c cs => exact cstr_cons_nul cs

theorem editor_key_interrupt (k : KeyCodes) (st : Editor) (ev : key_event)
    (hi : ev.is_interrupt) : editor_key k st ev = KeyOutcome.line [] := by
  obtain ⟨hp, hc, hk⟩ := hi
  unfold editor_key
  rw [if_neg (by rw [hp]; decide), if_pos ⟨hc, hk⟩, cstr_set_zero]

theorem read_line_loop_interrupt (k : KeyCodes) (pre post : List key_event)
    (intr : key_event) (hintr : intr.is_interrupt) :
    ∀ st : Editor, (∀ ev ∈ pre, ¬ ev.is_interrupt ∧ ¬ ev.is_newline) →
      read_line_loop k st (pre ++ intr :: post) = some [] := by
  induction pre with
  | nil =>
    intro st _
    rw [List.nil_append, read_line_loop, editor_key_interrupt k st intr hintr]
  | cons ev rest ih =>
    intro st hpre
    obtain ⟨st', hst'⟩ := editor_key_editing k st ev
      (hpre ev (List.mem_cons_self _ _)).1 (hpre ev (List.mem_cons_self _ _)).2
    rw [List.cons_append, read_line_loop, hst']
    exact ih st' (fun e he => hpre e (List.mem_cons_of_mem _ he))

/-- C23: when the events polled are some events none of which is a pressed
newline or a pressed Ctrl with c or C, then a pressed Ctrl with c or C, then
anything, `shell_read_line` returns the empty line, whatever the buffer held
and whatever was typed before; and on the empty line the main loop only
reprompts: it makes no call, so no redirection, pipeline, builtin or spawn. -/
theorem C23_interrupt_empty_line (k : KeyCodes) (w : World) (buf : List Char)
    (pre post : List key_event) (intr : key_event)
    (hpre : ∀ ev ∈ pre, ¬ ev.is_interrupt ∧ ¬ ev.is_newline)
    (hintr : intr.is_interrupt) :
    shell_read_line k buf (pre ++ intr :: post) = some []
    ∧ shell_route [] = Route.reprompt
    ∧ shell_line w [] = [] :=
  ⟨read_line_loop_interrupt k pre post intr hintr (editor_init buf) hpre, rfl, rfl⟩

/-- C23 at the keys l, s typed and then Ctrl with c, followed by a newline. -/
theorem C23_interrupt_empty_line_witness :
    shell_read_line demo_keys (List.replicate 512 'z')
        ([press 'l', press 's'] ++ { key := 'c', pressed := true, ctrl := true } :: [press '\n'])
      = some []
    ∧ shell_route [] = Route.reprompt
    ∧ shell_line demo_world [] = [] :=
  C23_interrupt_empty_line demo_keys demo_world (List.replicate 512 'z')
    [press 'l', press 's'] [press '\n'] { key := 'c', pressed := true, ctrl := true }
    (by
      intro ev hev
      simp only [List.mem_cons, List.mem_singleton, List.not_mem_nil, or_false] at hev
      rcases hev with h | h <;> subst h <;>
        exact ⟨fun hh => absurd hh.2.1 (by decide), fun hh => absurd hh.2 (by decide)⟩)
    ⟨rfl, rfl, Or.inl rfl⟩

/-! ## Line editor: a typed line -/

theorem cstr_set_take (buf : List Char) :
    ∀ n : Nat, n < buf.length → (∀ c ∈ buf.take n, c ≠ NUL) →
      cstr (buf.set n NUL) = buf.take n := by
  induction buf with
  | nil =>
    intro n h _
    exact absurd h (Nat.not_lt_zero _)
  | cons c cs ih =>
    intro n h hne
    cases n with
    | zero => exact cstr_cons_nul cs
    | succ n =>
      have hc : c ≠ NUL := hne c (by rw [List.take_succ_cons]; exact List.mem_cons_self _ _)
      rw [List.set_cons_succ, cstr_cons_ne c _ hc, List.take_succ_cons,
        ih n (Nat.lt_of_succ_lt_succ h)
          (fun x hx => hne x (by rw [List.take_succ_cons]; exact List.mem_cons_of_mem _ hx))]

theorem printable_ne_nul (c : Char) (h : printable c) : c ≠ NUL := by
  intro hc
  subst hc
  exact absurd h.1 (by decide)

theorem editor_key_newline (k : KeyCodes) (st : Editor) (nl : key_event)
    (hnl : nl.is_newline) :
    editor_key k st nl = KeyOutcome.line (cstr (st.buf.set st.len NUL)) := by
  obtain ⟨hp, hkey⟩ := hnl
  have hc : ¬ (nl.key = 'c' ∨ nl.key = 'C') := by
    rw [hkey]
    decide
  unfold editor_key
  rw [if_neg (by rw [hp]; decide), if_neg (fun h => hc h.2), if_pos hkey]

theorem read_line_loop_typed (k : KeyCodes) (hk : k.apart) (nl : key_event)
    (hnl : nl.is_newline) (events : List key_event) :
    ∀ st : Editor, st.inv → st.pos = st.len → (∀ c ∈ st.content, c ≠ NUL) →
      (∀ ev ∈ events, ev.pressed = true → printable ev.key ∧ ¬ ev.is_interrupt) →
      st.len + (typed_keys events).length ≤ 510 →
      read_line_loop k st (events ++ [nl]) = some (st.content ++ typed_keys events) := by
  induction events with
  | nil =>
    intro st hinv _ hne _ _
    obtain ⟨_, hlen, hbuf⟩ := hinv
    rw [List.nil_append, read_line_loop, editor_key_newline k st nl hnl]
    show some (cstr (st.buf.set st.len NUL)) = some (st.content ++ [])
    rw [List.append_nil, cstr_set_take st.buf st.len (by omega) hne]
    rfl
  | cons ev rest ih =>
    intro st hinv hpos hne hev hlen
    have hrest : ∀ e ∈ rest, e.pressed = true → printable e.key ∧ ¬ e.is_interrupt :=
      fun e he => hev e (List.mem_cons_of_mem _ he)
    rw [List.cons_append, read_line_loop]
    cases hp : ev.pressed with
    | false =>
      have hkey : editor_key k st ev = KeyOutcome.editing st := by
        unfold editor_key
        rw [if_pos hp]
      have ht : typed_keys (ev :: rest) = typed_keys rest := by
        simp [typed_keys, hp]
      rw [hkey, ht]
      exact ih st hinv hpos hne hrest (by rw [← ht]; exact hlen)
    | true =>
      obtain ⟨hc, hni⟩ := hev ev (List.mem_cons_self _ _) hp
      have ht : typed_keys (ev :: rest) = ev.key :: typed_keys rest := by
        simp [typed_keys, hp]
      rw [ht, List.length_cons] at hlen
      have hl : ev.key ≠ k.KEY_LEFT := fun h => hk.2.2.2.1 (h ▸ hc)
      have hr : ev.key ≠ k.KEY_RIGHT := fun h => hk.2.2.2.2.2.2 (h ▸ hc)
      have hint : ¬ (ev.ctrl = true ∧ (ev.key = 'c' ∨ ev.key = 'C')) :=
        fun h => hni ⟨hp, h.1, h.2⟩
      have hev_eq : ev = { key := ev.key, pressed := true, ctrl := ev.ctrl } := by
        cases ev
        simp only at hp
        rw [hp]
      obtain ⟨hpl, hl510, hbuf⟩ := hinv
      have hkey := editor_key_printable k st ev.key ev.ctrl hc hl hr hint
      rw [← hev_eq, if_pos (by omega)] at hkey
      have hcont : (((shift_right st.pos (st.len - st.pos) st.buf).set st.pos ev.key).take
          (st.len + 1)) = st.content ++ [ev.key] := by
        rw [insert_content st.buf st.len st.pos ev.key hpl (by omega), hpos]
        have hlt : (st.buf.take st.len).length = st.len := by
          rw [List.length_take]
          omega
        rw [List.take_of_length_le (by rw [hlt]), List.drop_of_length_le (by rw [hlt]),
          List.append_nil]
        rfl
      rw [hkey, ht]
      dsimp only
      rw [ih _ ?_ ?_ ?_ hrest ?_]
      · show some (List.take (st.len + 1) _ ++ typed_keys rest) = _
        rw [hcont, List.append_assoc]
        rfl
      · refine ⟨?_, ?_, ?_⟩
        · show st.pos + 1 ≤ st.len + 1
          omega
        · show st.len + 1 ≤ 510
          omega
        · show ((shift_right _ _ st.buf).set _ _).length = 512
          rw [List.length_set, shift_right_length, hbuf]
      · show st.pos + 1 = st.len + 1
        omega
      · intro x hx
        have hx' : x ∈ st.content ++ [ev.key] := by
          rw [← hcont]
          exact hx
        rcases List.mem_append.mp hx' with h | h
        · exact hne x h
        · rw [List.mem_singleton] at h
          rw [h]
          exact printable_ne_nul _ hc
      · show st.len + 1 + (typed_keys rest).length ≤ 510
        omega

theorem shell_read_line_typed (k : KeyCodes) (buf : List Char) (events : List key_event)
    (nl : key_event) (hk : k.apart) (hbuf : buf.length = 512)
    (hev : ∀ ev ∈ events, ev.pressed = true → printable ev.key ∧ ¬ ev.is_interrupt)
    (hlen : (typed_keys events).length ≤ 510)
    (hnl : nl.is_newline) :
    shell_read_line k buf (events ++ [nl]) = some (typed_keys events) := by
  have h := read_line_loop_typed k hk nl hnl events (editor_init buf)
    ⟨Nat.le_refl 0, Nat.zero_le 510, hbuf⟩ rfl
    (fun c hc => by
      have : (editor_init buf).content = [] := rfl
      rw [this] at hc
      cases hc)
    hev (by
      show 0 + (typed_keys events).length ≤ 510
      omega)
  rw [shell_read_line, h]
  rfl

theorem typed_keys_press (l : List Char) : typed_keys (l.map press) = l := by
  induction l with
  | nil => rfl
  | cons c cs ih =>
    have h : typed_keys ((c :: cs).map press) = c :: typed_keys (cs.map press) := by
      simp [typed_keys, press]
    rw [h, ih]

/-- C24: when every pressed event polled before the newline carries a
printable key and is not Ctrl with c or C, and at most 510 keys are pressed,
`shell_read_line` returns at the pressed newline exactly the pressed keys in
the order polled, whatever the buffer held; the released events, wherever
they stand, play no part in the result. The two arrow codes are taken to
differ from the printable characters. -/
theorem C24_typed_line (k : KeyCodes) (buf : List Char) (events : List key_event)
    (nl : key_event) (hk : k.apart) (hbuf : buf.length = 512)
    (hev : ∀ ev ∈ events, ev.pressed = true → printable ev.key ∧ ¬ ev.is_interrupt)
    (hlen : (typed_keys events).length ≤ 510)
    (hnl : nl.is_newline) :
    shell_read_line k buf (events ++ [nl]) = some (typed_keys events) :=
  shell_read_line_typed k buf events nl hk hbuf hev hlen hnl

/-- C24 at the keys l and s, with the release of l between them. -/
theorem C24_typed_line_witness :
    shell_read_line demo_keys (List.replicate 512 'z')
        ([press 'l', release 'l', press 's'] ++ [press '\n']) = some "ls".toList :=
  C24_typed_line demo_keys (List.replicate 512 'z') [press 'l', release 'l', press 's']
    (press '\n') demo_keys_apart (List.length_replicate 512 'z')
    (by
      intro ev hev
      simp only [List.mem_cons, List.mem_singleton, List.not_mem_nil, or_false] at hev
      rcases hev with h | h | h <;> subst h <;> intro hp
      · exact ⟨⟨by decide, by decide⟩, fun hh => absurd hh.2.1 (by decide)⟩
      · exact absurd hp (by decide)
      · exact ⟨⟨by decide, by decide⟩, fun hh => absurd hh.2.1 (by decide)⟩)
    (by decide) ⟨rfl, rfl⟩

/-! ## Program path -/

theorem cstr_eq_self (s : List Char) (h : ∀ x ∈ s, x ≠ NUL) : cstr s = s := by
  induction s with
  | nil => rfl
  | cons c cs ih =>
    rw [cstr_cons_ne c cs (h c (List.mem_cons_self _ _)),
      ih (fun x hx => h x (List.mem_cons_of_mem _ hx))]

theorem tokenize_verb_length (b : Nat) (s : List Char) : (tokenize 63 b s).1.length ≤ 63 := by
  have h : (tokenize 63 b s).1 = (copy_word 63 [] (skip_blanks s)).1 := by
    simp [tokenize]
  rw [h, copy_word_fst, List.nil_append, List.length_take]
  exact Nat.min_le_left _ _

theorem alloc_pipes_path_from_verb (w : World) (n : Nat) :
    ∀ pipes : List Nat, ∀ c ∈ (alloc_pipes w n pipes).2, c.path_from_verb = true := by
  induction n with
  | zero =>
    intro pipes c hc
    cases hc
  | succ n ih =>
    intro pipes c hc
    rw [alloc_pipes] at hc
    simp only [] at hc
    split at hc
    · simp only [List.mem_cons, List.mem_singleton, List.not_mem_nil, or_false] at hc
      rcases hc with h | h <;> subst h <;> rfl
    · rcases List.mem_cons.mp hc with h | h
      · subst h
        rfl
      · exact ih _ c h

theorem spawn_stage_path_from_verb (w : World) (sc : Nat) (pipes : List Nat) (i : Nat)
    (cmd args : List Char) (st : SpawnState)
    (h : ∀ c ∈ st.trace, c.path_from_verb = true) :
    ∀ c ∈ (spawn_stage w sc pipes i cmd args st).trace, c.path_from_verb = true := by
  intro c hc
  unfold spawn_stage at hc
  simp only [] at hc
  split at hc
  · simp only [List.mem_append, List.mem_cons, List.mem_singleton, List.not_mem_nil,
      or_false] at hc
    rcases hc with (h1 | h1) | h1
    · exact h c h1
    · subst h1
      simp [Call.path_from_verb]
    · rcases h1 with h2 | h2 | h2 <;> subst h2 <;> rfl
  · simp only [List.mem_append, List.mem_cons, List.mem_singleton, List.not_mem_nil,
      or_false] at hc
    rcases hc with (h1 | h1) | h1
    · exact h c h1
    · subst h1
      simp [Call.path_from_verb]
    · subst h1
      rfl

theorem spawn_loop_path_from_verb (w : World) (sc : Nat) (pipes : List Nat)
    (stages : List (List Char × List Char)) :
    ∀ (i : Nat) (st : SpawnState), (∀ c ∈ st.trace, c.path_from_verb = true) →
      ∀ c ∈ (spawn_loop w sc pipes i stages st).trace, c.path_from_verb = true := by
  induction stages with
  | nil =>
    intro i st h
    exact h
  | cons s rest ih =>
    intro i st h
    rw [spawn_loop]
    exact ih _ _ (spawn_stage_path_from_verb w sc pipes i s.1 s.2 st h)

theorem wait_loop_path_from_verb (pids : List Int) :
    ∀ c ∈ wait_loop pids, c.path_from_verb = true := by
  induction pids with
  | nil =>
    intro c hc
    cases hc
  | cons p rest ih =>
    intro c hc
    rw [wait_loop] at hc
    split at hc
    · rcases List.mem_cons.mp hc with h | h
      · subst h
        rfl
      · exact ih c h
    · exact ih c hc

theorem exec_pipeline_path_from_verb (w : World) (input : List Char) :
    ∀ c ∈ (exec_pipeline w input).2, c.path_from_verb = true := by
  intro c hc
  unfold exec_pipeline at hc
  simp only [] at hc
  split at hc
  · cases hc
  · split at hc
    · next t heq =>
      have := alloc_pipes_path_from_verb w ((split_segments input).length - 1) [] c
      rw [heq] at this
      exact this hc
    · next pipes t heq =>
      have ht : ∀ x ∈ t, x.path_from_verb = true := by
        have := alloc_pipes_path_from_verb w ((split_segments input).length - 1) []
        rw [heq] at this
        exact this
      have hloop := spawn_loop_path_from_verb w (split_segments input).length pipes
        ((split_segments input).map parse_segment) 0
        { pids := [], pipeline_pgid := 0, trace := t } ht
      simp only [List.mem_append, List.mem_singleton] at hc
      rcases hc with (h1 | h1) | h1
      · split at h1
        · rcases List.mem_append.mp h1 with h2 | h2
          · exact hloop c h2
          · rw [List.mem_singleton] at h2
            subst h2
            rfl
        · exact hloop c h1
      · exact wait_loop_path_from_verb _ c h1
      · subst h1
        rfl

theorem exec_redirect_path_from_verb (w : World) (input : List Char) (redir_pos mode : Nat) :
    ∀ c ∈ (exec_redirect w input redir_pos mode).2, c.path_from_verb = true := by
  intro c hc
  cases hs : c.is_spawn with
  | false =>
    cases c <;> first | rfl | (simp [Call.is_spawn] at hs)
  | true =>
    obtain ⟨node, _, hceq⟩ := exec_redirect_spawn_mem w input redir_pos mode c hs hc
    rw [hceq]
    simp [redirect_spawn, Call.path_from_verb]

theorem exec_redirect_spawns (w : World) (input : List Char) (redir_pos mode : Nat)
    (node : vfs_node) (hcmd : has_command input redir_pos)
    (hfile : has_filename input redir_pos mode)
    (hres : w.resolve (redirect_target w input redir_pos mode) = some node) :
    (exec_redirect w input redir_pos mode).2.filter Call.is_spawn =
      [Call.sched_spawn (program_path (redirect_verb input redir_pos))
         (redirect_verb input redir_pos) (argv1_of (redirect_args input redir_pos))
         (some (redirect_fds node mode))] := by
  have hwf := redirect_well_formed input redir_pos mode hcmd hfile
  unfold redirect_target at hres
  unfold exec_redirect
  simp only [hwf, if_false, hres, redirect_verb, redirect_args]
  split <;> split <;> simp [List.filter_cons, Call.is_spawn]

theorem exec_pipeline_spawn_at (w : World) (input : List Char)
    (hpipe : has_pipe input = true)
    (halloc : ∀ m, m + 1 < pipeline_seg_count input → w.pipe m ≠ 0)
    (i : Nat) (stage : List Char × List Char)
    (hstage : (pipeline_stages input)[i]? = some stage) :
    ((exec_pipeline w input).2.filter Call.is_spawn)[i]? =
      some (Call.sched_spawn (program_path stage.1) stage.1 (argv1_of stage.2)
        (some (pipeline_fds (pipeline_seg_count input) (pipeline_pipes w input) i))) := by
  rw [exec_pipeline_spawns w input (seg_count_ge_two input hpipe) halloc,
    stages_spawns_getElem?, hstage, Nat.zero_add]
  rfl

/-- C25: for a verb of at most 63 characters (none of them the terminator),
the program path is the verb itself when it starts with `/` and otherwise
`/apps/` followed by the verb, and the verb of each of the three tokenizers
is such a verb.  The single-command branch makes exactly one spawn, of the
program path of its verb.  The redirection executor, for a redirection with a
command and a filename whose target resolves, makes exactly one spawn, of the
program path of the verb of the command part.  The pipeline executor, for a
line with a `|` whose pipe buffers are all allocated, makes one spawn per
stage, the `i`-th of the program path of the verb of stage `i`.  In every
case each spawn made carries the path computed from the verb it passes as
`argv[0]`. -/
theorem C25_program_path (w : World) (cmd args : List Char)
    (hlen : cmd.length ≤ 63) (hnul : ∀ x ∈ cmd, x ≠ NUL) :
    program_path cmd = (if cget cmd 0 = '/' then cmd else "/apps/".toList ++ cmd)
    ∧ (∀ b s, (tokenize 63 b s).1.length ≤ 63 ∧ ∀ x ∈ (tokenize 63 b s).1, x ≠ NUL)
    ∧ (run_external w cmd args).filter Call.is_spawn
        = [Call.sched_spawn (program_path cmd) cmd (argv1_of args) none]
    ∧ (∀ (input : List Char) (redir_pos mode : Nat) (node : vfs_node),
        has_command input redir_pos → has_filename input redir_pos mode →
        w.resolve (redirect_target w input redir_pos mode) = some node →
        (exec_redirect w input redir_pos mode).2.filter Call.is_spawn =
          [Call.sched_spawn (program_path (redirect_verb input redir_pos))
             (redirect_verb input redir_pos) (argv1_of (redirect_args input redir_pos))
             (some (redirect_fds node mode))])
    ∧ (∀ (input : List Char), has_pipe input = true →
        (∀ m, m + 1 < pipeline_seg_count input → w.pipe m ≠ 0) →
        ((exec_pipeline w input).2.filter Call.is_spawn).length
            = (pipeline_stages input).length
        ∧ ∀ (i : Nat) (stage : List Char × List Char),
            (pipeline_stages input)[i]? = some stage →
            ((exec_pipeline w input).2.filter Call.is_spawn)[i]? =
              some (Call.sched_spawn (program_path stage.1) stage.1 (argv1_of stage.2)
                (some (pipeline_fds (pipeline_seg_count input) (pipeline_pipes w input) i))))
    ∧ (∀ (input : List Char) (redir_pos mode : Nat),
        ∀ c ∈ (exec_redirect w input redir_pos mode).2, c.path_from_verb = true)
    ∧ (∀ (input : List Char), ∀ c ∈ (exec_pipeline w input).2, c.path_from_verb = true) := by
  refine ⟨?_, fun b s => ⟨tokenize_verb_length b s, fun x hx => (tokenize_verb_no_nul 63 b s x hx).1⟩,
    run_external_spawns w cmd args,
    fun input redir_pos mode node hcmd hfile hres =>
      exec_redirect_spawns w input redir_pos mode node hcmd hfile hres,
    fun input hpipe halloc =>
      ⟨by rw [exec_pipeline_spawns w input (seg_count_ge_two input hpipe) halloc,
            stages_spawns_length],
       fun i stage hstage => exec_pipeline_spawn_at w input hpipe halloc i stage hstage⟩,
    fun input redir_pos mode => exec_redirect_path_from_verb w input redir_pos mode,
    fun input => exec_pipeline_path_from_verb w input⟩
  unfold program_path
  by_cases h : cget cmd 0 = '/'
  · rw [if_neg (not_not.mpr h), if_pos h]
  · rw [if_pos h, if_neg h, copy_upto_eq_of_fits 255 cmd _ (by
      have : "/apps/".toList.length = 6 := rfl
      omega), cstr_eq_self cmd hnul]

/-- C25 at the verb `ls`: alone, in `ls > f` and as both stages of `ls | ls`
the program spawned is `/apps/ls`; and at the verb `/bin/ls`, which is its
own path. -/
theorem C25_program_path_witness :
    program_path "ls".toList = "/apps/ls".toList
    ∧ program_path "/bin/ls".toList = "/bin/ls".toList
    ∧ (run_external demo_world "ls".toList []).filter Call.is_spawn
        = [Call.sched_spawn "/apps/ls".toList "ls".toList none none]
    ∧ (exec_redirect demo_world "ls > f".toList 3 1).2.filter Call.is_spawn
        = [Call.sched_spawn "/apps/ls".toList "ls".toList none
             (some (redirect_fds ⟨7, 0, false⟩ 1))]
    ∧ ((exec_pipeline demo_world "ls | ls".toList).2.filter Call.is_spawn)[0]?
        = some (Call.sched_spawn "/apps/ls".toList "ls".toList none
            (some (pipeline_fds 2 [1] 0)))
    ∧ ((exec_pipeline demo_world "ls | ls".toList).2.filter Call.is_spawn)[1]?
        = some (Call.sched_spawn "/apps/ls".toList "ls".toList none
            (some (pipeline_fds 2 [1] 1))) :=
  have h := C25_program_path demo_world "ls".toList [] (by decide) (by decide)
  have h2 := C25_program_path demo_world "/bin/ls".toList [] (by decide) (by decide)
  ⟨h.1, h2.1, h.2.2.1,
   h.2.2.2.1 "ls > f".toList 3 1 ⟨7, 0, false⟩ ⟨0, by decide, by decide⟩
     ⟨'f', by decide, by decide⟩ (by decide),
   (h.2.2.2.2.1 "ls | ls".toList (by decide) (fun m _ => Nat.succ_ne_zero m)).2 0
     ("ls".toList, []) (by decide),
   (h.2.2.2.2.1 "ls | ls".toList (by decide) (fun m _ => Nat.succ_ne_zero m)).2 1
     ("ls".toList, []) (by decide)⟩

/-! ## Classifier: the builtin `mkdir` -/

/-- C26 fails at `mkdir`: the help text lists `mkdir <dir>` among the
builtins and `cmd_mkdir` would create `/x` through `ensure_path_exists`, but
the main loop has no test for the verb `mkdir`: the line `mkdir x` (no pipe,
no redirection) takes the final `else` branch and spawns `/apps/mkdir`, and
none of its calls is `ensure_path_exists`. -/
theorem C26_mkdir_not_dispatched :
    Call.mt_print "  mkdir <dir> - create directory\n".toList ∈ cmd_help
    ∧ cmd_mkdir demo_world "x".toList = (0, [Call.ensure_path_exists "/x".toList])
    ∧ has_pipe "mkdir x".toList = false
    ∧ (find_redirect "mkdir x".toList).1 = 0
    ∧ shell_route "mkdir x".toList = Route.external
    ∧ (shell_route "mkdir x".toList).is_builtin = false
    ∧ shell_line demo_world "mkdir x".toList =
        [Call.sched_spawn "/apps/mkdir".toList "mkdir".toList (some "x".toList) none,
         Call.tcsetpgrp 2, Call.sched_waitpid 2, Call.tcsetpgrp 1]
    ∧ (shell_line demo_world "mkdir x".toList).filter Call.is_ensure_path = [] := by
  decide

/-! ## Tokenizer: the three copies -/

theorem split_loop_rows (s : List Char) :
    ∀ (segs : List (List Char)) (cur : List Char) (sk : Bool),
      (∀ q ∈ segs, q.length ≤ 127) → cur.length ≤ 127 →
      (∀ q ∈ (split_loop segs cur sk s).1, q.length ≤ 127)
        ∧ (split_loop segs cur sk s).2.length ≤ 127 := by
  induction s with
  | nil =>
    intro segs cur sk hs hc
    exact ⟨hs, hc⟩
  | cons c cs ih =>
    intro segs cur sk hs hc
    rw [split_loop]
    split_ifs with h1 h2 h3 h4
    · exact ih segs cur true hs hc
    · exact ⟨hs, hc⟩
    · refine ih (segs ++ [cur]) [] true ?_ (Nat.zero_le _)
      intro q hq
      rcases List.mem_append.mp hq with h | h
      · exact hs q h
      · rw [List.mem_singleton] at h
        rw [h]
        exact hc
    · refine ih segs (cur ++ [c]) false hs ?_
      rw [List.length_append, List.length_singleton]
      omega
    · exact ih segs cur false hs hc

theorem split_segments_rows (input : List Char) :
    ∀ row ∈ split_segments input, row.length ≤ 127 := by
  have h := split_loop_rows input [] [] false (fun q hq => by cases hq) (Nat.zero_le _)
  intro row hrow
  have hrow' : row ∈ (split_loop [] [] false input).1 ++ [(split_loop [] [] false input).2] := by
    simpa [split_segments] using hrow
  rcases List.mem_append.mp hrow' with h1 | h1
  · exact h.1 row h1
  · rw [List.mem_singleton] at h1
    rw [h1]
    exact h.2

/-- C27: when the trimmed command part of a redirection has at most 255
characters, the verb and the argument that `exec_redirect` computes are
those `parse_input` computes for that text; for a segment of at most 127
characters the verb and the argument that `exec_pipeline` computes are those
`parse_input` computes for it; and every row that `exec_pipeline` splits off
a line has at most 127 characters, so the stages of every pipeline are the
`parse_input` of its rows. -/
theorem C27_tokenizers_agree (input seg : List Char) (redir_pos : Nat)
    (hcmd : redirect_cmd_len input redir_pos ≤ 255) (hseg : seg.length ≤ 127) :
    (redirect_verb input redir_pos, redirect_args input redir_pos)
        = parse_input ((List.range (redirect_cmd_len input redir_pos)).map (cget input))
    ∧ parse_segment seg = parse_input seg
    ∧ (∀ row ∈ split_segments input, row.length ≤ 127)
    ∧ pipeline_stages input = (split_segments input).map parse_input := by
  refine ⟨?_, parse_segment_eq_parse_input seg hseg, split_segments_rows input, ?_⟩
  · rw [redirect_verb, redirect_args, redirect_cmd_part, Nat.min_eq_left hcmd]
    rfl
  · rw [pipeline_stages]
    exact List.map_congr_left
      (fun row hrow => parse_segment_eq_parse_input row (split_segments_rows input row hrow))

/-- C27 at the line `echo hi > f` and at the segment `grep x`. -/
theorem C27_tokenizers_agree_witness :
    (redirect_verb "echo hi > f".toList 8, redirect_args "echo hi > f".toList 8)
        = parse_input "echo hi".toList
    ∧ parse_segment "grep x".toList = ("grep".toList, "x".toList) := by
  have h := C27_tokenizers_agree "echo hi > f".toList "grep x".toList 8 (by decide) (by decide)
  refine ⟨?_, ?_⟩
  · rw [h.1]
    decide
  · rw [h.2.1]
    decide

/-! ## Redirection: the command buffer -/

theorem redirect_cmd_writes_bound (input : List Char) (redir_pos : Nat) :
    (∀ i ∈ redirect_cmd_writes input redir_pos, i < 256)
      ↔ redirect_cmd_len input redir_pos ≤ 255 := by
  unfold redirect_cmd_writes
  constructor
  · intro h
    have := h (redirect_cmd_len input redir_pos)
      (List.mem_append_right _ (List.mem_singleton_self _))
    omega
  · intro h i hi
    rcases List.mem_append.mp hi with h1 | h1
    · have := List.mem_range.mp h1
      omega
    · rw [List.mem_singleton] at h1
      omega

theorem overlong_command_line_typed (buf : List Char) (hbuf : buf.length = 512) :
    shell_read_line demo_keys buf (overlong_command_line.map press ++ [press '\n'])
      = some overlong_command_line := by
  have hlen : overlong_command_line.length = 258 := by
    rw [overlong_command_line, List.length_append, List.length_replicate]
    rfl
  have h := shell_read_line_typed demo_keys buf (overlong_command_line.map press) (press '\n')
    demo_keys_apart hbuf
    (by
      intro ev hev _
      obtain ⟨c, hc, hce⟩ := List.mem_map.mp hev
      subst hce
      refine ⟨?_, fun hh => Bool.false_ne_true hh.2.1⟩
      rcases List.mem_append.mp hc with h1 | h1
      · rw [(List.mem_replicate.mp h1).2]
        exact ⟨by decide, by decide⟩
      · simp only [String.toList, List.mem_cons, List.mem_singleton, List.not_mem_nil,
          or_false] at h1
        rcases h1 with h2 | h2 <;> subst h2 <;> exact ⟨by decide, by decide⟩)
    (by rw [typed_keys_press, hlen]; decide) ⟨rfl, rfl⟩
  rw [h, typed_keys_press]

set_option maxRecDepth 1000000

theorem overlong_command_line_route :
    find_redirect overlong_command_line = (1, 256)
    ∧ shell_route overlong_command_line = Route.redirect 256 1
    ∧ redirect_cmd_len overlong_command_line 256 = 256 := by
  decide

/-- C28 fails at the line of 256 times `a` followed by `>f`: it has 258
characters, the editor returns it when it is typed, the main loop sends it to
`exec_redirect` with the operator at index 256, the trimmed command length is
256, and the terminator store `cmd_part[cmd_len]` is a write at index 256 of
the 256-byte buffer. In general the writes into `cmd_part` are all below 256
exactly when the trimmed command length is at most 255. -/
theorem C28_terminator_out_of_bounds :
    overlong_command_line.length = 258
    ∧ (∀ buf : List Char, buf.length = 512 →
        shell_read_line demo_keys buf (overlong_command_line.map press ++ [press '\n'])
          = some overlong_command_line)
    ∧ shell_route overlong_command_line = Route.redirect 256 1
    ∧ redirect_cmd_len overlong_command_line 256 = 256
    ∧ 256 ∈ redirect_cmd_writes overlong_command_line 256
    ∧ (∀ input redir_pos, (∀ i ∈ redirect_cmd_writes input redir_pos, i < 256)
        ↔ redirect_cmd_len input redir_pos ≤ 255) := by
  refine ⟨?_, overlong_command_line_typed, overlong_command_line_route.2.1,
    overlong_command_line_route.2.2, ?_, redirect_cmd_writes_bound⟩
  · rw [overlong_command_line, List.length_append, List.length_replicate]
    rfl
  · rw [redirect_cmd_writes, overlong_command_line_route.2.2]
    exact List.mem_append_right _ (List.mem_singleton_self _)

/-! ## Redirection: a spawn that fails -/

/-- C29: for an overwrite redirection with a command and a filename whose
target resolves to `node` and whose spawn fails, `exec_redirect` returns -1
and its calls are, in this order: create the target if absent, resolve it,
truncate it to length 0, the spawn, and the three prints of the message
`redirect: command not found`; so the truncation comes before the spawn and
no call makes a process foreground, waits, or flushes the size of the
file. -/
theorem C29_failed_spawn_after_truncate (w : World) (input : List Char) (redir_pos : Nat)
    (node : vfs_node) (hcmd : has_command input redir_pos)
    (hfile : has_filename input redir_pos 1)
    (hres : w.resolve (redirect_target w input redir_pos 1) = some node)
    (hspawn : w.spawn 0 (program_path (redirect_verb input redir_pos)) < 0) :
    exec_redirect w input redir_pos 1 =
      (-1, [Call.fat32_touch_path (redirect_target w input redir_pos 1),
            Call.vfs_resolve_path (redirect_target w input redir_pos 1),
            Call.fat32_truncate node 0,
            redirect_spawn input redir_pos 1 node,
            Call.mt_print "redirect: command not found: ".toList,
            Call.mt_print (redirect_verb input redir_pos),
            Call.mt_print "\n".toList])
    ∧ (∀ c ∈ (exec_redirect w input redir_pos 1).2,
        c.is_foreground = false ∧ c.is_wait = false ∧ c.is_flush = false) := by
  have hwf := redirect_well_formed input redir_pos 1 hcmd hfile
  have heq : exec_redirect w input redir_pos 1 =
      (-1, [Call.fat32_touch_path (redirect_target w input redir_pos 1),
            Call.vfs_resolve_path (redirect_target w input redir_pos 1),
            Call.fat32_truncate node 0,
            redirect_spawn input redir_pos 1 node,
            Call.mt_print "redirect: command not found: ".toList,
            Call.mt_print (redirect_verb input redir_pos),
            Call.mt_print "\n".toList]) := by
    unfold redirect_target at hres
    unfold redirect_verb at hspawn
    unfold exec_redirect
    simp only [hwf, if_false, hres, hspawn, redirect_target, redirect_spawn, redirect_verb,
      redirect_args]
    simp
  refine ⟨heq, ?_⟩
  rw [heq]
  intro c hc
  simp only [List.mem_cons, List.mem_singleton, List.not_mem_nil, or_false] at hc
  rcases hc with h | h | h | h | h | h | h <;> subst h <;> exact ⟨rfl, rfl, rfl⟩

/-- C29 at the line `cmd > file.txt` in a kernel whose first spawn fails. -/
theorem C29_failed_spawn_after_truncate_witness :
    exec_redirect world_first_fails "cmd > file.txt".toList 4 1 =
      (-1, [Call.fat32_touch_path "/file.txt".toList,
            Call.vfs_resolve_path "/file.txt".toList,
            Call.fat32_truncate ⟨7, 0, false⟩ 0,
            Call.sched_spawn "/apps/cmd".toList "cmd".toList none
              (some (redirect_fds ⟨7, 0, false⟩ 1)),
            Call.mt_print "redirect: command not found: ".toList,
            Call.mt_print "cmd".toList,
            Call.mt_print "\n".toList]) :=
  (C29_failed_spawn_after_truncate world_first_fails "cmd > file.txt".toList 4 ⟨7, 0, false⟩
    ⟨0, by decide, by decide⟩ ⟨'f', by decide, by decide⟩ (by decide) (by decide)).1

/-! ## Working directory: `normalize_path` -/

theorem read_component_mem (mn : Nat) (p : List Char) :
    ∀ (comp : List Char) (x : Char), x ∈ (read_component mn comp p).1 →
      x ∈ comp ∨ (x ≠ '/' ∧ x ≠ NUL) := by
  induction p with
  | nil =>
    intro comp x hx
    exact Or.inl hx
  | cons c cs ih =>
    intro comp x hx
    rw [read_component] at hx
    split at hx
    · next hc =>
      rcases ih _ x hx with h | h
      · split at h
        · rcases List.mem_append.mp h with h1 | h1
          · exact Or.inl h1
          · rw [List.mem_singleton] at h1
            rw [h1]
            exact Or.inr ⟨hc.2, hc.1⟩
        · exact Or.inl h
      · exact Or.inr h
    · exact Or.inl hx

theorem read_component_length (mn : Nat) (p : List Char) :
    ∀ comp : List Char, comp.length ≤ mn - 1 →
      (read_component mn comp p).1.length ≤ mn - 1 := by
  induction p with
  | nil =>
    intro comp h
    exact h
  | cons c cs ih =>
    intro comp h
    rw [read_component]
    split
    · apply ih
      split
      · rw [List.length_append, List.length_singleton]
        omega
      · exact h
    · exact h

theorem at_boundary_cases (p : List Char) (h : at_boundary p) :
    p = [] ∨ ∃ c cs, p = c :: cs ∧ (c = NUL ∨ c = '/') := by
  cases p with
  | nil => exact Or.inl rfl
  | cons c cs =>
    refine Or.inr ⟨c, cs, rfl, ?_⟩
    unfold at_boundary at h
    rw [cget_cons_zero] at h
    exact h

theorem read_component_append (mn : Nat) (c p : List Char) (hp : at_boundary p) :
    ∀ comp : List Char, comp.length + c.length ≤ mn - 1 → (∀ x ∈ c, x ≠ '/' ∧ x ≠ NUL) →
      read_component mn comp (c ++ p) = (comp ++ c, p) := by
  induction c with
  | nil =>
    intro comp _ _
    rw [List.nil_append, List.append_nil]
    rcases at_boundary_cases p hp with h | ⟨x, xs, h, hx⟩
    · rw [h, read_component]
    · rw [h, read_component, if_neg]
      rintro ⟨h1, h2⟩
      rcases hx with hx | hx
      · exact h1 hx
      · exact h2 hx
  | cons x xs ih =>
    intro comp hlen hc
    have hx := hc x (List.mem_cons_self _ _)
    rw [List.length_cons] at hlen
    rw [List.cons_append, read_component, if_pos ⟨hx.2, hx.1⟩, if_pos (by omega),
      ih _ (by rw [List.length_append, List.length_singleton]; omega)
        (fun y hy => hc y (List.mem_cons_of_mem _ hy)),
      List.append_assoc, List.singleton_append]

theorem kept_path_cons (c : List Char) (rs : List (List Char))
    (hrs : ∀ x ∈ rs, x ≠ []) :
    kept_path (c :: rs) =
      (if (kept_path rs).length > 1 then kept_path rs ++ ['/'] else kept_path rs) ++ c := by
  cases rs with
  | nil => rfl
  | cons d ds =>
    have hd : d ≠ [] := hrs d (List.mem_cons_self _ _)
    have h1 : 0 < d.length := List.length_pos.mpr hd
    have hlen : (kept_path (d :: ds)).length > 1 := by
      cases ds with
      | nil =>
        show (['/'] ++ d).length > 1
        rw [List.length_append, List.length_singleton]
        omega
      | cons e es =>
        show ((kept_path (e :: es) ++ ['/']) ++ d).length > 1
        rw [List.length_append, List.length_append, List.length_singleton]
        omega
    rw [if_pos hlen]
    rfl

theorem kept_path_take (c : List Char) (rs : List (List Char)) :
    (kept_path (c :: rs)).take (kept_path rs).length = kept_path rs := by
  cases rs with
  | nil => rfl
  | cons d ds =>
    show ((kept_path (d :: ds) ++ ['/']) ++ c).take (kept_path (d :: ds)).length = _
    rw [List.append_assoc, List.take_left]

theorem kept_path_length_le (c : List Char) (rs : List (List Char)) :
    (kept_path rs).length ≤ (kept_path (c :: rs)).length := by
  have h := kept_path_take c rs
  have := congrArg List.length h
  rw [List.length_take] at this
  omega

theorem proper_of_tests (c : List Char) (hc : ∀ x ∈ c, x ≠ '/' ∧ x ≠ NUL)
    (h1 : ¬ (cget c 0 = NUL ∨ (cget c 0 = '.' ∧ cget c 1 = NUL)))
    (h2 : ¬ (cget c 0 = '.' ∧ cget c 1 = '.' ∧ cget c 2 = NUL)) :
    proper_component c := by
  refine ⟨?_, ?_, ?_, hc⟩
  · intro h
    rw [h] at h1
    exact h1 (Or.inl rfl)
  · intro h
    rw [h] at h1
    exact h1 (Or.inr ⟨rfl, rfl⟩)
  · intro h
    rw [h] at h2
    exact h2 ⟨rfl, rfl, rfl⟩

theorem cget_zero_eq_nul (c : List Char) (hc : ∀ x ∈ c, x ≠ '/' ∧ x ≠ NUL)
    (h : cget c 0 = NUL) : c = [] := by
  cases c with
  | nil => rfl
  | cons x xs =>
    rw [cget_cons_zero] at h
    exact absurd h (hc x (List.mem_cons_self _ _)).2

theorem tests_of_proper (c : List Char) (h : proper_component c) :
    ¬ (cget c 0 = NUL ∨ (cget c 0 = '.' ∧ cget c 1 = NUL))
    ∧ ¬ (cget c 0 = '.' ∧ cget c 1 = '.' ∧ cget c 2 = NUL) := by
  obtain ⟨h0, h1, h2, hc⟩ := h
  cases c with
  | nil => exact absurd rfl h0
  | cons x xs =>
    have hxs : ∀ y ∈ xs, y ≠ '/' ∧ y ≠ NUL := fun y hy => hc y (List.mem_cons_of_mem _ hy)
    refine ⟨?_, ?_⟩
    · rintro (h | ⟨ha, hb⟩)
      · rw [cget_cons_zero] at h
        exact (hc x (List.mem_cons_self _ _)).2 h
      · rw [cget_cons_zero] at ha
        rw [cget_cons_succ] at hb
        rw [ha, cget_zero_eq_nul xs hxs hb] at h1
        exact h1 rfl
    · rintro ⟨ha, hb, hd⟩
      rw [cget_cons_zero] at ha
      rw [cget_cons_succ] at hb hd
      cases xs with
      | nil =>
        rw [cget_nil] at hb
        exact absurd hb (by decide)
      | cons y ys =>
        rw [cget_cons_zero] at hb
        rw [cget_cons_succ] at hd
        have hys : ∀ z ∈ ys, z ≠ '/' ∧ z ≠ NUL :=
          fun z hz => hxs z (List.mem_cons_of_mem _ hz)
        rw [ha, hb, cget_zero_eq_nul ys hys hd] at h2
        exact h2 rfl

theorem normalize_loop_kept (mn os : Nat) (out : List Char) (fuel : Nat) :
    ∀ (p : List Char) (rs : List (List Char)),
      (∀ c ∈ rs, proper_component c ∧ c.length ≤ mn - 1) →
      (kept_path rs).length < os →
      normalize_loop mn os fuel p (kept_path rs) (kept_stack rs) = some out →
      ∃ rs' : List (List Char), (∀ c ∈ rs', proper_component c ∧ c.length ≤ mn - 1)
        ∧ (kept_path rs').length < os ∧ out = kept_path rs' := by
  induction fuel with
  | zero =>
    intro p rs _ _ h
    rw [normalize_loop] at h
    cases h
  | succ n ih =>
    intro p rs hrs hfit h
    rw [normalize_loop] at h
    simp only [] at h
    split at h
    · exact ⟨rs, hrs, hfit, (Option.some.inj h).symm⟩
    · split at h
      · exact ⟨rs, hrs, hfit, (Option.some.inj h).symm⟩
      · split at h
        · exact ih _ rs hrs hfit h
        · next hskip =>
          split at h
          · cases rs with
            | nil => exact ih _ [] hrs hfit h
            | cons c rs1 =>
              have hrs1 : ∀ x ∈ rs1, proper_component x ∧ x.length ≤ mn - 1 :=
                fun x hx => hrs x (List.mem_cons_of_mem _ hx)
              have hfit1 : (kept_path rs1).length < os :=
                Nat.lt_of_le_of_lt (kept_path_length_le c rs1) hfit
              change normalize_loop mn os n _ ((kept_path (c :: rs1)).take (kept_path rs1).length)
                (kept_stack rs1) = some out at h
              rw [kept_path_take] at h
              exact ih _ rs1 hrs1 hfit1 h
          · next hdd =>
            have hcomp : ∀ x ∈ (read_component mn [] (skip_slashes p)).1,
                x ≠ '/' ∧ x ≠ NUL := by
              intro x hx
              rcases read_component_mem mn _ [] x hx with h1 | h1
              · cases h1
              · exact h1
            have hprop := proper_of_tests _ hcomp hskip hdd
            have hlen := read_component_length mn (skip_slashes p) [] (Nat.zero_le _)
            have hkp := kept_path_cons (read_component mn [] (skip_slashes p)).1 rs
              (fun x hx => (hrs x hx).1.1)
            have hl : (if (kept_path rs).length > 1 then kept_path rs ++ ['/']
                else kept_path rs).length + (read_component mn [] (skip_slashes p)).1.length
                = (kept_path ((read_component mn [] (skip_slashes p)).1 :: rs)).length := by
              rw [hkp, List.length_append]
            by_cases hsz1 : (kept_path rs).length > 1 ∧ (kept_path rs).length ≥ os - 1
            · rw [if_pos hsz1] at h
              cases h
            · rw [if_neg hsz1, hl, ← hkp] at h
              by_cases hsz2 : (kept_path ((read_component mn [] (skip_slashes p)).1 :: rs)).length
                  ≥ os
              · rw [if_pos hsz2] at h
                cases h
              · rw [if_neg hsz2] at h
                refine ih _ ((read_component mn [] (skip_slashes p)).1 :: rs) ?_ ?_ h
                · intro x hx
                  rcases List.mem_cons.mp hx with h1 | h1
                  · rw [h1]
                    exact ⟨hprop, hlen⟩
                  · exact hrs x h1
                · omega

theorem skip_slashes_of_ne (p : List Char) (h : cget p 0 ≠ '/') : skip_slashes p = p := by
  cases p with
  | nil => rfl
  | cons c cs =>
    rw [cget_cons_zero] at h
    rw [skip_slashes, if_neg h]

theorem normalize_loop_slash (mn os n : Nat) (p out : List Char) (stack : List Nat) :
    normalize_loop mn os (n + 1) ('/' :: p) out stack
      = normalize_loop mn os (n + 1) p out stack := by
  have h0 : ¬ cget ('/' :: p) 0 = NUL := by
    rw [cget_cons_zero]
    decide
  have hs : skip_slashes ('/' :: p) = skip_slashes p := by
    rw [skip_slashes, if_pos rfl]
  rw [normalize_loop, normalize_loop]
  simp only []
  rw [if_neg h0, hs]
  by_cases hp : cget p 0 = NUL
  · have hne : cget p 0 ≠ '/' := by
      rw [hp]
      decide
    rw [if_pos hp, skip_slashes_of_ne p hne, if_pos hp]
  · rw [if_neg hp]

theorem normalize_loop_keep (mn os : Nat) (c p : List Char) (rs : List (List Char))
    (fuel fuel' : Nat) (hc : proper_component c) (hclen : c.length ≤ mn - 1)
    (hrs : ∀ x ∈ rs, x ≠ []) (hp : at_boundary p)
    (hfit : (kept_path (c :: rs)).length < os)
    (hf : ('/' :: (c ++ p)).length < fuel) (hf' : p.length < fuel') :
    normalize_loop mn os fuel ('/' :: (c ++ p)) (kept_path rs) (kept_stack rs)
      = normalize_loop mn os fuel' p (kept_path (c :: rs)) (kept_stack (c :: rs)) := by
  cases fuel with
  | zero => exact absurd hf (Nat.not_lt_zero _)
  | succ n =>
    obtain ⟨x, xs, hcx⟩ : ∃ x xs, c = x :: xs := by
      cases c with
      | nil => exact absurd rfl hc.1
      | cons x xs => exact ⟨x, xs, rfl⟩
    have hx := hc.2.2.2 x (by rw [hcx]; exact List.mem_cons_self _ _)
    have h0 : ¬ cget ('/' :: (c ++ p)) 0 = NUL := by
      rw [cget_cons_zero]
      decide
    have hs : skip_slashes ('/' :: (c ++ p)) = c ++ p := by
      rw [skip_slashes, if_pos rfl, hcx, List.cons_append, skip_slashes, if_neg hx.1]
    have h1 : ¬ cget (c ++ p) 0 = NUL := by
      rw [hcx, List.cons_append, cget_cons_zero]
      exact hx.2
    have hr : read_component mn [] (c ++ p) = (c, p) := by
      have := read_component_append mn c p hp [] (by simpa using hclen) hc.2.2.2
      rw [List.nil_append] at this
      exact this
    have ht := tests_of_proper c hc
    have hkp := kept_path_cons c rs hrs
    have hl : (if (kept_path rs).length > 1 then kept_path rs ++ ['/']
        else kept_path rs).length + c.length = (kept_path (c :: rs)).length := by
      rw [hkp, List.length_append]
    have hsz1 : ¬ ((kept_path rs).length > 1 ∧ (kept_path rs).length ≥ os - 1) := by
      rintro ⟨ha, hb⟩
      rw [hkp, if_pos ha, List.length_append, List.length_append, List.length_singleton] at hfit
      omega
    have hsz2 : ¬ (kept_path (c :: rs)).length ≥ os := by omega
    rw [normalize_loop]
    simp only []
    rw [if_neg h0, hs, if_neg h1, hr]
    simp only []
    rw [if_neg ht.1, if_neg ht.2, if_neg hsz1, hl, ← hkp, if_neg hsz2]
    have hlen : p.length < n := by
      simp only [List.length_cons, List.length_append] at hf
      omega
    exact normalize_loop_fuel mn os n fuel' p _ _ hlen hf'

theorem normalize_loop_dotdot (mn os : Nat) (p : List Char) (rs : List (List Char))
    (fuel fuel' : Nat) (hmn : 3 ≤ mn) (hp : at_boundary p)
    (hf : ('/' :: '.' :: '.' :: p).length < fuel) (hf' : p.length < fuel') :
    normalize_loop mn os fuel ('/' :: '.' :: '.' :: p) (kept_path rs) (kept_stack rs)
      = normalize_loop mn os fuel' p (kept_path rs.tail) (kept_stack rs.tail) := by
  cases fuel with
  | zero => exact absurd hf (Nat.not_lt_zero _)
  | succ n =>
    have h0 : ¬ cget ('/' :: '.' :: '.' :: p) 0 = NUL := by
      rw [cget_cons_zero]
      decide
    have hs : skip_slashes ('/' :: '.' :: '.' :: p) = '.' :: '.' :: p := by
      rw [skip_slashes, if_pos rfl, skip_slashes, if_neg (by decide)]
    have h1 : ¬ cget ('.' :: '.' :: p) 0 = NUL := by
      rw [cget_cons_zero]
      decide
    have hr : read_component mn [] ('.' :: '.' :: p) = (['.', '.'], p) := by
      have := read_component_append mn ['.', '.'] p hp []
        (by
          show 0 + 2 ≤ mn - 1
          omega)
        (by decide)
      exact this
    have ht1 : ¬ (cget ['.', '.'] 0 = NUL ∨ (cget ['.', '.'] 0 = '.' ∧ cget ['.', '.'] 1 = NUL)) := by
      decide
    have ht2 : cget ['.', '.'] 0 = '.' ∧ cget ['.', '.'] 1 = '.' ∧ cget ['.', '.'] 2 = NUL := by
      decide
    have hlen : p.length < n := by
      simp only [List.length_cons] at hf
      omega
    rw [normalize_loop]
    simp only []
    rw [if_neg h0, hs, if_neg h1, hr]
    simp only []
    rw [if_neg ht1, if_pos ht2]
    cases rs with
    | nil => exact normalize_loop_fuel mn os n fuel' p _ _ hlen hf'
    | cons c rs1 =>
      show normalize_loop mn os n p ((kept_path (c :: rs1)).take (kept_path rs1).length)
        (kept_stack rs1) = _
      rw [kept_path_take]
      exact normalize_loop_fuel mn os n fuel' p _ _ hlen hf'

theorem normalize_loop_prefix (mn os : Nat) (rs : List (List Char)) :
    ∀ (p : List Char) (fuel fuel' : Nat),
      (∀ c ∈ rs, proper_component c ∧ c.length ≤ mn - 1) →
      (kept_path rs).length < os → at_boundary p →
      (kept_path rs ++ p).length < fuel → p.length < fuel' →
      normalize_loop mn os fuel (kept_path rs ++ p) ['/'] []
        = normalize_loop mn os fuel' p (kept_path rs) (kept_stack rs) := by
  induction rs with
  | nil =>
    intro p fuel fuel' _ _ _ hf hf'
    cases fuel with
    | zero => exact absurd hf (Nat.not_lt_zero _)
    | succ n =>
      have hlen : p.length < n + 1 := by
        have : (kept_path [] ++ p).length = p.length + 1 := rfl
        omega
      show normalize_loop mn os (n + 1) ('/' :: p) ['/'] [] = _
      rw [normalize_loop_slash]
      exact normalize_loop_fuel mn os (n + 1) fuel' p _ _ hlen hf'
  | cons c rs1 ih =>
    intro p fuel fuel' hrs hfit hp hf hf'
    have hc := hrs c (List.mem_cons_self _ _)
    have hrs1 : ∀ x ∈ rs1, proper_component x ∧ x.length ≤ mn - 1 :=
      fun x hx => hrs x (List.mem_cons_of_mem _ hx)
    have hne1 : ∀ x ∈ rs1, x ≠ [] := fun x hx => (hrs1 x hx).1.1
    have hfit1 : (kept_path rs1).length < os :=
      Nat.lt_of_le_of_lt (kept_path_length_le c rs1) hfit
    have hb : at_boundary ('/' :: (c ++ p)) := Or.inr (cget_cons_zero _ _)
    cases rs1 with
    | nil =>
      exact normalize_loop_keep mn os c p [] fuel fuel' hc.1 hc.2 hne1 hp hfit hf hf'
    | cons d ds =>
      have heq : kept_path (c :: d :: ds) ++ p = kept_path (d :: ds) ++ ('/' :: (c ++ p)) := by
        show ((kept_path (d :: ds) ++ ['/']) ++ c) ++ p = _
        simp only [List.append_assoc, List.singleton_append, List.cons_append, List.nil_append]
      rw [heq] at hf ⊢
      rw [ih ('/' :: (c ++ p)) fuel (('/' :: (c ++ p)).length + 1) hrs1 hfit1 hb hf
        (Nat.lt_succ_self _)]
      exact normalize_loop_keep mn os c p (d :: ds) _ fuel' hc.1 hc.2 hne1 hp hfit
        (Nat.lt_succ_self _) hf'

theorem join_components_append (l m : List (List Char)) :
    join_components (l ++ m) = join_components l ++ join_components m := by
  induction l with
  | nil => rfl
  | cons c cs ih =>
    rw [List.cons_append, join_components, join_components, ih]
    simp only [List.cons_append, List.append_assoc]

theorem path_of_ne_nil (l : List (List Char)) (h : l ≠ []) : path_of l = join_components l := by
  cases l with
  | nil => exact absurd rfl h
  | cons c cs => rfl

theorem kept_path_eq_path_of (rs : List (List Char)) : kept_path rs = path_of rs.reverse := by
  induction rs with
  | nil => rfl
  | cons c rs1 ih =>
    have hj : join_components [c] = '/' :: c := by
      rw [join_components, join_components, List.append_nil]
    rw [List.reverse_cons, path_of_ne_nil _ (by simp), join_components_append, hj]
    cases rs1 with
    | nil => rfl
    | cons d ds =>
      show (kept_path (d :: ds) ++ ['/']) ++ c = _
      rw [ih, path_of_ne_nil _ (by simp), List.append_assoc, List.singleton_append]

theorem kept_path_head (rs : List (List Char)) : (kept_path rs).head? = some '/' := by
  induction rs with
  | nil => rfl
  | cons c rs1 ih =>
    cases rs1 with
    | nil => rfl
    | cons d ds =>
      show ((kept_path (d :: ds) ++ ['/']) ++ c).head? = _
      have hne : kept_path (d :: ds) ≠ [] := by
        intro h
        rw [h] at ih
        cases ih
      rw [List.append_assoc, List.head?_append_of_ne_nil _ hne, ih]

theorem kept_path_getLast (rs : List (List Char))
    (hrs : ∀ c ∈ rs, proper_component c) (h : kept_path rs ≠ ['/']) :
    (kept_path rs).getLast? ≠ some '/' := by
  cases rs with
  | nil => exact absurd rfl h
  | cons c rs1 =>
    have hc := hrs c (List.mem_cons_self _ _)
    have hk : ∃ x, kept_path (c :: rs1) = x ++ c := by
      cases rs1 with
      | nil => exact ⟨['/'], rfl⟩
      | cons d ds => exact ⟨kept_path (d :: ds) ++ ['/'], rfl⟩
    obtain ⟨x, hx⟩ := hk
    rw [hx, List.getLast?_append_of_ne_nil _ hc.1, List.getLast?_eq_getLast _ hc.1]
    intro hl
    exact (hc.2.2.2 _ (List.getLast_mem hc.1)).1 (Option.some.inj hl)

theorem normalize_path_kept (mn os : Nat) (inp out : List Char)
    (h : normalize_path mn inp os = some out) :
    ∃ rs : List (List Char), (∀ c ∈ rs, proper_component c ∧ c.length ≤ mn - 1)
      ∧ (kept_path rs).length < os ∧ out = kept_path rs := by
  unfold normalize_path at h
  split at h
  · cases h
  · next hos =>
    split at h
    · cases h
    · next o heq =>
      obtain ⟨rs, hrs, hfit, ho⟩ := normalize_loop_kept mn os o (inp.length + 1) inp []
        (fun c hc => by cases hc)
        (by
          show 1 < os
          omega)
        heq
      refine ⟨rs, hrs, hfit, ?_⟩
      have hne : ¬ o.length = 0 := by
        intro h0
        have := kept_path_head rs
        rw [← ho, List.length_eq_zero.mp h0] at this
        cases this
      rw [if_neg hne] at h
      rw [← Option.some.inj h, ho]

theorem normalize_path_of_kept (mn os : Nat) (rs : List (List Char))
    (hrs : ∀ c ∈ rs, proper_component c ∧ c.length ≤ mn - 1)
    (hfit : (kept_path rs).length < os) :
    normalize_path mn (kept_path rs) os = some (kept_path rs) := by
  have hpos : 0 < (kept_path rs).length := by
    cases hk : kept_path rs with
    | nil =>
      have := kept_path_head rs
      rw [hk] at this
      cases this
    | cons x xs => exact Nat.succ_pos _
  have hrun := normalize_loop_prefix mn os rs [] ((kept_path rs).length + 1) 1 hrs hfit
    (Or.inl (cget_nil 0)) (by rw [List.append_nil]; exact Nat.lt_succ_self _) Nat.one_pos
  rw [List.append_nil] at hrun
  have hend : normalize_loop mn os 1 [] (kept_path rs) (kept_stack rs) = some (kept_path rs) := by
    rw [normalize_loop, if_pos (cget_nil 0)]
  unfold normalize_path
  rw [if_neg (by omega), hrun, hend]
  simp only []
  rw [if_neg (by omega)]

theorem normalize_path_dotdot_kept (mn os : Nat) (rs : List (List Char)) (rest : List Char)
    (hmn : 3 ≤ mn) (hrs : ∀ c ∈ rs, proper_component c ∧ c.length ≤ mn - 1)
    (hfit : (kept_path rs).length < os) (hrest : at_boundary rest) :
    normalize_path mn (kept_path rs ++ ('/' :: '.' :: '.' :: rest)) os
      = normalize_path mn (kept_path rs.tail ++ rest) os := by
  have htail : ∀ c ∈ rs.tail, proper_component c ∧ c.length ≤ mn - 1 :=
    fun c hc => hrs c (List.mem_of_mem_tail hc)
  have hfit' : (kept_path rs.tail).length < os := by
    cases rs with
    | nil => exact hfit
    | cons c rs1 => exact Nat.lt_of_le_of_lt (kept_path_length_le c rs1) hfit
  have hl := normalize_loop_prefix mn os rs ('/' :: '.' :: '.' :: rest)
    ((kept_path rs ++ ('/' :: '.' :: '.' :: rest)).length + 1)
    (('/' :: '.' :: '.' :: rest).length + 1) hrs hfit (Or.inr (cget_cons_zero _ _))
    (Nat.lt_succ_self _) (Nat.lt_succ_self _)
  have hd := normalize_loop_dotdot mn os rest rs (('/' :: '.' :: '.' :: rest).length + 1)
    (rest.length + 1) hmn hrest (Nat.lt_succ_self _) (Nat.lt_succ_self _)
  have hr := normalize_loop_prefix mn os rs.tail rest
    ((kept_path rs.tail ++ rest).length + 1) (rest.length + 1) htail hfit' hrest
    (Nat.lt_succ_self _) (Nat.lt_succ_self _)
  unfold normalize_path
  rw [hl, hd, hr]

theorem normalize_path_dotdot (mn os : Nat) (comps : List (List Char)) (rest : List Char)
    (hmn : 3 ≤ mn) (hcomps : ∀ c ∈ comps, proper_component c ∧ c.length ≤ mn - 1)
    (hfit : (path_of comps).length < os) (hrest : at_boundary rest) :
    normalize_path mn (path_of comps ++ "/..".toList ++ rest) os
      = normalize_path mn (path_of comps.dropLast ++ rest) os := by
  have h1 : kept_path comps.reverse = path_of comps := by
    rw [kept_path_eq_path_of, List.reverse_reverse]
  have h2 : kept_path comps.reverse.tail = path_of comps.dropLast := by
    rw [kept_path_eq_path_of, List.tail_reverse, List.reverse_reverse]
  have h := normalize_path_dotdot_kept mn os comps.reverse rest hmn
    (fun c hc => hcomps c (List.mem_reverse.mp hc)) (by rw [h1]; exact hfit) hrest
  rw [h1, h2] at h
  rw [List.append_assoc]
  exact h

/-- C30: when `normalize_path` succeeds, its output is the path of a list of
components none of which is empty, `.` or `..` or holds a `/`: it starts with
`/` and, unless it is exactly `/`, does not end with `/`; normalising the
output again (same sizes) returns it unchanged. When the name size is at
least 3, a `..` after a canonical path that fits the output buffer removes
its last component, and removes nothing when there is none, whatever follows
at a component boundary. The paths `/a/b/../..` and `/../..` both give
`/`. -/
theorem C30_normalize_canonical (mn os : Nat) (inp out : List Char)
    (h : normalize_path mn inp os = some out) :
    canonical_path out
    ∧ out.head? = some '/'
    ∧ (out ≠ ['/'] → out.getLast? ≠ some '/')
    ∧ normalize_path mn out os = some out
    ∧ (3 ≤ mn → ∀ (comps : List (List Char)) (rest : List Char),
        (∀ c ∈ comps, proper_component c ∧ c.length ≤ mn - 1) →
        (path_of comps).length < os → at_boundary rest →
        normalize_path mn (path_of comps ++ "/..".toList ++ rest) os
          = normalize_path mn (path_of comps.dropLast ++ rest) os)
    ∧ normalize_path 64 "/a/b/../..".toList 256 = some "/".toList
    ∧ normalize_path 64 "/../..".toList 256 = some "/".toList := by
  obtain ⟨rs, hrs, hfit, hout⟩ := normalize_path_kept mn os inp out h
  refine ⟨⟨rs.reverse, fun c hc => (hrs c (List.mem_reverse.mp hc)).1, ?_⟩, ?_, ?_, ?_,
    fun hmn comps rest hc hf hr => normalize_path_dotdot mn os comps rest hmn hc hf hr,
    by decide, by decide⟩
  · rw [hout, kept_path_eq_path_of]
  · rw [hout]
    exact kept_path_head rs
  · rw [hout]
    exact kept_path_getLast rs (fun c hc => (hrs c hc).1)
  · rw [hout]
    exact normalize_path_of_kept mn os rs hrs hfit

/-- C30 at the path `/a/./b//../c/`, which normalises to `/a/c`. -/
theorem C30_normalize_canonical_witness :
    normalize_path 64 "/a/./b//../c/".toList 256 = some "/a/c".toList
    ∧ canonical_path "/a/c".toList
    ∧ normalize_path 64 "/a/c".toList 256 = some "/a/c".toList :=
  have h : normalize_path 64 "/a/./b//../c/".toList 256 = some "/a/c".toList := by decide
  ⟨h, (C30_normalize_canonical 64 256 _ _ h).1, (C30_normalize_canonical 64 256 _ _ h).2.2.2.1⟩

end Bridge
